import Mathlib

/-!
# Verification of the Barotrauma Modding Tool core

A shallow embedding, in Lean 4, of the algorithmic core of the
Barotrauma_Modding_Tool repository (Python), together with proofs of the
testable properties stated in its specification.

Embedded components, each translated from the named source file:
* `CacheManager` (src/Code/handlers/cache_manager.py): the content-hash
  keyed package cache.
* `PartsManager._process_config` / `_process_single_xml`
  (src/Code/handlers/parts_manager.py): the content toggler.
* `ModManager.process_errors` / `ModManager.sort` and the
  activation primitives (src/Code/handlers/mod_manager.py).
* `IDExtractor` (src/Code/package/id_parser.py): identifier extraction.

Modelling conventions:
* Python sets are modelled as Lean lists with insert-if-absent, so that
  membership coincides with Python set membership.  Python's set
  iteration order is unspecified; where the source iterates a set, the
  model iterates in insertion order.  None of the proved statements
  depend on that order.
* Python dicts are modelled as association lists with first-match
  lookup; the modelled dicts are only built at distinct keys.
* The opaque condition evaluator `process_condition` is passed to each
  definition as a function parameter `pc : String → List String → Bool`.
* The localisation function `loc.get_string` is modelled by concrete
  string constructors (`locUnfindMod`, `locOverrideId`).
-/

namespace BMT

/-- Model of Python `str.lower()` (character-wise lowering; the tags
and attribute values the tool lowers are ASCII).  `String.toLower`
itself does not reduce inside the kernel, so the model maps over the
character list. -/
def strLower (s : String) : String := ⟨s.data.map Char.toLower⟩

/-- First-match association-list lookup (model of Python `dict.get`). -/
def aget {β : Type} (l : List (String × β)) (k : String) : Option β :=
  match l with
  | [] => none
  | (k', v) :: rest => if k' = k then some v else aget rest k

/-- Association-list lookup with a default (model of `dict.get(k, d)`). -/
def agetD {β : Type} (l : List (String × β)) (k : String) (d : β) : β :=
  (aget l k).getD d

/-- Store under a key, overwriting an existing binding (model of
`dict[k] = v`).  New keys are appended, matching dict insertion order. -/
def aset {β : Type} (l : List (String × β)) (k : String) (v : β) :
    List (String × β) :=
  match l with
  | [] => [(k, v)]
  | (k', v') :: rest =>
      if k' = k then (k, v) :: rest else (k', v') :: aset rest k v

/-- Insert-if-absent (model of Python `set.add` on a set modelled as a
list in insertion order). -/
def sadd (l : List String) (x : String) : List String :=
  if x ∈ l then l else l ++ [x]

theorem mem_sadd {l : List String} {x y : String} :
    y ∈ sadd l x ↔ y ∈ l ∨ y = x := by
  unfold sadd
  split
  · constructor
    · exact fun h => Or.inl h
    · rintro (h | rfl) <;> [exact h; assumption]
  · simp [or_comm]

theorem sadd_subset {l : List String} {x : String} : l ⊆ sadd l x := by
  intro y hy; exact mem_sadd.mpr (Or.inl hy)

theorem aget_aset_self {β : Type} (l : List (String × β)) (k : String) (v : β) :
    aget (aset l k v) k = some v := by
  induction l with
  | nil => simp [aset, aget]
  | cons hd tl ih =>
      obtain ⟨k', v'⟩ := hd
      by_cases h : k' = k
      · simp [aset, aget, h]
      · simp [aset, aget, h, ih]

section Cache

/-!
## CacheManager (src/Code/handlers/cache_manager.py)

`_compute_mod_hash` streams the raw bytes of `filelist.xml` and
`metadata.xml` (in that order, each missing file silently skipped) into
an MD5 hasher.  The model replaces MD5 with the identity on the streamed
byte sequence, i.e. the fingerprint is the concatenation of the bytes
fed to the hasher; this abstracts MD5 as injective (drift detection, as
the spec says, is the only requirement placed on it).
-/

/-- A cached package snapshot.  Only the fields the cache claims touch
are modelled; `pathKey` is `str(mod.path.resolve())`. -/
structure CMod where
  name : String
  pathKey : String
  deriving DecidableEq, Repr

/-- Model of `CacheManager._compute_mod_hash`: the byte stream fed to
the hasher.  `fl`/`meta` are the current bytes of `filelist.xml` and
`metadata.xml` at the package path, `none` when the file is missing
(a missing file contributes nothing to the hash). -/
def computeModHash (fl meta : Option (List Nat)) : List Nat :=
  fl.getD [] ++ meta.getD []

/-- The in-memory cache: `{path_key: (hash, mod)}`. -/
def CacheData := List (String × (List Nat × CMod))

/-- Model of `CacheManager.get_cached_mod`: return the snapshot only if
the recomputed fingerprint of the identity files matches the stored
one. -/
def getCachedMod (cache : CacheData) (pathKey : String)
    (fl meta : Option (List Nat)) : Option CMod :=
  match aget cache pathKey with
  | none => none
  | some (cachedHash, modUnit) =>
      if computeModHash fl meta = cachedHash then some modUnit else none

/-- Model of `CacheManager.update_cache`: store the snapshot under its
path key with the fingerprint computed at the current moment. -/
def updateCache (cache : CacheData) (m : CMod)
    (fl meta : Option (List Nat)) : CacheData :=
  aset cache m.pathKey (computeModHash fl meta, m)

end Cache

section Parts

/-!
## PartsManager (src/Code/handlers/parts_manager.py)

### `_process_config` (the manifest-level toggler)

A directive file (`modparts.xml`) lists actions; each action locates a
matching entry of the package manifest (`filelist.xml`) and flips it
between comment and live-element representation, renaming the referenced
file on disk.  The manifest entry is modelled by the data the code
reads from it: its tag, its case-insensitively fetched `file` attribute
and its positional `index`; a comment entry carries the element it
converts to via `to_element()` when that conversion succeeds.

Python local-variable scoping matters here: `new_node` is a function
local of `_process_config`, assigned only in the element→comment
branch; the comment→element branch reads it.  The model threads this
variable through the action loop as an `Option FItem` (`none` =
unbound); reading it unbound produces `Except.error "UnboundLocalError"`
exactly as CPython raises `UnboundLocalError` there.

Path comparison (`Path(..).as_posix()` equality) is modelled as string
equality of the already-normalised relative paths, and
`_rename_file_on_disk` is modelled as a recorded event
`(raw_path, to_active)` rather than a filesystem mutation.
-/

/-- One directive of `modparts.xml`, as read by `_process_config` via
`get_attribute_ignore_case`. -/
structure PAction where
  conditions : Option String
  file : Option String
  typ : Option String
  setState : Option String
  deriving DecidableEq, Repr

/-- One child of the `filelist.xml` manifest: a live element or a
comment (carrying the element `to_element()` yields, if conversion
succeeds).  `idx` is the node's positional `.index`. -/
inductive FItem where
  | elem (tag : String) (fileAttr : Option String) (idx : Nat)
  | comment (inner : Option (String × Option String)) (idx : Nat)
  deriving DecidableEq, Repr

def FItem.index : FItem → Nat
  | .elem _ _ i => i
  | .comment _ i => i

/-- The `(tag, file-attribute)` view used for matching: an element
directly, a comment through `to_element()` (`none` if that fails). -/
def FItem.checkView : FItem → Option (String × Option String)
  | .elem t f _ => some (t, f)
  | .comment inner _ => inner

def FItem.isComment : FItem → Bool
  | .elem _ _ _ => false
  | .comment _ _ => true

/-- `item.to_comment()` for a manifest element. -/
def FItem.toCommentNode : FItem → FItem
  | .elem t f i => .comment (some (t, f)) i
  | .comment inner i => .comment inner i

/-- Positional replace on the manifest (`xml_filelist.replace(index,
new_node)`); the inserted node takes the replaced position. -/
def replaceAt (l : List FItem) (idx : Nat) (n : FItem) : List FItem :=
  l.map fun it => if it.index = idx then
    (match n with
     | .elem t f _ => .elem t f idx
     | .comment inner _ => .comment inner idx)
    else it

/-- Python truthiness filter for `all((rel_path_raw, target_tag,
set_state_raw))`: `None` and the empty string are falsy. -/
def truthyStr : Option String → Option String
  | none => none
  | some s => if s = "" then none else some s

/-- `set_state_raw.lower() in ("on", "1", "true")`. -/
def stateTruthy (s : String) : Bool :=
  strLower s = "on" || strLower s = "1" || strLower s = "true"

/-- State threaded through the action loop of `_process_config`. -/
structure PCState where
  filelist : List FItem
  modified : Bool
  newNode : Option FItem
  renames : List (String × Bool)
  deriving Repr

/-- First manifest entry matching the directive (tag equal
case-insensitively, file attribute equal as paths); entries whose
comment fails `to_element()` or whose tag/file attribute is falsy are
skipped, mirroring the `continue`s of the inner loop. -/
def findManifestMatch (targetTag relPath : String) :
    List FItem → Option FItem
  | [] => none
  | it :: rest =>
      match it.checkView with
      | none => findManifestMatch targetTag relPath rest
      | some (tag, fileAttr) =>
          match truthyStr (some tag), truthyStr fileAttr with
          | some t, some f =>
              if strLower t = strLower targetTag ∧ f = relPath then some it
              else findManifestMatch targetTag relPath rest
          | _, _ => findManifestMatch targetTag relPath rest

/-- One iteration of the action loop of `_process_config`. -/
def processConfigAction (pc : String → List String → Bool)
    (activeIds : List String) (isRollback : Bool) (st : PCState)
    (a : PAction) : Except String PCState :=
  if !isRollback &&
      (match a.conditions with
       | some c => !pc c activeIds
       | none => false) then .ok st
  else
    match truthyStr a.file, truthyStr a.typ, truthyStr a.setState with
    | some relPath, some targetTag, some setStateRaw =>
        let targetIsActive := stateTruthy setStateRaw
        let shouldBeActive := if isRollback then !targetIsActive
          else targetIsActive
        match findManifestMatch targetTag relPath st.filelist with
        | none => .ok st
        | some it =>
            if shouldBeActive ∧ it.isComment then
              -- BUG in the source: this branch uses `new_node` without
              -- assigning it; `new_node` is only bound if a previous
              -- element→comment flip assigned it (then a stale node is
              -- inserted), otherwise CPython raises UnboundLocalError.
              match st.newNode with
              | none => .error "UnboundLocalError"
              | some stale =>
                  .ok { st with
                    filelist := replaceAt st.filelist it.index stale,
                    modified := true,
                    renames := st.renames ++ [(relPath, true)] }
            else if !shouldBeActive ∧ !it.isComment then
              let newNode := it.toCommentNode
              .ok { st with
                filelist := replaceAt st.filelist it.index newNode,
                modified := true,
                newNode := some newNode,
                renames := st.renames ++ [(relPath, false)] }
            else .ok st
    | _, _, _ => .ok st

/-- Model of `PartsManager._process_config`: fold the action loop over
the directives. -/
def processConfig (pc : String → List String → Bool)
    (activeIds : List String) (actions : List PAction)
    (filelist : List FItem) (isRollback : Bool) : Except String PCState :=
  actions.foldlM (processConfigAction pc activeIds isRollback)
    { filelist := filelist, modified := false, newNode := none,
      renames := [] }

/-!
### `_process_single_xml` (the inline-marker toggler)

`find_between_comments` yields `BTM`-delimited regions; the start
comment carries a `setState` flag and an optional `conditions` string
(the model stores the parse results directly).  Each positional child
of a region is flipped between element and comment representation to
match the desired state.  A comment node records the element its
`to_element()` recovers (`none` when conversion fails); `to_comment()`
of an element is modelled as exactly invertible, which assumes the XML
layer serialises and re-parses a node without loss.  Children without a
positional `.index` are never touched.  Content outside the delimited
regions is never inspected by the code and is omitted from the model.
-/

/-- A positional child of a toggle region. -/
inductive RNode where
  | relem (content : String) (hasIdx : Bool)
  | rcomment (inner : Option String) (hasIdx : Bool)
  deriving DecidableEq, Repr

/-- One `BTM: ... start` / `BTM: ... end` delimited region. -/
structure Region where
  hasSetState : Bool
  targetActive : Bool
  cond : Option String
  nodes : List RNode
  deriving DecidableEq, Repr

/-- An inline-marker content file, as the set of its toggle regions. -/
structure XFile where
  regions : List Region
  deriving DecidableEq, Repr

/-- The flip of one region child toward `shouldBeActive`: `some` is a
replacement (the code sets `modified`), `none` leaves the node alone
(already consistent, no index, or failed `to_element()`). -/
def toggleNode (shouldBeActive : Bool) : RNode → Option RNode
  | .relem c true => if shouldBeActive then none
      else some (.rcomment (some c) true)
  | .rcomment inner true =>
      if shouldBeActive then
        match inner with
        | some c => some (.relem c true)
        | none => none
      else none
  | _ => none

/-- The node actually stored back (the replacement if any). -/
def applyToggle (shouldBeActive : Bool) (n : RNode) : RNode :=
  (toggleNode shouldBeActive n).getD n

/-- The desired liveness for a region, `none` when the region is
skipped: a missing `setState` is skipped with a logged error, and in
the forward direction a present-and-false condition skips the region;
rollback negates the embedded target state unconditionally. -/
def regionShould (pc : String → List String → Bool)
    (activeIds : List String) (isRollback : Bool) (r : Region) :
    Option Bool :=
  if !r.hasSetState then none
  else if !isRollback &&
      (match r.cond with
       | some c => !pc c activeIds
       | none => false) then none
  else some (if isRollback then !r.targetActive else r.targetActive)

/-- One region of the loop body of `_process_single_xml`; the `Bool`
reports whether any child of the region was replaced. -/
def processRegion (pc : String → List String → Bool)
    (activeIds : List String) (isRollback : Bool) (r : Region) :
    Region × Bool :=
  match regionShould pc activeIds isRollback r with
  | none => (r, false)
  | some shouldBeActive =>
      ({ r with nodes := r.nodes.map (applyToggle shouldBeActive) },
        r.nodes.any fun n => (toggleNode shouldBeActive n).isSome)

/-- Model of `PartsManager._process_single_xml` on one file: process
every region; the `Bool` is `modified`, and `XMLBuilder.save` runs only
when it is `true`. -/
def processFileXml (pc : String → List String → Bool)
    (activeIds : List String) (isRollback : Bool) (f : XFile) :
    XFile × Bool :=
  (⟨f.regions.map fun r => (processRegion pc activeIds isRollback r).1⟩,
    f.regions.any fun r => (processRegion pc activeIds isRollback r).2)

/-- The neutral ("rollback") representation of a region child: the
comment representation when the region's target state is on, the live
element when it is off.  Children without a positional index are
unconstrained (the code never touches them). -/
def nodeNeutral (target : Bool) : RNode → Prop
  | .relem _ true => target = false
  | .rcomment _ true => target = true
  | _ => True

instance (target : Bool) (n : RNode) : Decidable (nodeNeutral target n) :=
  by unfold nodeNeutral; cases n <;> rename_i h i <;> cases i <;>
    simp <;> infer_instance

/-- A file is neutral when every indexed child of every region is in
its region's neutral representation. -/
def fileNeutral (f : XFile) : Prop :=
  ∀ r ∈ f.regions, ∀ n ∈ r.nodes, nodeNeutral r.targetActive n

instance (f : XFile) : Decidable (fileNeutral f) := by
  unfold fileNeutral; infer_instance

theorem toggleNode_applyToggle (should : Bool) (n : RNode) :
    toggleNode should (applyToggle should n) = none := by
  cases n with
  | relem c hi =>
      cases hi <;> cases should <;> simp [toggleNode, applyToggle]
  | rcomment inner hi =>
      cases hi <;> cases should <;> cases inner <;>
        simp [toggleNode, applyToggle]

theorem applyToggle_roundtrip (target : Bool) (n : RNode)
    (h : nodeNeutral target n) :
    applyToggle (!target) (applyToggle target n) = n := by
  cases n with
  | relem c hi =>
      cases hi
      · simp [applyToggle, toggleNode]
      · have : target = false := h
        subst this
        simp [applyToggle, toggleNode]
  | rcomment inner hi =>
      cases hi
      · cases inner <;> simp [applyToggle, toggleNode]
      · have : target = true := h
        subst this
        cases inner <;> simp [applyToggle, toggleNode]

theorem applyToggle_neutral_fixed (target : Bool) (n : RNode)
    (h : nodeNeutral target n) :
    applyToggle (!target) n = n := by
  cases n with
  | relem c hi =>
      cases hi
      · simp [applyToggle, toggleNode]
      · have : target = false := h
        subst this
        simp [applyToggle, toggleNode]
  | rcomment inner hi =>
      cases hi
      · cases inner <;> simp [applyToggle, toggleNode]
      · have : target = true := h
        subst this
        cases inner <;> simp [applyToggle, toggleNode]

theorem regionShould_processRegion (pc : String → List String → Bool)
    (activeIds : List String) (rb rb' : Bool) (r : Region) :
    regionShould pc activeIds rb' (processRegion pc activeIds rb r).1 =
      regionShould pc activeIds rb' r := by
  unfold processRegion
  cases h : regionShould pc activeIds rb r
  · rfl
  · simp [regionShould]

theorem processRegion_forward_second (pc : String → List String → Bool)
    (activeIds : List String) (r : Region) :
    (processRegion pc activeIds false
      (processRegion pc activeIds false r).1).2 = false := by
  cases h : regionShould pc activeIds false r with
  | none =>
      have h1 : (processRegion pc activeIds false r).1 = r := by
        unfold processRegion; rw [h]
      rw [h1]
      unfold processRegion; rw [h]
  | some should =>
      have h1 : (processRegion pc activeIds false r).1 =
          { r with nodes := r.nodes.map (applyToggle should) } := by
        unfold processRegion; rw [h]
      have h2 : regionShould pc activeIds false
          (processRegion pc activeIds false r).1 = some should := by
        rw [regionShould_processRegion, h]
      rw [h1] at h2
      rw [h1]
      unfold processRegion
      rw [h2]
      simp only [List.any_map, List.any_eq_false, Function.comp]
      intro n _
      rw [toggleNode_applyToggle]
      simp

theorem processRegion_rollback_roundtrip (pc : String → List String → Bool)
    (activeIds : List String) (r : Region)
    (h : ∀ n ∈ r.nodes, nodeNeutral r.targetActive n) :
    (processRegion pc activeIds true
      (processRegion pc activeIds false r).1).1 = r := by
  cases hf : regionShould pc activeIds false r with
  | none =>
      have h1 : (processRegion pc activeIds false r).1 = r := by
        unfold processRegion; rw [hf]
      rw [h1]
      unfold processRegion
      cases hr : regionShould pc activeIds true r with
      | none => rfl
      | some should =>
          -- rollback on an untouched (forward-skipped) region: that
          -- region is neutral, so every flip is a no-op
          have hs : should = !r.targetActive := by
            unfold regionShould at hr
            cases hss : r.hasSetState
            · rw [hss] at hr; simp at hr
            · rw [hss] at hr
              simp only [Bool.not_true, Bool.false_and, if_true,
                Bool.not_false] at hr
              simp at hr
              cases should <;> simp_all
          subst hs
          simp only
          congr 1
          cases r with
          | mk hss ta cond nodes =>
              simp only
              have hmap : nodes.map (applyToggle (!ta)) = nodes := by
                refine (List.map_congr_left ?_).trans (List.map_id _)
                intro n hn
                exact applyToggle_neutral_fixed ta n (h n hn)
              simp [hmap]
  | some should =>
      have hset : r.hasSetState = true := by
        unfold regionShould at hf
        by_cases hss : r.hasSetState
        · exact hss
        · simp [hss] at hf
      have hsv : should = r.targetActive := by
        unfold regionShould at hf
        rw [hset] at hf
        simp only [Bool.not_true, Bool.false_eq_true, if_false] at hf
        split at hf
        · exact absurd hf (by simp)
        · simp at hf
          exact hf.symm
      subst hsv
      have h1 : (processRegion pc activeIds false r).1 =
          { r with nodes := r.nodes.map (applyToggle r.targetActive) } := by
        unfold processRegion; rw [hf]
      have h2 : regionShould pc activeIds true
          (processRegion pc activeIds false r).1 = some (!r.targetActive) := by
        rw [regionShould_processRegion]
        unfold regionShould
        simp [hset]
      rw [h1] at h2
      rw [h1]
      unfold processRegion
      rw [h2]
      simp only
      cases r with
      | mk hss ta cond nodes =>
          simp only [List.map_map]
          congr 1
          refine (List.map_congr_left ?_).trans (List.map_id _)
          intro n hn
          simp only [Function.comp_apply, id_eq]
          exact applyToggle_roundtrip ta n (h n hn)

end Parts

section Mods

/-!
## Package data model (src/Code/package/dataclasses.py)

`Identifier.id` is the Steam workshop id when that attribute is present
and non-empty (Python truthiness), else the declared name; `ModUnit`
and `Dependency` equality/hashing is by this id.  `update_meta_errors`
clears the error/warning lists and repopulates them from the on-disk
metadata file; the model carries that on-disk content as the
`baseWarnings`/`baseErrors` fields.
-/

/-- A `Dependency` record. -/
structure SDep where
  name : String
  steamId : Option String
  dtype : String
  attrs : List (String × String)
  cond : Option String
  deriving DecidableEq, Repr

/-- `Identifier.id`: `steam_id if steam_id else name` (empty string is
falsy). -/
def SDep.depId (d : SDep) : String :=
  match d.steamId with
  | some s => if s = "" then d.name else s
  | none => d.name

/-- A `ModUnit`, restricted to the fields the verified operations
read. -/
structure MUnit where
  name : String
  steamId : Option String
  settings : List (String × String)
  addId : List String
  overrideId : List String
  deps : List SDep
  baseWarnings : List String
  baseErrors : List String
  warnings : List String
  errors : List String
  loadOrder : Option Nat
  deriving DecidableEq, Repr

/-- `Identifier.id` for a package. -/
def MUnit.uid (m : MUnit) : String :=
  match m.steamId with
  | some s => if s = "" then m.name else s
  | none => m.name

/-- `ModUnit.get_bool_setting`; settings parsed from XML are strings,
so only the string branch of the Python function is reachable. -/
def MUnit.getBoolSetting (m : MUnit) (key : String) : Bool :=
  match aget m.settings key with
  | none => false
  | some v => strLower v = "true"

/-- Model of `loc.get_string("mod-unfind-mod", mod_name=.., mod_id=..)`
(an opaque message constructor; CPython formats `None` for a missing
workshop id). -/
def locUnfindMod (name : String) (sid : Option String) : String :=
  "mod-unfind-mod|" ++ name ++ "|" ++ (match sid with
    | some s => s
    | none => "None")

/-- Model of `loc.get_string("mod-override-id", mod_name=.., mod_id=..,
key_id=..)`. -/
def locOverrideId (modName modId keyId : String) : String :=
  "mod-override-id|" ++ modName ++ "|" ++ modId ++ "|" ++ keyId

/-!
## `ModManager.process_errors` (src/Code/handlers/mod_manager.py)

The first loop binds each overridden identifier, first-write-wins over
the active list in its current order, to the (name, id) of the binding
package; note the source builds this table from `mod.override_id`, not
from `mod.add_id`.  The second loop recomputes each active package's
error/warning lists: base lists from the metadata file, then
per-dependency messages in dependency order, then override-collision
warnings.  Appending per-dependency messages in a single pass is
represented as `List.flatMap` of the per-dependency contribution, which
appends exactly the same strings in the same order.
-/

/-- The inner loop of the `bind_id` construction: bind every
identifier of `l` to `(nm, mid)` unless already bound. -/
def bindAddL (nm mid : String) (l : List String)
    (acc : List (String × (String × String))) :
    List (String × (String × String)) :=
  l.foldl (fun acc2 oid =>
    match aget acc2 oid with
    | some _ => acc2
    | none => acc2 ++ [(oid, (nm, mid))]) acc

/-- The `bind_id` table of `process_errors`: first-write-wins binding
of each overridden identifier to the overriding package's
`(name, id)`, iterating the active list in its current order. -/
def bindIdOf (mods : List MUnit) : List (String × (String × String)) :=
  mods.foldl (fun acc m => bindAddL m.name m.uid m.overrideId acc) []

/-- The first package of the list whose overrides set contains `k`. -/
def firstOverrider (mods : List MUnit) (k : String) : Option MUnit :=
  match mods with
  | [] => none
  | m :: rest =>
      if k ∈ m.overrideId then some m else firstOverrider rest k

/-- Error messages a single dependency contributes. -/
def depErrContrib (pc : String → List String → Bool)
    (activeIds : List String) (d : SDep) : List String :=
  if d.dtype = "conflict" then
    if d.depId ∈ activeIds ∧ agetD d.attrs "level" "error" ≠ "warning"
    then [agetD d.attrs "message" "base-conflict"] else []
  else if d.dtype = "requiredAnyOrder" then []
  else
    match d.cond with
    | some c =>
        if pc c activeIds ∧ d.depId ∉ activeIds
        then [locUnfindMod d.name d.steamId] else []
    | none =>
        if d.depId ∉ activeIds then [locUnfindMod d.name d.steamId]
        else []

/-- Warning messages a single dependency contributes. -/
def depWarnContrib (activeIds : List String) (d : SDep) : List String :=
  if d.dtype = "conflict" then
    if d.depId ∈ activeIds ∧ agetD d.attrs "level" "error" = "warning"
    then [agetD d.attrs "message" "base-conflict"] else []
  else []

/-- Override-collision warnings for one package: one warning per
overridden identifier whose `bind_id` entry names a different
package. -/
def overrideWarnContrib (bind : List (String × (String × String)))
    (m : MUnit) : List String :=
  m.overrideId.filterMap fun oid =>
    match aget bind oid with
    | some (nm, mid) =>
        if mid ≠ m.uid then some (locOverrideId nm mid oid) else none
    | none => none

/-- The per-package body of the second loop of `process_errors`. -/
def processErrorsMod (pc : String → List String → Bool)
    (activeIds : List String) (bind : List (String × (String × String)))
    (m : MUnit) : MUnit :=
  { m with
    errors := m.baseErrors ++ m.deps.flatMap (depErrContrib pc activeIds),
    warnings := m.baseWarnings ++ m.deps.flatMap (depWarnContrib activeIds)
      ++ overrideWarnContrib bind m }

/-- Model of `ModManager.process_errors` over the active list. -/
def processErrors (pc : String → List String → Bool)
    (mods : List MUnit) : List MUnit :=
  mods.map (processErrorsMod pc (mods.map MUnit.uid) (bindIdOf mods))

theorem aget_append_some {β : Type} {l1 : List (String × β)}
    (l2 : List (String × β)) {k : String} {v : β}
    (h : aget l1 k = some v) : aget (l1 ++ l2) k = some v := by
  induction l1 with
  | nil => simp [aget] at h
  | cons hd tl ih =>
      obtain ⟨k', v'⟩ := hd
      rw [show aget ((k', v') :: tl) k
        = (if k' = k then some v' else aget tl k) from rfl] at h
      show (if k' = k then some v' else aget (tl ++ l2) k) = some v
      by_cases hk : k' = k
      · rw [if_pos hk] at h ⊢; exact h
      · rw [if_neg hk] at h ⊢; exact ih h

theorem aget_append_none {β : Type} {l1 : List (String × β)}
    (l2 : List (String × β)) {k : String}
    (h : aget l1 k = none) : aget (l1 ++ l2) k = aget l2 k := by
  induction l1 with
  | nil => simp [aget]
  | cons hd tl ih =>
      obtain ⟨k', v'⟩ := hd
      rw [show aget ((k', v') :: tl) k
        = (if k' = k then some v' else aget tl k) from rfl] at h
      show (if k' = k then some v' else aget (tl ++ l2) k) = aget l2 k
      by_cases hk : k' = k
      · rw [if_pos hk] at h; cases h
      · rw [if_neg hk] at h
        rw [if_neg hk]
        exact ih h

theorem bindAddL_aget (nm mid : String) (l : List String)
    (acc : List (String × (String × String))) (k : String) :
    aget (bindAddL nm mid l acc) k =
      match aget acc k with
      | some v => some v
      | none => if k ∈ l then some (nm, mid) else none := by
  induction l generalizing acc with
  | nil => cases h : aget acc k <;> simp [bindAddL, List.foldl, h]
  | cons o t ih =>
      show aget (bindAddL nm mid t _) k = _
      cases ho : aget acc o with
      | some w =>
          simp only [bindAddL, List.foldl_cons, ho]
          rw [show (t.foldl _ acc : List (String × (String × String)))
            = bindAddL nm mid t acc from rfl, ih]
          cases hk : aget acc k with
          | some v => rfl
          | none =>
              have hko : k ≠ o := fun he => by rw [he, ho] at hk; cases hk
              simp [List.mem_cons, hko]
      | none =>
          simp only [bindAddL, List.foldl_cons, ho]
          rw [show (t.foldl _ (acc ++ [(o, (nm, mid))]) :
              List (String × (String × String)))
            = bindAddL nm mid t (acc ++ [(o, (nm, mid))]) from rfl, ih]
          cases hk : aget acc k with
          | some v => rw [aget_append_some _ hk]
          | none =>
              rw [aget_append_none _ hk]
              by_cases hko : o = k
              · subst hko
                simp [aget]
              · have : k ≠ o := fun he => hko he.symm
                simp [aget, hko, List.mem_cons, this]

theorem bindIdOf_eq_firstOverrider (mods : List MUnit) (k : String) :
    aget (bindIdOf mods) k =
      (firstOverrider mods k).map fun m => (m.name, m.uid) := by
  suffices h : ∀ (ms : List MUnit) (acc : List (String × (String × String))),
      aget (ms.foldl (fun acc m => bindAddL m.name m.uid m.overrideId acc)
          acc) k =
        match aget acc k with
        | some v => some v
        | none => (firstOverrider ms k).map fun m => (m.name, m.uid) by
    have := h mods []
    simpa [bindIdOf, aget] using this
  intro ms
  induction ms with
  | nil =>
      intro acc
      cases h : aget acc k <;> simp [firstOverrider, h]
  | cons m rest ih =>
      intro acc
      simp only [List.foldl_cons]
      rw [ih, bindAddL_aget]
      cases hk : aget acc k with
      | some v => rfl
      | none =>
          by_cases hmem : k ∈ m.overrideId <;>
            simp [firstOverrider, hmem]

end Mods

/-- **C6.** Cache correctness: after `update_cache(P)` (store),
`get_cached_mod(P.path)` (lookup) returns `P` itself as long as the
bytes of the two identity files are unchanged; and if exactly one of
the identity files is modified (its bytes change while the other is
untouched), lookup returns nothing. -/
theorem cache_store_lookup (cache : CacheData) (m : CMod)
    (fl meta : Option (List Nat)) :
    getCachedMod (updateCache cache m fl meta) m.pathKey fl meta = some m ∧
    (∀ b b' : List Nat, fl = some b → b' ≠ b →
      getCachedMod (updateCache cache m fl meta) m.pathKey (some b') meta
        = none) ∧
    (∀ b b' : List Nat, meta = some b → b' ≠ b →
      getCachedMod (updateCache cache m fl meta) m.pathKey fl (some b')
        = none) := by
  refine ⟨?_, ?_, ?_⟩
  · unfold getCachedMod updateCache
    rw [aget_aset_self]
    simp
  · intro b b' hfl hne
    unfold getCachedMod updateCache
    rw [aget_aset_self]
    subst hfl
    simp only [computeModHash, Option.getD_some]
    have : b' ++ meta.getD [] ≠ b ++ meta.getD [] := by
      intro h
      exact hne (List.append_cancel_right h)
    simp [this]
  · intro b b' hmeta hne
    unfold getCachedMod updateCache
    rw [aget_aset_self]
    subst hmeta
    simp only [computeModHash, Option.getD_some]
    have : fl.getD [] ++ b' ≠ fl.getD [] ++ b := by
      intro h
      exact hne (List.append_cancel_left h)
    simp [this]

/-- Witness for C6 at a concrete cache state, package and file bytes. -/
theorem cache_store_lookup_witness :
    (getCachedMod (updateCache [] ⟨"m", "/mods/m"⟩ (some [1, 2]) (some [3]))
        "/mods/m" (some [1, 2]) (some [3]) = some ⟨"m", "/mods/m"⟩) ∧
    (getCachedMod (updateCache [] ⟨"m", "/mods/m"⟩ (some [1, 2]) (some [3]))
        "/mods/m" (some [9]) (some [3]) = none) := by
  have h := cache_store_lookup [] ⟨"m", "/mods/m"⟩ (some [1, 2]) (some [3])
  exact ⟨h.1, h.2.1 [1, 2] [9] rfl (by decide)⟩

/-- **C2** (code bug).  The comment→live-element branch of
`PartsManager._process_config` reads the local `new_node` without
assigning it (parts_manager.py line 173: the element→comment branch
builds `new_node = item.to_comment()`, the comment→element branch was
evidently meant to use the `to_element()` result but references the
unassigned `new_node` instead).  At the failing input — one directive
`(file="Items/X.xml", type="File", setState="on")` and a manifest whose
matching entry is currently a comment — the forward toggle raises
`UnboundLocalError` instead of flipping the entry to a live element,
contradicting the claimed exception-free flip. -/
theorem process_config_unbound_new_node :
    processConfig (fun _ _ => true) []
      [⟨none, some "Items/X.xml", some "File", some "on"⟩]
      [.comment (some ("File", some "Items/X.xml")) 0] false
      = .error "UnboundLocalError" := by
  rfl

/-- **C7** (corrected).  For the inline-marker file class:

1. (as claimed) running the forward toggle twice with an unchanged
   active set performs no write on the second run — the second run's
   `modified` flag is `false`;
2. (amended) running forward then rollback restores the file exactly,
   *provided* every indexed child of every region starts in its
   region's neutral (non-target) representation.  Without that proviso
   the restoration claim is false, see
   `parts_rollback_not_inverse`. -/
theorem parts_toggle_idempotent_and_rollback
    (pc : String → List String → Bool) (activeIds : List String)
    (f : XFile) :
    (processFileXml pc activeIds false
        (processFileXml pc activeIds false f).1).2 = false ∧
    (fileNeutral f →
      (processFileXml pc activeIds true
          (processFileXml pc activeIds false f).1).1 = f) := by
  constructor
  · show ((⟨_⟩ : XFile).regions.any _) = false
    simp only [processFileXml, List.any_map, List.any_eq_false,
      Function.comp]
    intro r hr
    rw [processRegion_forward_second]
    simp
  · intro hneut
    show (⟨_⟩ : XFile) = f
    cases f with
    | mk regions =>
        simp only [processFileXml, List.map_map, XFile.mk.injEq]
        refine (List.map_congr_left ?_).trans (List.map_id _)
        intro r hrmem
        simp only [Function.comp_apply, id_eq]
        exact processRegion_rollback_roundtrip pc activeIds r
          (hneut r hrmem)

/-- Counterexample to C7 as stated: a file whose single region
(`setState` on, no condition) already holds a live element.  The
forward toggle leaves it unchanged, and the rollback toggle then
comments the element out, so forward-then-rollback does not restore the
pre-forward bytes. -/
theorem parts_rollback_not_inverse :
    (processFileXml (fun _ _ => true) [] true
        (processFileXml (fun _ _ => true) [] false
          ⟨[⟨true, true, none, [.relem "a" true]⟩]⟩).1).1
      ≠ (⟨[⟨true, true, none, [.relem "a" true]⟩]⟩ : XFile) := by
  decide

/-- Witness for C7 at a concrete neutral file: one region with
`setState` on whose child is in comment representation. -/
theorem parts_toggle_witness :
    (processFileXml (fun _ _ => true) ["m1"] false
        (processFileXml (fun _ _ => true) ["m1"] false
          ⟨[⟨true, true, none, [.rcomment (some "a") true]⟩]⟩).1).2 = false ∧
    (processFileXml (fun _ _ => true) ["m1"] true
        (processFileXml (fun _ _ => true) ["m1"] false
          ⟨[⟨true, true, none, [.rcomment (some "a") true]⟩]⟩).1).1
      = ⟨[⟨true, true, none, [.rcomment (some "a") true]⟩]⟩ := by
  have h := parts_toggle_idempotent_and_rollback (fun _ _ => true) ["m1"]
    ⟨[⟨true, true, none, [.rcomment (some "a") true]⟩]⟩
  exact ⟨h.1, h.2 (by decide)⟩

section IdParser

/-!
## IDExtractor (src/Code/package/id_parser.py)

The document tree: elements carry a tag, attributes and ordered
children; comments are skipped by `iter_non_comment_childrens`.  The
extractor walks an explicit stack of `(node, override-flag, context)`
frames; Python's list-stack appends children in order and pops from the
end, so the model's head-of-list stack pushes the (non-comment)
children reversed.  The `_unknown_tags_cache` is threaded through as a
list of tags (only ever written, never read for the result sets).
-/

inductive XTree where
  | elem (tag : String) (attrs : List (String × String))
      (children : List XTree)
  | comment (content : String)

def XTree.tagOf : XTree → String
  | .elem t _ _ => t
  | .comment _ => ""

def XTree.attrsOf : XTree → List (String × String)
  | .elem _ a _ => a
  | .comment _ => []

def XTree.isElem : XTree → Bool
  | .elem _ _ _ => true
  | .comment _ => false

/-- `iter_non_comment_childrens`. -/
def XTree.ncChildren : XTree → List XTree
  | .elem _ _ cs => cs.filter XTree.isElem
  | .comment _ => []

/-- `get_attribute_ignore_case`: first attribute whose lowered key
matches the lowered requested key. -/
def igetAttr (attrs : List (String × String)) (k : String) :
    Option String :=
  match attrs with
  | [] => none
  | (k', v) :: rest =>
      if strLower k' = strLower k then some v else igetAttr rest k

/-- The extractor result: the `add_id` and `override_id` sets, as
insertion-ordered duplicate-free lists. -/
structure IDParserUnit where
  addIds : List String
  overrideIds : List String
  deriving DecidableEq, Repr

/-- The closed set of rule shapes behind `_make_context_rule`,
`_make_override_rule`, `_make_id_rule`, `_make_special_id_rule` and
`_ignore_rule`. -/
inductive IdRule where
  | contextRule (ctxTag : Option String)
  | overrideRule
  | idRule (prefixStr : String) (fieldName : String)
  | specialRule (literal : String)
  | ignoreRule
  deriving DecidableEq, Repr

/-- The `_RULES` table (process-wide static configuration). -/
def RULES : String → Option IdRule := fun tag =>
  match tag with
  | "override" => some .overrideRule
  | "english" => some .ignoreRule
  | "infotexts" => some .ignoreRule
  | "infotext" => some .ignoreRule
  | "contentpackage" => some .ignoreRule
  | "documentation" => some .ignoreRule
  | "metadata" => some .ignoreRule
  | "vars" => some .ignoreRule
  | "sounds" => some .ignoreRule
  | "names" => some .ignoreRule
  | "particles" => some .ignoreRule
  | "ai" => some .ignoreRule
  | "body" => some .ignoreRule
  | "holdable" => some .ignoreRule
  | "items" => some (.contextRule (some "item"))
  | "item" => some (.idRule "item" "identifier")
  | "afflictions" => some (.contextRule (some "affliction"))
  | "affliction" => some (.idRule "affliction" "identifier")
  | "cprsettings" => some (.specialRule "CPRSettings")
  | "character" => some (.idRule "Character" "speciesname")
  | "characters" => some (.contextRule none)
  | "monsters" => some (.contextRule (some "monster"))
  | "monster" => some (.idRule "Character" "speciesname")
  | "ragdoll" => some (.idRule "Ragdoll" "type")
  | "ballastflorabehavior" => some (.idRule "BallastFlora" "identifier")
  | "huskappendage" => some (.contextRule none)
  | "limb" => some (.idRule "HuskAppendage.limb" "name")
  | "joint" => some (.idRule "HuskAppendage.joint" "name")
  | "levelobjects" => some (.contextRule (some "levelobjects"))
  | "levelobject" => some (.idRule "LevelObject" "identifier")
  | "itemassembly" => some (.idRule "ItemAssembly" "name")
  | "upgrademodules" => some (.contextRule none)
  | "upgrademodule" => some (.idRule "UpgradeModule" "identifier")
  | "upgradecategory" => some (.idRule "UpgradeCategory" "identifier")
  | "talenttrees" => some (.contextRule none)
  | "talenttree" => some (.idRule "TalentTree" "jobidentifier")
  | "talents" => some (.contextRule none)
  | "talent" => some (.idRule "Talent" "identifier")
  | "jobs" => some (.contextRule none)
  | "job" => some (.idRule "Job" "identifier")
  | "corpses" => some (.contextRule none)
  | "corpse" => some (.idRule "Corpse" "identifier")
  | "style" => some (.specialRule "Style")
  | "backgroundcreatures" => some (.contextRule (some "backgroundcreature"))
  | "backgroundcreature" => some (.idRule "BackgroundCreature" "")
  | "randomevents" => some (.contextRule none)
  | "eventset" => some (.idRule "EventSet" "identifier")
  | "missions" => some (.contextRule (some "mission"))
  | "mission" => some (.contextRule (some "Mission"))
  | "abandonedoutpostmission" => some (.idRule "Mission.Outpost" "identifier")
  | "crawlerlairmission" =>
      some (.idRule "Mission.AbandonedOutpost" "identifier")
  | "salvagemission" => some (.idRule "Mission.Salvage" "identifier")
  | "monstermission" => some (.idRule "Mission.Monster" "identifier")
  | "piratemission" => some (.idRule "Mission.Pirate" "identifier")
  | "mudraptorlairmission" =>
      some (.idRule "Mission.MudraptorLair" "identifier")
  | "thresherlairmission" =>
      some (.idRule "Mission.ThresherLair" "identifier")
  | "huskcrawlerlairmission" =>
      some (.idRule "Mission.HuskCrawlerLair" "identifier")
  | "outpostdestroymission" =>
      some (.idRule "Mission.OutpostDestroy" "identifier")
  | "mineralmission" => some (.idRule "Mission.Mineral" "identifier")
  | "gotomission" => some (.idRule "Mission.Goto" "identifier")
  | "escortmission" => some (.idRule "Mission.Escort" "identifier")
  | "outpostmission" => some (.idRule "Mission.Outpost" "identifier")
  | "cargomission" => some (.idRule "Mission.Cargo" "identifier")
  | "eventprefabs" => some (.contextRule none)
  | "scriptedevent" => some (.idRule "ScriptedEvent" "identifier")
  | "triggerevent" => some (.idRule "TriggerEvent" "identifier")
  | "cavegenerationparameters" => some (.contextRule none)
  | "cave" => some (.idRule "Cave" "identifier")
  | "outpostgenerationparameters" => some (.contextRule none)
  | "outpostconfig" => some (.idRule "OutpostConfig" "identifier")
  | "mapgenerationparameters" =>
      some (.specialRule "MapGenerationParameters")
  | "orders" => some (.contextRule none)
  | "order" => some (.idRule "Order" "identifier")
  | "factions" => some (.contextRule none)
  | "faction" => some (.idRule "Faction" "identifier")
  | "levelgenerationparameters" =>
      some (.contextRule (some "levelgenerationparameter"))
  | "levelgenerationparameter" =>
      some (.idRule "LevelGenerationParameter" "identifier")
  | "biomes" => some (.contextRule (some "biome"))
  | "biome" => some (.idRule "Biome" "identifier")
  | "locationtypes" => some (.contextRule (some "locationtype"))
  | "locationtype" => some (.idRule "LocationType" "identifier")
  | "charactervariant" => some (.idRule "Charactervariant" "speciesname")
  | "wreckaiconfig" => some (.idRule "WreckAIConfig" "Entity")
  | "eventsprites" => some (.contextRule (some "eventsprite"))
  | "eventsprite" => some (.idRule "EventSprites" "identifier")
  | "npcsets" => some (.contextRule none)
  | "npcset" => some (.contextRule (some "npc"))
  | "npc" => some (.idRule "NPC" "identifier")
  | _ => none

/-- Add an identifier to the proper set
(`(unit.override_id if is_override else unit.add_id).add(res)`). -/
def unitAdd (u : IDParserUnit) (isOverride : Bool) (s : String) :
    IDParserUnit :=
  if isOverride then { u with overrideIds := sadd u.overrideIds s }
  else { u with addIds := sadd u.addIds s }

/-- `_make_id_rule`'s identifier choice:
`obj.attributes.get(id_field) or obj.tag` (an empty attribute value is
falsy). -/
def idRuleIdent (t : XTree) (fieldName : String) : String :=
  match aget t.attrsOf fieldName with
  | some v => if v = "" then t.tagOf else v
  | none => t.tagOf

mutual

/-- Tree size, for the termination of the stack walk. -/
def XTree.size : XTree → Nat
  | .elem _ _ cs => 1 + XTree.sizeL cs
  | .comment _ => 1

def XTree.sizeL : List XTree → Nat
  | [] => 0
  | t :: ts => XTree.size t + XTree.sizeL ts

end

/-- A stack frame of `_parse_loop`. -/
def PFrame := XTree × Bool × Option String

def stackSize (stack : List PFrame) : Nat :=
  match stack with
  | [] => 0
  | (t, _, _) :: rest => XTree.size t + stackSize rest

/-- Push frames for the non-comment children (Python appends in order
and pops from the end, so the head-of-list stack receives them
reversed). -/
def pushFrames (cs : List XTree) (ov : Bool) (ctx : Option String) :
    List PFrame :=
  cs.reverse.map fun c => (c, ov, ctx)

theorem size_pos (t : XTree) : 0 < XTree.size t := by
  cases t with
  | elem tag attrs cs => show 0 < 1 + XTree.sizeL cs; omega
  | comment c => show 0 < 1; omega

theorem sizeL_filter_le (p : XTree → Bool) (cs : List XTree) :
    XTree.sizeL (cs.filter p) ≤ XTree.sizeL cs := by
  induction cs with
  | nil => exact Nat.le_refl _
  | cons c cstl ih =>
      cases hp : p c with
      | true =>
          rw [List.filter_cons, if_pos (by rw [hp])]
          show XTree.size c + XTree.sizeL (cstl.filter p)
            ≤ XTree.size c + XTree.sizeL cstl
          omega
      | false =>
          rw [List.filter_cons, if_neg (by rw [hp]; exact Bool.false_ne_true)]
          show XTree.sizeL (cstl.filter p)
            ≤ XTree.size c + XTree.sizeL cstl
          have := size_pos c
          omega

theorem stackSize_append (l1 l2 : List PFrame) :
    stackSize (l1 ++ l2) = stackSize l1 + stackSize l2 := by
  induction l1 with
  | nil => simp [stackSize]
  | cons f rest ih =>
      obtain ⟨t, ov, ctx⟩ := f
      show XTree.size t + stackSize (rest ++ l2)
        = XTree.size t + stackSize rest + stackSize l2
      rw [ih]
      omega

theorem stackSize_map_frames (cs : List XTree) (ov : Bool)
    (ctx : Option String) :
    stackSize (cs.map fun c => (c, ov, ctx)) = XTree.sizeL cs := by
  induction cs with
  | nil => rfl
  | cons c rest ih =>
      show XTree.size c + stackSize (rest.map _)
        = XTree.size c + XTree.sizeL rest
      rw [ih]

theorem sizeL_append (l1 l2 : List XTree) :
    XTree.sizeL (l1 ++ l2) = XTree.sizeL l1 + XTree.sizeL l2 := by
  induction l1 with
  | nil => simp [XTree.sizeL]
  | cons c rest ih =>
      show XTree.size c + XTree.sizeL (rest ++ l2)
        = XTree.size c + XTree.sizeL rest + XTree.sizeL l2
      rw [ih]
      omega

theorem sizeL_reverse (cs : List XTree) :
    XTree.sizeL cs.reverse = XTree.sizeL cs := by
  induction cs with
  | nil => rfl
  | cons c rest ih =>
      rw [List.reverse_cons, sizeL_append, ih]
      show XTree.sizeL rest + (XTree.size c + 0)
        = XTree.size c + XTree.sizeL rest
      omega

theorem stackSize_pushFrames (cs : List XTree) (ov : Bool)
    (ctx : Option String) :
    stackSize (pushFrames cs ov ctx) = XTree.sizeL cs := by
  unfold pushFrames
  rw [stackSize_map_frames, sizeL_reverse]

theorem sizeL_ncChildren_lt (t : XTree) :
    XTree.sizeL t.ncChildren < XTree.size t := by
  cases t with
  | comment c => show XTree.sizeL [] < 1; show 0 < 1; omega
  | elem tag attrs cs =>
      show XTree.sizeL (cs.filter XTree.isElem) < 1 + XTree.sizeL cs
      have := sizeL_filter_le XTree.isElem cs
      omega

/-- Apply a matched rule to the popped frame `(t, isOv, ctx)`: context
and override rules push the non-comment children (with the new context
or the forced-true flag); id/special rules emit one identifier; ignore
rules neither emit nor descend. -/
def applyRule (r : IdRule) (t : XTree) (isOv : Bool) (ctx : Option String)
    (rest : List PFrame) (u : IDParserUnit) : List PFrame × IDParserUnit :=
  match r with
  | .contextRule c =>
      (pushFrames t.ncChildren isOv
        (match c with | some x => some x | none => ctx) ++ rest, u)
  | .overrideRule => (pushFrames t.ncChildren true ctx ++ rest, u)
  | .idRule p f => (rest, unitAdd u isOv (p ++ "." ++ idRuleIdent t f))
  | .specialRule s => (rest, unitAdd u isOv s)
  | .ignoreRule => (rest, u)

/-- `_handle_fallback`'s `animationtype` recognition: exact attribute
lookup first, then case-insensitive; an empty value is falsy. -/
def fallbackAnim (t : XTree) : Option String :=
  match truthyStr (aget t.attrsOf "animationtype") with
  | some v => some v
  | none => truthyStr (igetAttr t.attrsOf "animationtype")

/-- The identifier-set effect of `_handle_fallback`. -/
def fallbackUnit (t : XTree) (isOv : Bool) (u : IDParserUnit) :
    IDParserUnit :=
  match fallbackAnim t with
  | none => u
  | some a =>
      if strLower a = "swimslow" ∨ strLower a = "swimfast" then
        unitAdd u isOv ("WaterAnimation." ++ t.tagOf)
      else if strLower a = "walk" ∨ strLower a = "run" ∨
          strLower a = "crouch" then
        unitAdd u isOv ("GroundAnimation." ++ t.tagOf)
      else u

/-- The unknown-tags-cache effect of `_handle_fallback`: a node with no
recognised animation type is recorded once; the cache is only ever
written, never read for the result sets. -/
def fallbackCache (t : XTree) (cache : List String) : List String :=
  match fallbackAnim t with
  | none => if t.tagOf ∈ cache then cache else cache ++ [t.tagOf]
  | some _ => cache

theorem stackSize_tail_lt (t : XTree) (b : Bool) (o : Option String)
    (rest : List PFrame) :
    stackSize rest < stackSize ((t, b, o) :: rest) := by
  have := size_pos t
  show stackSize rest < XTree.size t + stackSize rest
  omega

theorem applyRule_size (r : IdRule) (t : XTree) (isOv : Bool)
    (ctx : Option String) (rest : List PFrame) (u : IDParserUnit) :
    stackSize (applyRule r t isOv ctx rest u).1
      < stackSize ((t, isOv, ctx) :: rest) := by
  show stackSize (applyRule r t isOv ctx rest u).1
    < XTree.size t + stackSize rest
  have hpos := size_pos t
  have hlt := sizeL_ncChildren_lt t
  cases r with
  | contextRule c =>
      show stackSize (pushFrames _ _ _ ++ rest) < _
      rw [stackSize_append, stackSize_pushFrames]
      omega
  | overrideRule =>
      show stackSize (pushFrames _ _ _ ++ rest) < _
      rw [stackSize_append, stackSize_pushFrames]
      omega
  | idRule p f => show stackSize rest < _; omega
  | specialRule s => show stackSize rest < _; omega
  | ignoreRule => show stackSize rest < _; omega

/-- One iteration of `_parse_loop` on the popped frame: resolution
order is (1) rule for the node's own lowered tag, (2) rule for the
context tag, (3) the fallback.  Returns the new stack, unit and
cache. -/
def stepFrame (fr : PFrame) (rest : List PFrame) (u : IDParserUnit)
    (cache : List String) : List PFrame × IDParserUnit × List String :=
  match fr with
  | (t, isOv, ctx) =>
      match RULES (strLower t.tagOf) with
      | some r =>
          ((applyRule r t isOv ctx rest u).1,
            (applyRule r t isOv ctx rest u).2, cache)
      | none =>
          match ctx with
          | some cv =>
              match RULES cv with
              | some cr =>
                  ((applyRule cr t isOv ctx rest u).1,
                    (applyRule cr t isOv ctx rest u).2, cache)
              | none => (rest, fallbackUnit t isOv u, fallbackCache t cache)
          | none => (rest, fallbackUnit t isOv u, fallbackCache t cache)

theorem stepFrame_rule {t : XTree} {r : IdRule} (isOv : Bool)
    (ctx : Option String) (rest : List PFrame) (u : IDParserUnit)
    (c : List String) (hr : RULES (strLower t.tagOf) = some r) :
    stepFrame (t, isOv, ctx) rest u c
      = ((applyRule r t isOv ctx rest u).1,
          (applyRule r t isOv ctx rest u).2, c) := by
  unfold stepFrame
  simp only [hr]

theorem stepFrame_ctxrule {t : XTree} {cv : String} {cr : IdRule}
    (isOv : Bool) (rest : List PFrame) (u : IDParserUnit)
    (c : List String) (hr : RULES (strLower t.tagOf) = none)
    (hcr : RULES cv = some cr) :
    stepFrame (t, isOv, some cv) rest u c
      = ((applyRule cr t isOv (some cv) rest u).1,
          (applyRule cr t isOv (some cv) rest u).2, c) := by
  unfold stepFrame
  simp only [hr, hcr]

theorem stepFrame_fallback_ctx {t : XTree} {cv : String}
    (isOv : Bool) (rest : List PFrame) (u : IDParserUnit)
    (c : List String) (hr : RULES (strLower t.tagOf) = none)
    (hcr : RULES cv = none) :
    stepFrame (t, isOv, some cv) rest u c
      = (rest, fallbackUnit t isOv u, fallbackCache t c) := by
  unfold stepFrame
  simp only [hr, hcr]

theorem stepFrame_fallback {t : XTree} (isOv : Bool)
    (rest : List PFrame) (u : IDParserUnit) (c : List String)
    (hr : RULES (strLower t.tagOf) = none) :
    stepFrame (t, isOv, none) rest u c
      = (rest, fallbackUnit t isOv u, fallbackCache t c) := by
  unfold stepFrame
  simp only [hr]

theorem stepFrame_size (fr : PFrame) (rest : List PFrame)
    (u : IDParserUnit) (cache : List String) :
    stackSize (stepFrame fr rest u cache).1 < stackSize (fr :: rest) := by
  obtain ⟨t, isOv, ctx⟩ := fr
  cases hr : RULES (strLower t.tagOf) with
  | some r =>
      rw [stepFrame_rule isOv ctx rest u cache hr]
      exact applyRule_size r t isOv ctx rest u
  | none =>
      cases ctx with
      | some cv =>
          cases hcr : RULES cv with
          | some cr =>
              rw [stepFrame_ctxrule isOv rest u cache hr hcr]
              exact applyRule_size cr t isOv (some cv) rest u
          | none =>
              rw [stepFrame_fallback_ctx isOv rest u cache hr hcr]
              exact stackSize_tail_lt t isOv (some cv) rest
      | none =>
          rw [stepFrame_fallback isOv rest u cache hr]
          exact stackSize_tail_lt t isOv none rest

/-- `IDExtractor._parse_loop` over the explicit frame stack, with
explicit fuel making the walk structurally recursive (and hence
evaluable on concrete trees).  Fuel `stackSize stack` always suffices:
every iteration strictly decreases `stackSize` (`stepFrame_size`), so
the zero-fuel branch is unreachable from `parseLoop` below. -/
def parseLoopF : Nat → List PFrame → IDParserUnit → List String →
    IDParserUnit × List String
  | _, [], u, cache => (u, cache)
  | 0, _ :: _, u, cache => (u, cache)
  | fuel + 1, fr :: rest, u, cache =>
      parseLoopF fuel (stepFrame fr rest u cache).1
        (stepFrame fr rest u cache).2.1 (stepFrame fr rest u cache).2.2

/-- `IDExtractor._parse_loop`. -/
def parseLoop (stack : List PFrame) (u : IDParserUnit)
    (cache : List String) : IDParserUnit × List String :=
  parseLoopF (stackSize stack) stack u cache

theorem pushFrames_flag {cs : List XTree} {ov : Bool}
    {ctx : Option String} {fr : PFrame}
    (h : fr ∈ pushFrames cs ov ctx) : fr.2.1 = ov := by
  unfold pushFrames at h
  obtain ⟨c, _, rfl⟩ := List.mem_map.mp h
  rfl

theorem unitAdd_true_addIds (u : IDParserUnit) (s : String) :
    (unitAdd u true s).addIds = u.addIds := rfl

theorem fallbackUnit_true_addIds (t : XTree) (u : IDParserUnit) :
    (fallbackUnit t true u).addIds = u.addIds := by
  unfold fallbackUnit
  cases fallbackAnim t with
  | none => rfl
  | some a =>
      show (if strLower a = "swimslow" ∨ strLower a = "swimfast" then
          unitAdd u true ("WaterAnimation." ++ t.tagOf)
        else if strLower a = "walk" ∨ strLower a = "run" ∨
            strLower a = "crouch" then
          unitAdd u true ("GroundAnimation." ++ t.tagOf)
        else u).addIds = u.addIds
      by_cases h1 : strLower a = "swimslow" ∨ strLower a = "swimfast"
      · rw [if_pos h1]
        exact unitAdd_true_addIds u _
      · rw [if_neg h1]
        by_cases h2 : strLower a = "walk" ∨ strLower a = "run" ∨
            strLower a = "crouch"
        · rw [if_pos h2]
          exact unitAdd_true_addIds u _
        · rw [if_neg h2]

theorem applyRule_true_addIds (r : IdRule) (t : XTree)
    (ctx : Option String) (rest : List PFrame) (u : IDParserUnit) :
    ((applyRule r t true ctx rest u).2).addIds = u.addIds := by
  cases r <;> rfl

theorem applyRule_true_flags (r : IdRule) (t : XTree)
    (ctx : Option String) (rest : List PFrame) (u : IDParserUnit)
    (hrest : ∀ fr ∈ rest, fr.2.1 = true) :
    ∀ fr ∈ (applyRule r t true ctx rest u).1, fr.2.1 = true := by
  cases r with
  | contextRule c =>
      intro fr hfr
      rcases List.mem_append.mp hfr with h | h
      · exact pushFrames_flag h
      · exact hrest fr h
  | overrideRule =>
      intro fr hfr
      rcases List.mem_append.mp hfr with h | h
      · exact pushFrames_flag h
      · exact hrest fr h
  | idRule p f => exact hrest
  | specialRule s => exact hrest
  | ignoreRule => exact hrest

/-- Processing any stack whose frames all carry the override flag never
touches the `add_id` set: every emission lands in `override_id`. -/
theorem parseLoopF_override_addIds :
    ∀ (fuel : Nat) (stack : List PFrame) (u : IDParserUnit)
      (c : List String),
      (∀ fr ∈ stack, fr.2.1 = true) →
      (parseLoopF fuel stack u c).1.addIds = u.addIds := by
  intro fuel
  induction fuel with
  | zero =>
      intro stack u c _
      cases stack <;> rfl
  | succ n ih =>
      intro stack u c hflags
      match stack with
      | [] => rfl
      | (t, isOv, ctx) :: rest =>
          have hov : isOv = true := hflags (t, isOv, ctx) (by simp)
          subst hov
          have hrest : ∀ fr ∈ rest, fr.2.1 = true := fun fr hfr =>
            hflags fr (List.mem_cons_of_mem _ hfr)
          show (parseLoopF n (stepFrame (t, true, ctx) rest u c).1
            (stepFrame (t, true, ctx) rest u c).2.1
            (stepFrame (t, true, ctx) rest u c).2.2).1.addIds = u.addIds
          cases hr : RULES (strLower t.tagOf) with
          | some r =>
              rw [stepFrame_rule true ctx rest u c hr]
              exact (ih (applyRule r t true ctx rest u).1
                  (applyRule r t true ctx rest u).2 c
                  (applyRule_true_flags r t ctx rest u hrest)).trans
                (applyRule_true_addIds r t ctx rest u)
          | none =>
              cases ctx with
              | some cv =>
                  cases hcr : RULES cv with
                  | some cr =>
                      rw [stepFrame_ctxrule true rest u c hr hcr]
                      exact (ih (applyRule cr t true (some cv) rest u).1
                          (applyRule cr t true (some cv) rest u).2 c
                          (applyRule_true_flags cr t (some cv) rest u
                            hrest)).trans
                        (applyRule_true_addIds cr t (some cv) rest u)
                  | none =>
                      rw [stepFrame_fallback_ctx true rest u c hr hcr]
                      exact (ih rest (fallbackUnit t true u)
                          (fallbackCache t c) hrest).trans
                        (fallbackUnit_true_addIds t u)
              | none =>
                  rw [stepFrame_fallback true rest u c hr]
                  exact (ih rest (fallbackUnit t true u)
                      (fallbackCache t c) hrest).trans
                    (fallbackUnit_true_addIds t u)

/-- The result sets do not depend on the incoming unknown-tags cache:
the walk only ever writes the cache. -/
theorem parseLoopF_cache_indep :
    ∀ (fuel : Nat) (stack : List PFrame) (u : IDParserUnit)
      (c c' : List String),
      (parseLoopF fuel stack u c).1 = (parseLoopF fuel stack u c').1 := by
  intro fuel
  induction fuel with
  | zero =>
      intro stack u c c'
      cases stack <;> rfl
  | succ n ih =>
      intro stack u c c'
      match stack with
      | [] => rfl
      | (t, isOv, ctx) :: rest =>
          show (parseLoopF n (stepFrame (t, isOv, ctx) rest u c).1
              (stepFrame (t, isOv, ctx) rest u c).2.1
              (stepFrame (t, isOv, ctx) rest u c).2.2).1
            = (parseLoopF n (stepFrame (t, isOv, ctx) rest u c').1
              (stepFrame (t, isOv, ctx) rest u c').2.1
              (stepFrame (t, isOv, ctx) rest u c').2.2).1
          cases hr : RULES (strLower t.tagOf) with
          | some r =>
              rw [stepFrame_rule isOv ctx rest u c hr,
                stepFrame_rule isOv ctx rest u c' hr]
              exact ih (applyRule r t isOv ctx rest u).1
                (applyRule r t isOv ctx rest u).2 c c'
          | none =>
              cases ctx with
              | some cv =>
                  cases hcr : RULES cv with
                  | some cr =>
                      rw [stepFrame_ctxrule isOv rest u c hr hcr,
                        stepFrame_ctxrule isOv rest u c' hr hcr]
                      exact ih (applyRule cr t isOv (some cv) rest u).1
                        (applyRule cr t isOv (some cv) rest u).2 c c'
                  | none =>
                      rw [stepFrame_fallback_ctx isOv rest u c hr hcr,
                        stepFrame_fallback_ctx isOv rest u c' hr hcr]
                      exact ih rest (fallbackUnit t isOv u)
                        (fallbackCache t c) (fallbackCache t c')
              | none =>
                  rw [stepFrame_fallback isOv rest u c hr,
                    stepFrame_fallback isOv rest u c' hr]
                  exact ih rest (fallbackUnit t isOv u)
                    (fallbackCache t c) (fallbackCache t c')

/-- `IDExtractor.extract_ids`: a missing root or a pure
localisation/wrapper root tag short-circuits to the empty result. -/
def extractIds (root : Option XTree) (cache : List String) :
    IDParserUnit × List String :=
  match root with
  | none => (⟨[], []⟩, cache)
  | some t =>
      if strLower t.tagOf = "infotext" ∨ strLower t.tagOf = "infotexts" ∨
          strLower t.tagOf = "contentpackage" ∨ strLower t.tagOf = "english"
      then (⟨[], []⟩, cache)
      else parseLoop [(t, false, none)] ⟨[], []⟩ cache

end IdParser

section Manager

/-!
## ModManager state and activation primitives
(src/Code/handlers/mod_manager.py)

`active_mods`/`inactive_mods` are lists of `ModUnit`; `_mod_map` maps
package id to package.  Python `in`/`remove`/`index` on these lists use
`ModUnit.__eq__`, which compares by id, so the model tests membership,
erases and locates by `MUnit.uid`.
-/

structure MState where
  activeMods : List MUnit
  inactiveMods : List MUnit
  modMap : List (String × MUnit)
  deriving Repr

/-- The ids of a package list. -/
def uidsOf (l : List MUnit) : List String := l.map MUnit.uid

/-- `list.remove(mod)`: drop the first element equal (by id) to the
given id. -/
def eraseUid (l : List MUnit) (k : String) : List MUnit :=
  match l with
  | [] => []
  | m :: rest => if m.uid = k then rest else m :: eraseUid rest k

/-- `list.index(mod)`: position of the first element with the given
id. -/
def findIdxUid (l : List MUnit) (k : String) : Option Nat :=
  match l with
  | [] => none
  | m :: rest =>
      if m.uid = k then some 0 else (findIdxUid rest k).map (· + 1)

/-- The simultaneous assignment `l[i], l[j] = l[j], l[i]`. -/
def swapIdx (l : List MUnit) (i j : Nat) : List MUnit :=
  match l[i]?, l[j]? with
  | some a, some b => (l.set i b).set j a
  | _, _ => l

/-- `ModManager.activate_mod`. -/
def activateMod (st : MState) (modId : String) : MState × Bool :=
  match aget st.modMap modId with
  | none => (st, false)
  | some m =>
      if m.uid ∈ uidsOf st.inactiveMods then
        ({ st with
            inactiveMods := eraseUid st.inactiveMods m.uid,
            activeMods := st.activeMods ++ [m] }, true)
      else (st, false)

/-- `ModManager.deactivate_mod`. -/
def deactivateMod (st : MState) (modId : String) : MState × Bool :=
  match aget st.modMap modId with
  | none => (st, false)
  | some m =>
      if m.uid ∈ uidsOf st.activeMods then
        ({ st with
            activeMods := eraseUid st.activeMods m.uid,
            inactiveMods := st.inactiveMods ++ [m] }, true)
      else (st, false)

/-- `ModManager.activate_all_mods`. -/
def activateAllMods (st : MState) : MState :=
  if st.inactiveMods = [] then st
  else { st with
    activeMods := st.activeMods ++ st.inactiveMods,
    inactiveMods := [] }

/-- `ModManager.swap_active_mods`: when both ids are known and
distinct, and both occur in the active list, swap their first
occurrences (the source's single if/elif scan never finds two indices
when the ids are equal). -/
def swapActiveMods (st : MState) (id1 id2 : String) : MState :=
  if (aget st.modMap id1).isNone || (aget st.modMap id2).isNone then st
  else if id1 = id2 then st
  else
    match findIdxUid st.activeMods id1, findIdxUid st.activeMods id2 with
    | some i, some j => { st with activeMods := swapIdx st.activeMods i j }
    | _, _ => st

/-- `ModManager.swap_inactive_mods`. -/
def swapInactiveMods (st : MState) (id1 id2 : String) : MState :=
  match aget st.modMap id1, aget st.modMap id2 with
  | some m1, some m2 =>
      if m1.uid ∈ uidsOf st.inactiveMods ∧ m2.uid ∈ uidsOf st.inactiveMods
      then
        match findIdxUid st.inactiveMods m1.uid,
            findIdxUid st.inactiveMods m2.uid with
        | some i, some j =>
            { st with inactiveMods := swapIdx st.inactiveMods i j }
        | _, _ => st
      else st
  | _, _ => st

/-- `ModManager.move_active_mod_to_end`. -/
def moveActiveModToEnd (st : MState) (modId : String) : MState :=
  match aget st.modMap modId with
  | some m =>
      if m.uid ∈ uidsOf st.activeMods then
        { st with activeMods := eraseUid st.activeMods m.uid ++ [m] }
      else st
  | none => st

/-- `ModManager.move_inactive_mod_to_end`. -/
def moveInactiveModToEnd (st : MState) (modId : String) : MState :=
  match aget st.modMap modId with
  | some m =>
      if m.uid ∈ uidsOf st.inactiveMods then
        { st with inactiveMods := eraseUid st.inactiveMods m.uid ++ [m] }
      else st
  | none => st

/-- `_mod_map` binds each id to a package carrying that id. -/
def MapConsistent (st : MState) : Prop :=
  ∀ p ∈ st.modMap, MUnit.uid p.2 = p.1

/-- The partition invariant: the map is id-consistent, neither list
holds two packages with the same id, both lists hold only known ids,
and every known id lies in exactly one of the two lists. -/
def PartitionInv (st : MState) : Prop :=
  MapConsistent st ∧
  (uidsOf st.activeMods).Nodup ∧
  (uidsOf st.inactiveMods).Nodup ∧
  (∀ k ∈ uidsOf st.activeMods, k ∈ st.modMap.map Prod.fst) ∧
  (∀ k ∈ uidsOf st.inactiveMods, k ∈ st.modMap.map Prod.fst) ∧
  (∀ k ∈ st.modMap.map Prod.fst,
    (k ∈ uidsOf st.activeMods ∧ k ∉ uidsOf st.inactiveMods) ∨
    (k ∈ uidsOf st.inactiveMods ∧ k ∉ uidsOf st.activeMods))

theorem uidsOf_append (l1 l2 : List MUnit) :
    uidsOf (l1 ++ l2) = uidsOf l1 ++ uidsOf l2 :=
  List.map_append _ _ _

theorem uidsOf_eraseUid (l : List MUnit) (k : String) :
    uidsOf (eraseUid l k) = (uidsOf l).erase k := by
  induction l with
  | nil => rfl
  | cons m rest ih =>
      by_cases h : m.uid = k
      · simp [eraseUid, uidsOf, h, List.erase_cons]
      · simp only [eraseUid, if_neg h, uidsOf, List.map_cons,
          List.erase_cons]
        rw [if_neg (by simpa using h)]
        exact congrArg (m.uid :: ·) ih

theorem aget_isSome_iff {β : Type} (l : List (String × β)) (k : String) :
    (aget l k).isSome ↔ k ∈ l.map Prod.fst := by
  induction l with
  | nil => simp [aget]
  | cons hd tl ih =>
      obtain ⟨k', v'⟩ := hd
      rw [show aget ((k', v') :: tl) k
        = (if k' = k then some v' else aget tl k) from rfl]
      by_cases h : k' = k
      · subst h
        simp
      · have hne : ¬(k = k') := fun he => h he.symm
        rw [if_neg h]
        simp only [List.map_cons, List.mem_cons]
        rw [ih]
        simp [hne]

theorem aget_mem {β : Type} {l : List (String × β)} {k : String} {v : β}
    (h : aget l k = some v) : (k, v) ∈ l := by
  induction l with
  | nil => simp [aget] at h
  | cons hd tl ih =>
      obtain ⟨k', v'⟩ := hd
      rw [show aget ((k', v') :: tl) k
        = (if k' = k then some v' else aget tl k) from rfl] at h
      by_cases hk : k' = k
      · rw [if_pos hk] at h
        cases h
        subst hk
        exact List.mem_cons_self _ _
      · rw [if_neg hk] at h
        exact List.mem_cons_of_mem _ (ih h)

theorem get_cons_set_perm {α : Type} (x : α) :
    ∀ (t : List α) (k : Nat) (hk : k < t.length),
      (t.get ⟨k, hk⟩ :: t.set k x).Perm (x :: t) := by
  intro t
  induction t with
  | nil => intro k hk; cases hk
  | cons z s ih =>
      intro k hk
      cases k with
      | zero => exact List.Perm.swap x z s
      | succ k' =>
          have hk' : k' < s.length := Nat.lt_of_succ_lt_succ hk
          have h1 : ((z :: s).get ⟨k' + 1, hk⟩ :: (z :: s).set (k' + 1) x)
              = (s.get ⟨k', hk'⟩ :: z :: s.set k' x) := rfl
          rw [h1]
          have p1 : (s.get ⟨k', hk'⟩ :: z :: s.set k' x).Perm
              (z :: s.get ⟨k', hk'⟩ :: s.set k' x) :=
            List.Perm.swap z _ _
          have p2 : (z :: s.get ⟨k', hk'⟩ :: s.set k' x).Perm (z :: x :: s) :=
            (ih k' hk').cons z
          have p3 : (z :: x :: s).Perm (x :: z :: s) := List.Perm.swap x z s
          exact (p1.trans p2).trans p3

theorem set_get_self {α : Type} :
    ∀ (l : List α) (i : Nat) (h : i < l.length),
      l.set i (l.get ⟨i, h⟩) = l := by
  intro l
  induction l with
  | nil => intro i h; cases h
  | cons z t ih =>
      intro i h
      cases i with
      | zero => rfl
      | succ i' =>
          have : t.set i' (t.get ⟨i', Nat.lt_of_succ_lt_succ h⟩) = t :=
            ih i' _
          simpa [List.set] using this

theorem set_set_get_perm {α : Type} :
    ∀ (l : List α) (i j : Nat) (hij : i < j) (hj : j < l.length),
      ((l.set i (l.get ⟨j, hj⟩)).set j
        (l.get ⟨i, Nat.lt_trans hij hj⟩)).Perm l := by
  intro l
  induction l with
  | nil => intro i j hij hj; cases hj
  | cons z t ih =>
      intro i j hij hj
      cases i with
      | zero =>
          cases j with
          | zero => cases hij
          | succ k =>
              have hk : k < t.length := Nat.lt_of_succ_lt_succ hj
              show (t.get ⟨k, hk⟩ :: t.set k z).Perm (z :: t)
              exact get_cons_set_perm z t k hk
      | succ i' =>
          cases j with
          | zero => cases hij
          | succ k =>
              have hk : k < t.length := Nat.lt_of_succ_lt_succ hj
              have hij' : i' < k := Nat.lt_of_succ_lt_succ hij
              show (z :: (t.set i' (t.get ⟨k, hk⟩)).set k
                (t.get ⟨i', Nat.lt_trans hij' hk⟩)).Perm (z :: t)
              exact (ih i' k hij' hk).cons z

theorem swapIdx_perm (l : List MUnit) (i j : Nat) :
    (swapIdx l i j).Perm l := by
  cases hi : l[i]? with
  | none =>
      have : swapIdx l i j = l := by unfold swapIdx; rw [hi]
      rw [this]
  | some a =>
      cases hj : l[j]? with
      | none =>
          have : swapIdx l i j = l := by unfold swapIdx; rw [hi, hj]
          rw [this]
      | some b =>
          have hsw : swapIdx l i j = (l.set i b).set j a := by
            unfold swapIdx; rw [hi, hj]
          rw [hsw]
          obtain ⟨hil, hia⟩ := List.getElem?_eq_some.mp hi
          obtain ⟨hjl, hjb⟩ := List.getElem?_eq_some.mp hj
          have hga : l.get ⟨i, hil⟩ = a := hia
          have hgb : l.get ⟨j, hjl⟩ = b := hjb
          rcases Nat.lt_trichotomy i j with h | h | h
          · rw [← hga, ← hgb]
            exact set_set_get_perm l i j h hjl
          · subst h
            have hab : a = b := by rw [hi] at hj; cases hj; rfl
            subst hab
            rw [List.set_set, ← hga, set_get_self]
          · have hne : i ≠ j := (Nat.ne_of_lt h).symm
            rw [List.set_comm _ _ _ hne, ← hga, ← hgb]
            exact set_set_get_perm l j i h hil

/-- Moving one id from the inactive to the active side (or vice versa,
by symmetry of the statement) preserves the partition data. -/
theorem partition_move (A I K : List String) (k : String)
    (hA : A.Nodup) (hI : I.Nodup)
    (hAK : ∀ x ∈ A, x ∈ K) (hIK : ∀ x ∈ I, x ∈ K)
    (hxor : ∀ x ∈ K, (x ∈ A ∧ x ∉ I) ∨ (x ∈ I ∧ x ∉ A))
    (hk : k ∈ I) :
    (A ++ [k]).Nodup ∧ (I.erase k).Nodup ∧
    (∀ x ∈ A ++ [k], x ∈ K) ∧ (∀ x ∈ I.erase k, x ∈ K) ∧
    (∀ x ∈ K, (x ∈ A ++ [k] ∧ x ∉ I.erase k) ∨
      (x ∈ I.erase k ∧ x ∉ A ++ [k])) := by
  have kK : k ∈ K := hIK k hk
  have knA : k ∉ A := by
    rcases hxor k kK with ⟨_, hni⟩ | ⟨_, hna⟩
    · exact absurd hk hni
    · exact hna
  refine ⟨?_, hI.erase k, ?_, ?_, ?_⟩
  · rw [List.nodup_append]
    refine ⟨hA, List.nodup_singleton k, ?_⟩
    intro x hx hx'
    rw [List.mem_singleton] at hx'
    subst hx'
    exact knA hx
  · intro x hx
    rcases List.mem_append.mp hx with hx | hx
    · exact hAK x hx
    · rw [List.mem_singleton] at hx; subst hx; exact kK
  · intro x hx
    exact hIK x (List.erase_subset _ _ hx)
  · intro x hxK
    by_cases hxk : x = k
    · subst hxk
      refine Or.inl ⟨List.mem_append_right _ (List.mem_singleton.mpr rfl),
        fun hmem => ?_⟩
      exact absurd (hI.mem_erase_iff.mp hmem).1 (by simp)
    · rcases hxor x hxK with ⟨hxA, hxnI⟩ | ⟨hxI, hxnA⟩
      · refine Or.inl ⟨List.mem_append_left _ hxA, fun hmem => ?_⟩
        exact hxnI (List.erase_subset _ _ hmem)
      · refine Or.inr ⟨hI.mem_erase_iff.mpr ⟨hxk, hxI⟩, fun hmem => ?_⟩
        rcases List.mem_append.mp hmem with hx | hx
        · exact hxnA hx
        · exact hxk (List.mem_singleton.mp hx)

/-- Replacing the active list by one with permuted ids preserves the
invariant. -/
theorem partitionInv_perm_active (st : MState) (A' : List MUnit)
    (hp : (uidsOf A').Perm (uidsOf st.activeMods))
    (h : PartitionInv st) :
    PartitionInv { st with activeMods := A' } := by
  obtain ⟨hc, hA, hI, hAK, hIK, hxor⟩ := h
  refine ⟨hc, hp.nodup_iff.mpr hA, hI, ?_, hIK, ?_⟩
  · intro k hk
    exact hAK k (hp.mem_iff.mp hk)
  · intro k hkK
    rcases hxor k hkK with ⟨h1, h2⟩ | ⟨h1, h2⟩
    · exact Or.inl ⟨hp.mem_iff.mpr h1, h2⟩
    · exact Or.inr ⟨h1, fun hmem => h2 (hp.mem_iff.mp hmem)⟩

/-- Replacing the inactive list by one with permuted ids preserves the
invariant. -/
theorem partitionInv_perm_inactive (st : MState) (I' : List MUnit)
    (hp : (uidsOf I').Perm (uidsOf st.inactiveMods))
    (h : PartitionInv st) :
    PartitionInv { st with inactiveMods := I' } := by
  obtain ⟨hc, hA, hI, hAK, hIK, hxor⟩ := h
  refine ⟨hc, hA, hp.nodup_iff.mpr hI, hAK, ?_, ?_⟩
  · intro k hk
    exact hIK k (hp.mem_iff.mp hk)
  · intro k hkK
    rcases hxor k hkK with ⟨h1, h2⟩ | ⟨h1, h2⟩
    · exact Or.inl ⟨h1, fun hmem => h2 (hp.mem_iff.mp hmem)⟩
    · exact Or.inr ⟨hp.mem_iff.mpr h1, h2⟩

/-- `eraseUid l k ++ [m]` permutes the ids of `l` when `m.uid = k ∈ l`:
moving a member to the end reorders, never duplicates or drops. -/
theorem uids_erase_append_perm (l : List MUnit) (m : MUnit)
    (hk : m.uid ∈ uidsOf l) :
    (uidsOf (eraseUid l m.uid ++ [m])).Perm (uidsOf l) := by
  rw [uidsOf_append, uidsOf_eraseUid]
  have h1 : ((uidsOf l).erase m.uid ++ uidsOf [m]).Perm
      (m.uid :: (uidsOf l).erase m.uid) :=
    @List.perm_append_comm _ ((uidsOf l).erase m.uid) [m.uid]
  have h2 := (List.perm_cons_erase hk).symm
  exact h1.trans h2

theorem uidsOf_singleton (m : MUnit) : uidsOf [m] = [m.uid] := rfl

instance (st : MState) : Decidable (MapConsistent st) := by
  unfold MapConsistent; infer_instance

instance (st : MState) : Decidable (PartitionInv st) := by
  unfold PartitionInv; infer_instance

theorem activateMod_preserves (st : MState) (modId : String)
    (h : PartitionInv st) : PartitionInv (activateMod st modId).1 := by
  unfold activateMod
  cases hm : aget st.modMap modId with
  | none => exact h
  | some m =>
      by_cases hmem : m.uid ∈ uidsOf st.inactiveMods
      · simp only [if_pos hmem]
        obtain ⟨hc, hA, hI, hAK, hIK, hxor⟩ := h
        obtain ⟨n1, n2, s1, s2, x1⟩ := partition_move
          (uidsOf st.activeMods) (uidsOf st.inactiveMods)
          (st.modMap.map Prod.fst) m.uid hA hI hAK hIK hxor hmem
        refine ⟨hc, ?_, ?_, ?_, ?_, ?_⟩ <;>
          simp only [uidsOf_append, uidsOf_eraseUid, uidsOf_singleton]
        · exact n1
        · exact n2
        · exact s1
        · exact s2
        · exact x1
      · simp only [if_neg hmem]
        exact h

theorem deactivateMod_preserves (st : MState) (modId : String)
    (h : PartitionInv st) : PartitionInv (deactivateMod st modId).1 := by
  unfold deactivateMod
  cases hm : aget st.modMap modId with
  | none => exact h
  | some m =>
      by_cases hmem : m.uid ∈ uidsOf st.activeMods
      · simp only [if_pos hmem]
        obtain ⟨hc, hA, hI, hAK, hIK, hxor⟩ := h
        obtain ⟨n1, n2, s1, s2, x1⟩ := partition_move
          (uidsOf st.inactiveMods) (uidsOf st.activeMods)
          (st.modMap.map Prod.fst) m.uid hI hA hIK hAK
          (fun k hk => (hxor k hk).symm) hmem
        refine ⟨hc, ?_, ?_, ?_, ?_, ?_⟩ <;>
          simp only [uidsOf_append, uidsOf_eraseUid, uidsOf_singleton]
        · exact n2
        · exact n1
        · exact s2
        · exact s1
        · exact fun k hk => (x1 k hk).symm
      · simp only [if_neg hmem]
        exact h

theorem activateAllMods_preserves (st : MState)
    (h : PartitionInv st) : PartitionInv (activateAllMods st) := by
  unfold activateAllMods
  by_cases hni : st.inactiveMods = []
  · simp only [if_pos hni]; exact h
  · simp only [if_neg hni]
    obtain ⟨hc, hA, hI, hAK, hIK, hxor⟩ := h
    have hdisj : (uidsOf st.activeMods).Disjoint (uidsOf st.inactiveMods) := by
      intro x hxA hxI
      rcases hxor x (hAK x hxA) with ⟨_, hni'⟩ | ⟨_, hna⟩
      · exact hni' hxI
      · exact hna hxA
    refine ⟨hc, ?_, List.nodup_nil, ?_, ?_, ?_⟩ <;>
      simp only [uidsOf_append]
    · exact List.Nodup.append hA hI hdisj
    · intro k hk
      rcases List.mem_append.mp hk with hk | hk
      · exact hAK k hk
      · exact hIK k hk
    · intro k hk
      simp [uidsOf] at hk
    · intro k hkK
      rcases hxor k hkK with ⟨h1, _⟩ | ⟨h1, _⟩
      · exact Or.inl ⟨List.mem_append_left _ h1, by simp [uidsOf]⟩
      · exact Or.inl ⟨List.mem_append_right _ h1, by simp [uidsOf]⟩

theorem swapActiveMods_preserves (st : MState) (id1 id2 : String)
    (h : PartitionInv st) : PartitionInv (swapActiveMods st id1 id2) := by
  unfold swapActiveMods
  by_cases h1 : ((aget st.modMap id1).isNone || (aget st.modMap id2).isNone)
    = true
  · simp only [if_pos h1]; exact h
  · simp only [if_neg h1]
    by_cases h2 : id1 = id2
    · simp only [if_pos h2]; exact h
    · simp only [if_neg h2]
      cases hf1 : findIdxUid st.activeMods id1 with
      | none => exact h
      | some i =>
          cases hf2 : findIdxUid st.activeMods id2 with
          | none => exact h
          | some j =>
              exact partitionInv_perm_active st _
                ((swapIdx_perm st.activeMods i j).map MUnit.uid) h

theorem swapInactiveMods_preserves (st : MState) (id1 id2 : String)
    (h : PartitionInv st) : PartitionInv (swapInactiveMods st id1 id2) := by
  unfold swapInactiveMods
  cases hm1 : aget st.modMap id1 with
  | none => exact h
  | some m1 =>
      cases hm2 : aget st.modMap id2 with
      | none => exact h
      | some m2 =>
          by_cases hmem : m1.uid ∈ uidsOf st.inactiveMods ∧
              m2.uid ∈ uidsOf st.inactiveMods
          · simp only [if_pos hmem]
            cases hf1 : findIdxUid st.inactiveMods m1.uid with
            | none => exact h
            | some i =>
                cases hf2 : findIdxUid st.inactiveMods m2.uid with
                | none => exact h
                | some j =>
                    exact partitionInv_perm_inactive st _
                      ((swapIdx_perm st.inactiveMods i j).map MUnit.uid) h
          · simp only [if_neg hmem]
            exact h

theorem moveActiveModToEnd_preserves (st : MState) (modId : String)
    (h : PartitionInv st) : PartitionInv (moveActiveModToEnd st modId) := by
  unfold moveActiveModToEnd
  cases hm : aget st.modMap modId with
  | none => exact h
  | some m =>
      by_cases hmem : m.uid ∈ uidsOf st.activeMods
      · simp only [if_pos hmem]
        exact partitionInv_perm_active st _
          (uids_erase_append_perm st.activeMods m hmem) h
      · simp only [if_neg hmem]
        exact h

theorem moveInactiveModToEnd_preserves (st : MState) (modId : String)
    (h : PartitionInv st) : PartitionInv (moveInactiveModToEnd st modId) := by
  unfold moveInactiveModToEnd
  cases hm : aget st.modMap modId with
  | none => exact h
  | some m =>
      by_cases hmem : m.uid ∈ uidsOf st.inactiveMods
      · simp only [if_pos hmem]
        exact partitionInv_perm_inactive st _
          (uids_erase_append_perm st.inactiveMods m hmem) h
      · simp only [if_neg hmem]
        exact h

end Manager

section SortModel

/-!
## `ModManager.sort` (src/Code/handlers/mod_manager.py)

The phases, in source order: (1) a single pass over the active mods'
dependencies collecting conflict bans and missing hard-dependency
candidates (interleaved, so a ban only masks later candidates); (2)
auto-activation of the candidates through `activate_mod`; (3) the
`added_ids` first-write-wins table; (4) graph construction —
`dependencies` maps each package id to its set of parents (insertion
ordered, duplicate-free), `hard_edges` marks the `patch`/`requirement`
edges, plus the two soft-edge heuristics; (5) Kahn's algorithm seeded
with the zero-in-degree nodes in current order; (6) cycle recovery:
soft-edge dropping rounds, then force-emitting by zeroing in-degrees.

The loops are given explicit fuel so they stay structurally recursive
and evaluable; every call site passes fuel proven (or argued in the
accompanying lemmas) to suffice: `processQueue` consumes at least one
unit of `pqMeasure` per step, and each recovery round emits at least
one package, bounding the rounds by the package count.

Python's `set` iteration order is unspecified; the model iterates
`unresolved` and takes `min` over it in active-id order.  The
`children_graph` is built once from the initial `dependencies` and is
not rebuilt after soft-edge drops, exactly as in the source.
-/

/-- Bool-valued substring test over char lists (`needle in hay`). -/
def listPrefix : List Char → List Char → Bool
  | [], _ => true
  | _ :: _, [] => false
  | a :: as, b :: bs => a = b && listPrefix as bs

def listInfix (needle : List Char) : List Char → Bool
  | [] => listPrefix needle []
  | b :: bs => listPrefix needle (b :: bs) || listInfix needle bs

/-- Python `needle in hay` on strings. -/
def strContains (hay needle : String) : Bool :=
  listInfix needle.data hay.data

/-- Result of the first dependency pass: conflict-banned ids and the
missing hard-dependency candidates, in discovery order. -/
structure BanMissing where
  banIds : List String
  missing : List MUnit

/-- The first pass of `sort` over each active mod's dependencies:
conflicts whose target is active ban the target id; `requirement` and
`patch` dependencies with a passing (or absent) condition whose target
is neither active nor banned-so-far look up a known candidate. -/
def scanDeps (pc : String → List String → Bool) (ids0 : List String)
    (modMap : List (String × MUnit)) (mods : List MUnit) : BanMissing :=
  mods.foldl (fun acc m =>
    m.deps.foldl (fun acc2 d =>
      if d.dtype = "conflict" then
        if d.depId ∈ ids0 then { acc2 with banIds := sadd acc2.banIds d.depId }
        else acc2
      else if d.dtype = "requirement" ∨ d.dtype = "patch" then
        if (match d.cond with
            | some cnd => !pc cnd ids0
            | none => false) then acc2
        else if d.depId ∉ ids0 ∧ d.depId ∉ acc2.banIds then
          match aget modMap d.depId with
          | some cand => { acc2 with missing := acc2.missing ++ [cand] }
          | none => acc2
        else acc2
      else acc2) acc) ⟨[], []⟩

/-- Auto-activation of the missing candidates: each still-inactive,
unbanned candidate is activated via `activate_mod`, and the live
active-id set is extended on success. -/
def autoActivate (missing : List MUnit) (st : MState)
    (ids0 : List String) (ban : List String) : MState × List String :=
  missing.foldl (fun acc nm =>
    if nm.uid ∉ acc.2 ∧ nm.uid ∉ ban then
      let r := activateMod acc.1 nm.uid
      if r.2 then (r.1, sadd acc.2 nm.uid) else (r.1, acc.2)
    else acc) (st, ids0)

/-- The `added_ids` table: identifier → id of the first active mod (in
current order) whose `add_id` set contains it. -/
def addedIdsOf (mods : List MUnit) : List (String × String) :=
  mods.foldl (fun acc m =>
    m.addId.foldl (fun acc2 aid =>
      if (aget acc2 aid).isSome then acc2 else acc2 ++ [(aid, m.uid)])
      acc) []

/-- Insert parent `p` into `u`'s parent set (`dependencies[u].add(p)`),
creating the key on first use as the `defaultdict` does. -/
def addParent (deps : List (String × List String)) (u p : String) :
    List (String × List String) :=
  match deps with
  | [] => [(u, [p])]
  | (k, ps) :: rest =>
      if k = u then (k, if p ∈ ps then ps else ps ++ [p]) :: rest
      else (k, ps) :: addParent rest u p

/-- The parent set of `u` (`dependencies[u]`, empty by default). -/
def depsOf (deps : List (String × List String)) (u : String) :
    List String :=
  (aget deps u).getD []

/-- The dependency graph: per-package parent sets plus the set of hard
edges. -/
structure Graph where
  deps : List (String × List String)
  hard : List (String × String)

/-- Graph construction over the (auto-activated) active list: hard
edges for active-target, condition-passing `patch`/`requirement`
dependencies; soft edges from the compatibility-name heuristic and
from override-of-added-identifier binding (unless opted out). -/
def buildGraph (pc : String → List String → Bool) (ids1 : List String)
    (added : List (String × String)) (mods : List MUnit) : Graph :=
  mods.foldl (fun g m =>
    let g1 := m.deps.foldl (fun g2 d =>
      if d.depId ∉ ids1 then g2
      else if d.dtype = "conflict" then g2
      else if (match d.cond with
          | some cnd => !pc cnd ids1
          | none => false) then g2
      else if d.dtype = "patch" ∨ d.dtype = "requirement" then
        { deps := addParent g2.deps m.uid d.depId,
          hard := if (m.uid, d.depId) ∈ g2.hard then g2.hard
            else g2.hard ++ [(m.uid, d.depId)] }
      else g2) g
    let nameL := strLower m.name
    let g2 :=
      if strContains nameL "patch" || strContains nameL "compatibility"
          || strContains nameL "compat" then
        mods.foldl (fun g3 other =>
          if other.uid = m.uid then g3
          else if (strLower other.name).length > 3 ∧
              strContains nameL (strLower other.name) then
            { g3 with deps := addParent g3.deps m.uid other.uid }
          else g3) g1
      else g1
    if m.getBoolSetting "IgnoreOverrideCheck" then g2
    else m.overrideId.foldl (fun g3 oid =>
      match aget added oid with
      | some adder =>
          if adder ≠ m.uid then
            { g3 with deps := addParent g3.deps m.uid adder }
          else g3
      | none => g3) g2) ⟨[], []⟩

/-- `children_graph[p]`: the packages whose parent set contains `p`,
in `dependencies` insertion order (built once, before any soft-edge
drop). -/
def childrenOf (deps : List (String × List String)) (p : String) :
    List String :=
  (deps.filter fun kv => p ∈ kv.2).map Prod.fst

/-- In-degree store (`defaultdict(int)` keyed by package id). -/
def idegGet (d : List (String × Int)) (u : String) : Int :=
  (aget d u).getD 0

def idegSet (d : List (String × Int)) (u : String) (v : Int) :
    List (String × Int) :=
  aset d u v

/-- `in_degree[u] = len(dependencies[u])` over the map's keys. -/
def initInDeg (deps : List (String × List String)) :
    List (String × Int) :=
  deps.map fun kv => (kv.1, (kv.2.length : Int))

/-- The mutable state of Kahn's algorithm and its recovery phases. -/
structure RState where
  sorted : List MUnit
  processed : List String
  deps : List (String × List String)
  inDeg : List (String × Int)
  queue : List String

/-- One emission step: append the package, decrement every child's
in-degree, enqueue the children that reach zero. -/
def emitNode (childG : List (String × List String)) (m : MUnit)
    (u : String) (qs : List String) (s : RState) : RState :=
  let folded := (childrenOf childG u).foldl
    (fun (p : List (String × Int) × List String) v =>
      let dv := idegGet p.1 v - 1
      (idegSet p.1 v dv, if dv = 0 then p.2 ++ [v] else p.2))
    (s.inDeg, qs)
  { s with
    sorted := s.sorted ++ [m],
    processed := u :: s.processed,
    inDeg := folded.1,
    queue := folded.2 }

/-- `process_queue`, with fuel: pop, skip already-processed or unknown
ids, emit otherwise.  `pqMeasure` fuel always suffices (each step
strictly decreases it). -/
def processQueue (childG : List (String × List String))
    (amap : List (String × MUnit)) :
    Nat → RState → RState
  | 0, s => s
  | fuel + 1, s =>
      match s.queue with
      | [] => s
      | u :: qs =>
          match aget amap u with
          | none => processQueue childG amap fuel { s with queue := qs }
          | some m =>
              if u ∈ s.processed then
                processQueue childG amap fuel { s with queue := qs }
              else
                processQueue childG amap fuel (emitNode childG m u qs s)

/-- Sum of the children-list lengths of the not-yet-processed known
ids: with the queue length, a strictly decreasing measure of
`process_queue`. -/
def remChildren (childG : List (String × List String))
    (keys : List String) (processed : List String) : Nat :=
  ((keys.dedup.filter (· ∉ processed)).map
    fun u => (childrenOf childG u).length).sum

def pqMeasure (childG : List (String × List String))
    (amap : List (String × MUnit)) (s : RState) : Nat :=
  s.queue.length + remChildren childG (amap.map Prod.fst) s.processed

/-- The body of the soft-edge dropping inner loop: skip hard edges,
otherwise remove the parent, decrement the in-degree and enqueue on
zero. -/
def dropStep (hard : List (String × String)) (u : String)
    (s2 : RState × Bool) (p : String) : RState × Bool :=
  if (u, p) ∈ hard then s2
  else
    let dv := idegGet s2.1.inDeg u - 1
    ({ s2.1 with
        deps := aset s2.1.deps u ((depsOf s2.1.deps u).erase p),
        inDeg := idegSet s2.1.inDeg u dv,
        queue := if dv = 0 then s2.1.queue ++ [u] else s2.1.queue },
      if dv = 0 then true else s2.2)

/-- One pass of the soft-edge dropping inner loop for a single
unresolved package `u`: the `holders` list is computed from the
current parent set before any removal. -/
def dropSoftOne (hard : List (String × String)) (unres : List String)
    (u : String) (s : RState × Bool) : RState × Bool :=
  ((depsOf s.1.deps u).filter (· ∈ unres)).foldl (dropStep hard u) s

/-- One round of the soft-resolve loop body over the unresolved set. -/
def softRound (hard : List (String × String)) (unres : List String)
    (s : RState) : RState × Bool :=
  unres.foldl (fun acc u => dropSoftOne hard unres u acc) (s, false)

/-- The soft-resolve `while` loop.  Each continuing round has enqueued
an unresolved package whose in-degree reached zero, so `process_queue`
emits at least one package; hence at most `n` continuing rounds occur
and the `n + 1` fuel passed by `sortActive` is never exhausted. -/
def softLoop (hard : List (String × String))
    (childG : List (String × List String))
    (amap : List (String × MUnit)) (n : Nat) :
    Nat → RState → RState
  | 0, s => s
  | fuel + 1, s =>
      if s.sorted.length = n then s
      else
        let unres := (amap.map Prod.fst).dedup.filter (· ∉ s.processed)
        let r := softRound hard unres s
        if r.2 then
          softLoop hard childG amap n fuel
            (processQueue childG amap (pqMeasure childG amap r.1) r.1)
        else r.1

/-- First element minimising the key (Python `min(…, key=…)` with ties
broken by iteration order). -/
def argminBy (key : String → Nat) : List String → Option String
  | [] => none
  | x :: xs => some (xs.foldl (fun b y => if key y < key b then y else b) x)

/-- The force-emission `while` loop: pick the unresolved package with
the fewest unresolved parents, zero its in-degree, enqueue it and
rerun `process_queue`.  Each round emits at least one package, so the
`n + 1` fuel passed by `sortActive` suffices. -/
def forceLoop (childG : List (String × List String))
    (amap : List (String × MUnit)) (n : Nat) :
    Nat → RState → RState
  | 0, s => s
  | fuel + 1, s =>
      if s.sorted.length = n then s
      else
        let unres := (amap.map Prod.fst).dedup.filter (· ∉ s.processed)
        match argminBy
            (fun mid => ((depsOf s.deps mid).filter (· ∈ unres)).length)
            unres with
        | none => s
        | some best =>
            let s1 := { s with
              queue := s.queue ++ [best],
              inDeg := idegSet s.inDeg best 0 }
            forceLoop childG amap n fuel
              (processQueue childG amap (pqMeasure childG amap s1) s1)

/-- The state of `sort` after the first pass, auto-activation and
graph construction. -/
structure SortSetup where
  st1 : MState
  mods1 : List MUnit
  amap : List (String × MUnit)
  graph : Graph

/-- Phases (1)–(4) of `sort`. -/
def sortSetup (pc : String → List String → Bool) (st : MState) :
    SortSetup :=
  let mods0 := st.activeMods
  let ids0 := mods0.map MUnit.uid
  let bm := scanDeps pc ids0 st.modMap mods0
  let acts := autoActivate bm.missing st ids0 bm.banIds
  let mods1 := acts.1.activeMods
  let amap := mods1.map fun m => (m.uid, m)
  let added := addedIdsOf mods1
  ⟨acts.1, mods1, amap, buildGraph pc acts.2 added mods1⟩

/-- Phases (5)–(6) of `sort`: Kahn's algorithm and cycle recovery,
producing the final emission order. -/
def sortRun (g : Graph) (amap : List (String × MUnit))
    (mods1 : List MUnit) : RState :=
  let ideg0 := initInDeg g.deps
  let queue0 := (mods1.map MUnit.uid).filter fun i => idegGet ideg0 i = 0
  let s0 : RState := ⟨[], [], g.deps, ideg0, queue0⟩
  let n := mods1.length
  let s1 := processQueue g.deps amap (pqMeasure g.deps amap s0) s0
  let s2 := softLoop g.hard g.deps amap n (n + 1) s1
  forceLoop g.deps amap n (n + 1) s2

/-- `ModManager.sort`: full pipeline; assigns 1-based load order to the
final sequence, installs it as the active list and reruns
`process_errors`. -/
def sortActive (pc : String → List String → Bool) (st : MState) :
    MState :=
  if st.activeMods = [] then st
  else
    let setup := sortSetup pc st
    let s3 := sortRun setup.graph setup.amap setup.mods1
    let withOrder := s3.sorted.enum.map
      fun p => { p.2 with loadOrder := some (p.1 + 1) }
    { setup.st1 with activeMods := processErrors pc withOrder }

/-- The decrement-and-enqueue fold of one emission step. -/
def decStep (p : List (String × Int) × List String) (v : String) :
    List (String × Int) × List String :=
  let dv := idegGet p.1 v - 1
  (idegSet p.1 v dv, if dv = 0 then p.2 ++ [v] else p.2)

theorem emitNode_eq (childG : List (String × List String)) (m : MUnit)
    (u : String) (qs : List String) (s : RState) :
    emitNode childG m u qs s =
      { s with
        sorted := s.sorted ++ [m],
        processed := u :: s.processed,
        inDeg := ((childrenOf childG u).foldl decStep (s.inDeg, qs)).1,
        queue := ((childrenOf childG u).foldl decStep (s.inDeg, qs)).2 } :=
  rfl

theorem decStep_eq (d : List (String × Int)) (q : List String)
    (v : String) :
    decStep (d, q) v
      = (idegSet d v (idegGet d v - 1),
          if idegGet d v - 1 = 0 then q ++ [v] else q) := rfl

theorem decFold_queue_len :
    ∀ (l : List String) (d : List (String × Int)) (q : List String),
      ((l.foldl decStep (d, q)).2).length ≤ q.length + l.length := by
  intro l
  induction l with
  | nil => intro d q; exact Nat.le_refl _
  | cons v rest ih =>
      intro d q
      show ((rest.foldl decStep (decStep (d, q) v)).2).length ≤ _
      rw [decStep_eq]
      by_cases h : idegGet d v - 1 = 0
      · rw [if_pos h]
        have := ih (idegSet d v (idegGet d v - 1)) (q ++ [v])
        simp only [List.length_append, List.length_cons,
          List.length_nil] at this ⊢
        omega
      · rw [if_neg h]
        have := ih (idegSet d v (idegGet d v - 1)) q
        simp only [List.length_cons]
        omega

theorem decFold_queue_mem {x : String} :
    ∀ (l : List String) (d : List (String × Int)) (q : List String),
      x ∈ q → x ∈ (l.foldl decStep (d, q)).2 := by
  intro l
  induction l with
  | nil => intro d q h; exact h
  | cons v rest ih =>
      intro d q h
      show x ∈ (rest.foldl decStep (decStep (d, q) v)).2
      rw [decStep_eq]
      by_cases hz : idegGet d v - 1 = 0
      · rw [if_pos hz]
        exact ih _ _ (List.mem_append_left _ h)
      · rw [if_neg hz]
        exact ih _ _ h

theorem processQueue_zero (childG : List (String × List String))
    (amap : List (String × MUnit)) (s : RState) :
    processQueue childG amap 0 s = s := rfl

theorem processQueue_nilq (childG : List (String × List String))
    (amap : List (String × MUnit)) (n : Nat) (so : List MUnit)
    (pr : List String) (dp : List (String × List String))
    (idg : List (String × Int)) :
    processQueue childG amap (n + 1) ⟨so, pr, dp, idg, []⟩
      = ⟨so, pr, dp, idg, []⟩ := rfl

theorem processQueue_skip_none (childG : List (String × List String))
    (amap : List (String × MUnit)) (n : Nat) (so : List MUnit)
    (pr : List String) (dp : List (String × List String))
    (idg : List (String × Int)) (u : String) (qs : List String)
    (hm : aget amap u = none) :
    processQueue childG amap (n + 1) ⟨so, pr, dp, idg, u :: qs⟩
      = processQueue childG amap n ⟨so, pr, dp, idg, qs⟩ := by
  show (match aget amap u with
    | none => processQueue childG amap n ⟨so, pr, dp, idg, qs⟩
    | some m =>
        if u ∈ pr then processQueue childG amap n ⟨so, pr, dp, idg, qs⟩
        else processQueue childG amap n
          (emitNode childG m u qs ⟨so, pr, dp, idg, u :: qs⟩)) = _
  rw [hm]

theorem processQueue_skip_proc (childG : List (String × List String))
    (amap : List (String × MUnit)) (n : Nat) (so : List MUnit)
    (pr : List String) (dp : List (String × List String))
    (idg : List (String × Int)) (u : String) (qs : List String)
    (m : MUnit) (hm : aget amap u = some m) (hp : u ∈ pr) :
    processQueue childG amap (n + 1) ⟨so, pr, dp, idg, u :: qs⟩
      = processQueue childG amap n ⟨so, pr, dp, idg, qs⟩ := by
  show (match aget amap u with
    | none => processQueue childG amap n ⟨so, pr, dp, idg, qs⟩
    | some m =>
        if u ∈ pr then processQueue childG amap n ⟨so, pr, dp, idg, qs⟩
        else processQueue childG amap n
          (emitNode childG m u qs ⟨so, pr, dp, idg, u :: qs⟩)) = _
  rw [hm]
  exact if_pos hp

theorem processQueue_emit (childG : List (String × List String))
    (amap : List (String × MUnit)) (n : Nat) (so : List MUnit)
    (pr : List String) (dp : List (String × List String))
    (idg : List (String × Int)) (u : String) (qs : List String)
    (m : MUnit) (hm : aget amap u = some m) (hp : u ∉ pr) :
    processQueue childG amap (n + 1) ⟨so, pr, dp, idg, u :: qs⟩
      = processQueue childG amap n
          (emitNode childG m u qs ⟨so, pr, dp, idg, u :: qs⟩) := by
  show (match aget amap u with
    | none => processQueue childG amap n ⟨so, pr, dp, idg, qs⟩
    | some m =>
        if u ∈ pr then processQueue childG amap n ⟨so, pr, dp, idg, qs⟩
        else processQueue childG amap n
          (emitNode childG m u qs ⟨so, pr, dp, idg, u :: qs⟩)) = _
  rw [hm]
  exact if_neg hp

/-- The structural invariant of the Kahn state: the emitted packages
mirror the processed ids in reverse order, no id is processed twice,
and only known ids are processed. -/
def PQInv (amap : List (String × MUnit)) (s : RState) : Prop :=
  s.sorted.map MUnit.uid = s.processed.reverse ∧
  s.processed.Nodup ∧
  (∀ u ∈ s.processed, u ∈ amap.map Prod.fst)

theorem processQueue_inv (childG : List (String × List String))
    (amap : List (String × MUnit))
    (hc : ∀ p ∈ amap, MUnit.uid p.2 = p.1) :
    ∀ (fuel : Nat) (s : RState), PQInv amap s →
      PQInv amap (processQueue childG amap fuel s) := by
  intro fuel
  induction fuel with
  | zero => intro s h; exact h
  | succ n ih =>
      rintro ⟨so, pr, dp, idg, qu⟩ h
      cases qu with
      | nil => rw [processQueue_nilq]; exact h
      | cons u qs =>
          cases hm : aget amap u with
          | none =>
              rw [processQueue_skip_none childG amap n so pr dp idg u qs hm]
              exact ih _ h
          | some m =>
              by_cases hp : u ∈ pr
              · rw [processQueue_skip_proc childG amap n so pr dp idg
                  u qs m hm hp]
                exact ih _ h
              · rw [processQueue_emit childG amap n so pr dp idg
                  u qs m hm hp]
                refine ih _ ?_
                obtain ⟨h1, h2, h3⟩ := h
                have hum : m.uid = u := hc (u, m) (aget_mem hm)
                have huk : u ∈ amap.map Prod.fst :=
                  (aget_isSome_iff amap u).mp (by rw [hm]; rfl)
                rw [emitNode_eq]
                refine ⟨?_, List.nodup_cons.mpr ⟨hp, h2⟩, ?_⟩
                · show (so ++ [m]).map MUnit.uid = (u :: pr).reverse
                  have h1' : so.map MUnit.uid = pr.reverse := h1
                  rw [List.map_append, h1', List.reverse_cons]
                  show pr.reverse ++ [m.uid] = pr.reverse ++ [u]
                  rw [hum]
                · intro x hx
                  rcases List.mem_cons.mp hx with rfl | hx
                  · exact huk
                  · exact h3 x hx

theorem processQueue_processed_suffix
    (childG : List (String × List String))
    (amap : List (String × MUnit)) :
    ∀ (fuel : Nat) (s : RState),
      ∃ l, (processQueue childG amap fuel s).processed
        = l ++ s.processed := by
  intro fuel
  induction fuel with
  | zero => intro s; exact ⟨[], rfl⟩
  | succ n ih =>
      rintro ⟨so, pr, dp, idg, qu⟩
      cases qu with
      | nil => rw [processQueue_nilq]; exact ⟨[], rfl⟩
      | cons u qs =>
          cases hm : aget amap u with
          | none =>
              rw [processQueue_skip_none childG amap n so pr dp idg u qs hm]
              exact ih _
          | some m =>
              by_cases hp : u ∈ pr
              · rw [processQueue_skip_proc childG amap n so pr dp idg
                  u qs m hm hp]
                exact ih _
              · rw [processQueue_emit childG amap n so pr dp idg
                  u qs m hm hp]
                obtain ⟨l, hl⟩ :=
                  ih (emitNode childG m u qs ⟨so, pr, dp, idg, u :: qs⟩)
                refine ⟨l ++ [u], ?_⟩
                rw [hl, emitNode_eq]
                simp

theorem processQueue_processed_mono
    (childG : List (String × List String))
    (amap : List (String × MUnit)) (fuel : Nat) (s : RState) :
    s.processed.length
      ≤ (processQueue childG amap fuel s).processed.length := by
  obtain ⟨l, hl⟩ := processQueue_processed_suffix childG amap fuel s
  rw [hl]
  simp

theorem sum_filter_not_mem_cons (g : String → Nat) :
    ∀ (K : List String), K.Nodup → ∀ (processed : List String)
      (u : String), u ∈ K → u ∉ processed →
      ((K.filter (· ∉ processed)).map g).sum
        = g u + ((K.filter (· ∉ (u :: processed))).map g).sum := by
  intro K
  induction K with
  | nil => intro _ processed u hu; cases hu
  | cons k K' ih =>
      intro hnd processed u hu hnp
      have hk' : K'.Nodup := (List.nodup_cons.mp hnd).2
      by_cases hku : k = u
      · subst hku
        have hkK' : k ∉ K' := (List.nodup_cons.mp hnd).1
        have hfe : K'.filter (· ∉ (k :: processed))
            = K'.filter (· ∉ processed) := by
          apply List.filter_congr
          intro x hx
          have hxk : x ≠ k := fun he => hkK' (he ▸ hx)
          simp [List.mem_cons, hxk]
        rw [List.filter_cons, List.filter_cons]
        rw [if_pos (by simpa using hnp),
          if_neg (by simp [List.mem_cons])]
        rw [hfe]
        simp
      · have hu' : u ∈ K' := by
          rcases List.mem_cons.mp hu with he | h
          · exact absurd he.symm hku
          · exact h
        have hkmem : (k ∉ (u :: processed)) ↔ (k ∉ processed) := by
          simp [List.mem_cons, hku]
        rw [List.filter_cons, List.filter_cons]
        by_cases hkp : k ∈ processed
        · rw [if_neg (by simpa using hkp),
            if_neg (by simp [List.mem_cons]; exact fun _ => hkp)]
          exact ih hk' processed u hu' hnp
        · rw [if_pos (by simpa using hkp),
            if_pos (by simpa using hkmem.mpr hkp)]
          simp only [List.map_cons, List.sum_cons]
          rw [ih hk' processed u hu' hnp]
          omega

theorem remChildren_cons (childG : List (String × List String))
    (keys processed : List String) (u : String)
    (hu : u ∈ keys.dedup) (hnp : u ∉ processed) :
    remChildren childG keys processed
      = (childrenOf childG u).length
        + remChildren childG keys (u :: processed) :=
  sum_filter_not_mem_cons (fun x => (childrenOf childG x).length)
    keys.dedup (List.nodup_dedup _) processed u hu hnp

theorem processQueue_drain (childG : List (String × List String))
    (amap : List (String × MUnit)) :
    ∀ (fuel : Nat) (s : RState), pqMeasure childG amap s ≤ fuel →
      (processQueue childG amap fuel s).queue = [] := by
  intro fuel
  induction fuel with
  | zero =>
      intro s hf
      have hq : s.queue.length = 0 := by
        unfold pqMeasure at hf
        omega
      rw [processQueue_zero]
      exact List.length_eq_zero.mp hq
  | succ n ih =>
      rintro ⟨so, pr, dp, idg, qu⟩ hf
      cases qu with
      | nil => rw [processQueue_nilq]
      | cons u qs =>
          have hflen : qs.length + 1
                + remChildren childG (amap.map Prod.fst) pr ≤ n + 1 := by
            simpa [pqMeasure] using hf
          cases hm : aget amap u with
          | none =>
              rw [processQueue_skip_none childG amap n so pr dp idg u qs hm]
              refine ih _ ?_
              show qs.length + remChildren childG (amap.map Prod.fst) pr ≤ n
              omega
          | some m =>
              by_cases hp : u ∈ pr
              · rw [processQueue_skip_proc childG amap n so pr dp idg
                  u qs m hm hp]
                refine ih _ ?_
                show qs.length
                  + remChildren childG (amap.map Prod.fst) pr ≤ n
                omega
              · rw [processQueue_emit childG amap n so pr dp idg
                  u qs m hm hp]
                refine ih _ ?_
                have hudk : u ∈ (amap.map Prod.fst).dedup :=
                  List.mem_dedup.mpr
                    ((aget_isSome_iff amap u).mp (by rw [hm]; rfl))
                have hrc := remChildren_cons childG (amap.map Prod.fst)
                  pr u hudk hp
                have hql := decFold_queue_len (childrenOf childG u)
                  idg qs
                rw [emitNode_eq]
                show ((childrenOf childG u).foldl decStep
                    (idg, qs)).2.length
                  + remChildren childG (amap.map Prod.fst) (u :: pr) ≤ n
                omega

theorem processQueue_progress (childG : List (String × List String))
    (amap : List (String × MUnit)) :
    ∀ (fuel : Nat) (s : RState) (u0 : String), u0 ∈ s.queue →
      u0 ∉ s.processed → (aget amap u0).isSome →
      pqMeasure childG amap s ≤ fuel →
      s.processed.length
        < (processQueue childG amap fuel s).processed.length := by
  intro fuel
  induction fuel with
  | zero =>
      intro s u0 hq hnp hsome hf
      have : s.queue.length = 0 := by
        unfold pqMeasure at hf
        omega
      rw [List.length_eq_zero.mp this] at hq
      cases hq
  | succ n ih =>
      rintro ⟨so, pr, dp, idg, qu⟩ u0 hq hnp hsome hf
      cases qu with
      | nil => cases hq
      | cons u qs =>
          have hflen : qs.length + 1
                + remChildren childG (amap.map Prod.fst) pr ≤ n + 1 := by
            simpa [pqMeasure] using hf
          cases hm : aget amap u with
          | none =>
              have hne : u0 ≠ u := by
                intro he
                rw [he, hm] at hsome
                cases hsome
              have hq' : u0 ∈ qs := by
                rcases List.mem_cons.mp hq with he | h
                · exact absurd he hne
                · exact h
              rw [processQueue_skip_none childG amap n so pr dp idg u qs hm]
              refine ih ⟨so, pr, dp, idg, qs⟩ u0 hq' hnp hsome ?_
              show qs.length + remChildren childG (amap.map Prod.fst) pr ≤ n
              omega
          | some m =>
              by_cases hp : u ∈ pr
              · have hne : u0 ≠ u := fun he => hnp (he ▸ hp)
                have hq' : u0 ∈ qs := by
                  rcases List.mem_cons.mp hq with he | h
                  · exact absurd he hne
                  · exact h
                rw [processQueue_skip_proc childG amap n so pr dp idg
                  u qs m hm hp]
                refine ih ⟨so, pr, dp, idg, qs⟩ u0 hq' hnp hsome ?_
                show qs.length
                  + remChildren childG (amap.map Prod.fst) pr ≤ n
                omega
              · rw [processQueue_emit childG amap n so pr dp idg
                  u qs m hm hp]
                have hmono := processQueue_processed_mono childG amap n
                  (emitNode childG m u qs ⟨so, pr, dp, idg, u :: qs⟩)
                rw [emitNode_eq] at hmono
                simp only [List.length_cons] at hmono
                calc pr.length < pr.length + 1 := Nat.lt_succ_self _
                  _ ≤ _ := hmono

theorem aget_aset_ne {β : Type} (l : List (String × β)) (k k' : String)
    (v : β) (h : k ≠ k') : aget (aset l k' v) k = aget l k := by
  induction l with
  | nil =>
      show (if k' = k then some v
        else aget ([] : List (String × β)) k) = none
      rw [if_neg (fun he => h he.symm)]
      rfl
  | cons hd tl ih =>
      obtain ⟨k0, v0⟩ := hd
      show aget (if k0 = k' then (k', v) :: tl
        else (k0, v0) :: aset tl k' v) k = aget ((k0, v0) :: tl) k
      by_cases h0 : k0 = k'
      · rw [if_pos h0]
        show (if k' = k then some v else aget tl k)
          = (if k0 = k then some v0 else aget tl k)
        rw [if_neg (fun he => h he.symm),
          if_neg (by rw [h0]; exact fun he => h he.symm)]
      · rw [if_neg h0]
        show (if k0 = k then some v0 else aget (aset tl k' v) k)
          = (if k0 = k then some v0 else aget tl k)
        by_cases hk : k0 = k
        · rw [if_pos hk, if_pos hk]
        · rw [if_neg hk, if_neg hk]
          exact ih

theorem dropStep_sorted_processed (hard : List (String × String))
    (u : String) (s2 : RState × Bool) (p : String) :
    (dropStep hard u s2 p).1.sorted = s2.1.sorted ∧
    (dropStep hard u s2 p).1.processed = s2.1.processed := by
  unfold dropStep
  by_cases h : (u, p) ∈ hard
  · rw [if_pos h]; exact ⟨rfl, rfl⟩
  · rw [if_neg h]; exact ⟨rfl, rfl⟩

/-- The dropping step never removes a hard edge: a hard parent stays
in its package's parent set. -/
theorem dropStep_hard_kept (hard : List (String × String))
    (u0 : String) (s2 : RState × Bool) (p0 : String) (u p : String)
    (hh : (u, p) ∈ hard) (hmem : p ∈ depsOf s2.1.deps u) :
    p ∈ depsOf (dropStep hard u0 s2 p0).1.deps u := by
  unfold dropStep
  by_cases h : (u0, p0) ∈ hard
  · rw [if_pos h]; exact hmem
  · rw [if_neg h]
    show p ∈ depsOf (aset s2.1.deps u0 ((depsOf s2.1.deps u0).erase p0)) u
    by_cases hu : u = u0
    · subst hu
      have hne : p ≠ p0 := fun he => h (he ▸ hh)
      show p ∈ (aget (aset s2.1.deps u
        ((depsOf s2.1.deps u).erase p0)) u).getD []
      rw [aget_aset_self]
      exact List.mem_erase_of_ne hne |>.mpr hmem
    · show p ∈ (aget (aset s2.1.deps u0
        ((depsOf s2.1.deps u0).erase p0)) u).getD []
      rw [aget_aset_ne _ u u0 _ hu]
      exact hmem

theorem dropFold_sorted_processed (hard : List (String × String))
    (u : String) :
    ∀ (l : List String) (s2 : RState × Bool),
      ((l.foldl (dropStep hard u) s2).1.sorted = s2.1.sorted ∧
       (l.foldl (dropStep hard u) s2).1.processed = s2.1.processed) := by
  intro l
  induction l with
  | nil => intro s2; exact ⟨rfl, rfl⟩
  | cons p rest ih =>
      intro s2
      have h1 := dropStep_sorted_processed hard u s2 p
      have h2 := ih (dropStep hard u s2 p)
      exact ⟨h2.1.trans h1.1, h2.2.trans h1.2⟩

theorem dropFold_hard_kept (hard : List (String × String))
    (u0 : String) :
    ∀ (l : List String) (s2 : RState × Bool) (u p : String),
      (u, p) ∈ hard → p ∈ depsOf s2.1.deps u →
      p ∈ depsOf ((l.foldl (dropStep hard u0) s2).1).deps u := by
  intro l
  induction l with
  | nil => intro s2 u p _ hm; exact hm
  | cons p0 rest ih =>
      intro s2 u p hh hm
      exact ih (dropStep hard u0 s2 p0) u p hh
        (dropStep_hard_kept hard u0 s2 p0 u p hh hm)

theorem softRound_sorted_processed (hard : List (String × String))
    (unres : List String) (s : RState) :
    (softRound hard unres s).1.sorted = s.sorted ∧
    (softRound hard unres s).1.processed = s.processed := by
  unfold softRound
  suffices hgen : ∀ (l : List String) (s2 : RState × Bool),
      ((l.foldl (fun acc u => dropSoftOne hard unres u acc) s2).1.sorted
        = s2.1.sorted ∧
       (l.foldl (fun acc u => dropSoftOne hard unres u acc) s2).1.processed
        = s2.1.processed) by
    exact hgen unres (s, false)
  intro l
  induction l with
  | nil => intro s2; exact ⟨rfl, rfl⟩
  | cons u rest ih =>
      intro s2
      have h1 := dropFold_sorted_processed hard u
        ((depsOf s2.1.deps u).filter (· ∈ unres)) s2
      have h2 := ih (dropSoftOne hard unres u s2)
      exact ⟨h2.1.trans h1.1, h2.2.trans h1.2⟩

/-- A soft-resolve round only ever drops non-hard edges: every hard
edge present before the round is still present after it. -/
theorem softRound_hard_kept (hard : List (String × String))
    (unres : List String) (s : RState) (u p : String)
    (hh : (u, p) ∈ hard) (hm : p ∈ depsOf s.deps u) :
    p ∈ depsOf (softRound hard unres s).1.deps u := by
  unfold softRound
  suffices hgen : ∀ (l : List String) (s2 : RState × Bool),
      p ∈ depsOf s2.1.deps u →
      p ∈ depsOf
        ((l.foldl (fun acc v => dropSoftOne hard unres v acc) s2).1).deps
        u by
    exact hgen unres (s, false) hm
  intro l
  induction l with
  | nil => intro s2 h2; exact h2
  | cons v rest ih =>
      intro s2 h2
      exact ih (dropSoftOne hard unres v s2)
        (dropFold_hard_kept hard v _ s2 u p hh h2)

theorem argminBy_mem (key : String → Nat) :
    ∀ (l : List String) (b : String), argminBy key l = some b →
      b ∈ l := by
  intro l
  cases l with
  | nil => intro b h; cases h
  | cons x xs =>
      intro b h
      have hb : b = xs.foldl (fun b y => if key y < key b then y else b) x := by
        cases h; rfl
      subst hb
      clear h
      suffices hgen : ∀ (ys : List String) (a : String) (acc : List String),
          a ∈ acc →
          ys.foldl (fun b y => if key y < key b then y else b) a
            ∈ acc ++ ys by
        have := hgen xs x [x] (List.mem_singleton.mpr rfl)
        simpa using this
      intro ys
      induction ys with
      | nil => intro a acc ha; simpa using ha
      | cons y ys' ihy =>
          intro a acc ha
          show (ys'.foldl _ (if key y < key a then y else a))
            ∈ acc ++ y :: ys'
          by_cases hk : key y < key a
          · rw [if_pos hk]
            have := ihy y (acc ++ [y])
              (List.mem_append_right _ (List.mem_singleton.mpr rfl))
            simpa using this
          · rw [if_neg hk]
            have := ihy a (acc ++ [y]) (List.mem_append_left _ ha)
            simpa using this

theorem PQInv_len {amap : List (String × MUnit)} {s : RState}
    (h : PQInv amap s) : s.sorted.length = s.processed.length := by
  have h1 := congrArg List.length h.1
  simpa using h1

theorem PQInv_sorted_le {amap : List (String × MUnit)} {s : RState}
    (hkeys : (amap.map Prod.fst).Nodup) (h : PQInv amap s) :
    s.sorted.length ≤ amap.length := by
  rw [PQInv_len h]
  have hsub : s.processed ⊆ amap.map Prod.fst := fun x hx => h.2.2 x hx
  have := (List.Nodup.subperm h.2.1 hsub).length_le
  simpa using this

theorem softLoop_pqInv (hard : List (String × String))
    (childG : List (String × List String))
    (amap : List (String × MUnit)) (n : Nat)
    (hc : ∀ p ∈ amap, MUnit.uid p.2 = p.1) :
    ∀ (fuel : Nat) (s : RState), PQInv amap s →
      PQInv amap (softLoop hard childG amap n fuel s) := by
  intro fuel
  induction fuel with
  | zero => intro s h; exact h
  | succ f ih =>
      intro s hinv
      by_cases hdone : s.sorted.length = n
      · simp only [softLoop, if_pos hdone]
        exact hinv
      · simp only [softLoop, if_neg hdone]
        have hrs := softRound_sorted_processed hard
          ((amap.map Prod.fst).dedup.filter (· ∉ s.processed)) s
        have hrinv : PQInv amap (softRound hard
            ((amap.map Prod.fst).dedup.filter (· ∉ s.processed)) s).1 := by
          obtain ⟨h1, h2, h3⟩ := hinv
          refine ⟨?_, ?_, ?_⟩
          · rw [hrs.1, hrs.2]; exact h1
          · rw [hrs.2]; exact h2
          · rw [hrs.2]; exact h3
        by_cases hsoft : (softRound hard
            ((amap.map Prod.fst).dedup.filter (· ∉ s.processed)) s).2
          = true
        · rw [if_pos hsoft]
          exact ih _ (processQueue_inv childG amap hc _ _ hrinv)
        · rw [if_neg hsoft]
          exact hrinv

theorem forceLoop_pqInv (childG : List (String × List String))
    (amap : List (String × MUnit)) (n : Nat)
    (hc : ∀ p ∈ amap, MUnit.uid p.2 = p.1) :
    ∀ (fuel : Nat) (s : RState), PQInv amap s →
      PQInv amap (forceLoop childG amap n fuel s) := by
  intro fuel
  induction fuel with
  | zero => intro s h; exact h
  | succ f ih =>
      intro s hinv
      by_cases hdone : s.sorted.length = n
      · simp only [forceLoop, if_pos hdone]
        exact hinv
      · simp only [forceLoop, if_neg hdone]
        cases hb : argminBy
            (fun mid => ((depsOf s.deps mid).filter
              (· ∈ (amap.map Prod.fst).dedup.filter
                (· ∉ s.processed))).length)
            ((amap.map Prod.fst).dedup.filter (· ∉ s.processed)) with
        | none => exact hinv
        | some best =>
            refine ih _ (processQueue_inv childG amap hc _ _ ?_)
            exact hinv

theorem forceLoop_complete (childG : List (String × List String))
    (amap : List (String × MUnit)) (n : Nat)
    (hc : ∀ p ∈ amap, MUnit.uid p.2 = p.1)
    (hkeys : (amap.map Prod.fst).Nodup) (hn : n = amap.length) :
    ∀ (fuel : Nat) (s : RState), PQInv amap s →
      n - s.sorted.length ≤ fuel →
      (forceLoop childG amap n fuel s).sorted.length = n := by
  intro fuel
  induction fuel with
  | zero =>
      intro s hinv hf
      have hle : s.sorted.length ≤ n := hn ▸ PQInv_sorted_le hkeys hinv
      show s.sorted.length = n
      omega
  | succ f ih =>
      intro s hinv hf
      by_cases hdone : s.sorted.length = n
      · simp only [forceLoop, if_pos hdone]
        exact hdone
      · simp only [forceLoop, if_neg hdone]
        cases hb : argminBy
            (fun mid => ((depsOf s.deps mid).filter
              (· ∈ (amap.map Prod.fst).dedup.filter
                (· ∉ s.processed))).length)
            ((amap.map Prod.fst).dedup.filter (· ∉ s.processed)) with
        | none =>
            exfalso
            have hempty : ((amap.map Prod.fst).dedup.filter
                (· ∉ s.processed)) = [] := by
              cases he : ((amap.map Prod.fst).dedup.filter
                  (· ∉ s.processed)) with
              | nil => rfl
              | cons x xs => rw [he] at hb; cases hb
            have hsub : amap.map Prod.fst ⊆ s.processed := by
              intro x hx
              by_contra hnx
              have hxd : x ∈ (amap.map Prod.fst).dedup.filter
                  (· ∉ s.processed) :=
                List.mem_filter.mpr
                  ⟨List.mem_dedup.mpr hx, by simpa using hnx⟩
              rw [hempty] at hxd
              cases hxd
            have hlen : amap.length ≤ s.processed.length := by
              have := (List.Nodup.subperm hkeys hsub).length_le
              simpa using this
            have hle : s.sorted.length ≤ n := hn ▸ PQInv_sorted_le hkeys hinv
            have heq := PQInv_len hinv
            omega
        | some best =>
            have hbm := argminBy_mem _ _ _ hb
            have hbk : best ∈ (amap.map Prod.fst).dedup ∧
                best ∉ s.processed := by
              have := List.mem_filter.mp hbm
              exact ⟨this.1, by simpa using this.2⟩
            have hbsome : (aget amap best).isSome :=
              (aget_isSome_iff amap best).mpr
                (List.mem_dedup.mp hbk.1)
            have hgrow := processQueue_progress childG amap
              (pqMeasure childG amap
                { s with queue := s.queue ++ [best],
                         inDeg := idegSet s.inDeg best 0 })
              { s with queue := s.queue ++ [best],
                       inDeg := idegSet s.inDeg best 0 }
              best
              (List.mem_append_right _ (List.mem_singleton.mpr rfl))
              hbk.2 hbsome (Nat.le_refl _)
            have hinv1 : PQInv amap
                { s with queue := s.queue ++ [best],
                         inDeg := idegSet s.inDeg best 0 } := hinv
            have hinv2 := processQueue_inv childG amap hc
              (pqMeasure childG amap
                { s with queue := s.queue ++ [best],
                         inDeg := idegSet s.inDeg best 0 })
              _ hinv1
            refine ih _ hinv2 ?_
            have hlen2 := PQInv_len hinv2
            have hlen1 := PQInv_len hinv
            have hb : RState.processed { s with
                queue := s.queue ++ [best],
                inDeg := idegSet s.inDeg best 0 } = s.processed := rfl
            rw [hb] at hgrow
            omega

/-- Equation: `activate_mod` on an unknown id is a no-op. -/
theorem activateMod_none (st : MState) (modId : String)
    (h : aget st.modMap modId = none) :
    activateMod st modId = (st, false) := by
  unfold activateMod; rw [h]

theorem activateMod_some_mem (st : MState) (modId : String) (m : MUnit)
    (h : aget st.modMap modId = some m)
    (hmem : m.uid ∈ uidsOf st.inactiveMods) :
    activateMod st modId = ({ st with
      inactiveMods := eraseUid st.inactiveMods m.uid,
      activeMods := st.activeMods ++ [m] }, true) := by
  unfold activateMod; rw [h]
  show (if m.uid ∈ uidsOf st.inactiveMods then _ else _) = _
  rw [if_pos hmem]

theorem activateMod_some_nomem (st : MState) (modId : String) (m : MUnit)
    (h : aget st.modMap modId = some m)
    (hmem : m.uid ∉ uidsOf st.inactiveMods) :
    activateMod st modId = (st, false) := by
  unfold activateMod; rw [h]
  show (if m.uid ∈ uidsOf st.inactiveMods then _ else _) = _
  rw [if_neg hmem]

/-- `activate_mod` permutes the ids of the combined
active-plus-inactive population. -/
theorem activateMod_combined_perm (st : MState) (modId : String) :
    ((uidsOf (activateMod st modId).1.activeMods)
      ++ uidsOf (activateMod st modId).1.inactiveMods).Perm
    (uidsOf st.activeMods ++ uidsOf st.inactiveMods) := by
  cases hm : aget st.modMap modId with
  | none =>
      rw [activateMod_none st modId hm]
  | some m =>
      by_cases hmem : m.uid ∈ uidsOf st.inactiveMods
      · rw [activateMod_some_mem st modId m hm hmem]
        show (uidsOf (st.activeMods ++ [m])
            ++ uidsOf (eraseUid st.inactiveMods m.uid)).Perm _
        rw [uidsOf_append, uidsOf_eraseUid, uidsOf_singleton,
          List.append_assoc, List.singleton_append]
        exact List.Perm.append_left _ (List.perm_cons_erase hmem).symm
      · rw [activateMod_some_nomem st modId m hm hmem]

/-- One step of the auto-activation fold. -/
def autoStep (ban : List String) (acc : MState × List String)
    (nm : MUnit) : MState × List String :=
  if nm.uid ∉ acc.2 ∧ nm.uid ∉ ban then
    let r := activateMod acc.1 nm.uid
    if r.2 then (r.1, sadd acc.2 nm.uid) else (r.1, acc.2)
  else acc

theorem autoActivate_eq_foldl (missing : List MUnit) (st : MState)
    (ids0 ban : List String) :
    autoActivate missing st ids0 ban
      = missing.foldl (autoStep ban) (st, ids0) := rfl

theorem autoStep_combined_perm (ban : List String)
    (acc : MState × List String) (nm : MUnit) :
    ((uidsOf (autoStep ban acc nm).1.activeMods)
      ++ uidsOf (autoStep ban acc nm).1.inactiveMods).Perm
    (uidsOf acc.1.activeMods ++ uidsOf acc.1.inactiveMods) := by
  unfold autoStep
  by_cases hg : nm.uid ∉ acc.2 ∧ nm.uid ∉ ban
  · rw [if_pos hg]
    show ((uidsOf (if (activateMod acc.1 nm.uid).2 then
        ((activateMod acc.1 nm.uid).1, sadd acc.2 nm.uid)
      else ((activateMod acc.1 nm.uid).1, acc.2)).1.activeMods)
      ++ uidsOf (if (activateMod acc.1 nm.uid).2 then
        ((activateMod acc.1 nm.uid).1, sadd acc.2 nm.uid)
      else ((activateMod acc.1 nm.uid).1, acc.2)).1.inactiveMods).Perm
      (uidsOf acc.1.activeMods ++ uidsOf acc.1.inactiveMods)
    by_cases hr : (activateMod acc.1 nm.uid).2 = true
    · rw [if_pos hr]
      exact activateMod_combined_perm acc.1 nm.uid
    · rw [if_neg hr]
      exact activateMod_combined_perm acc.1 nm.uid
  · rw [if_neg hg]

theorem autoFold_combined_perm (ban : List String) (missing : List MUnit) :
    ∀ (acc : MState × List String),
      ((uidsOf (missing.foldl (autoStep ban) acc).1.activeMods)
        ++ uidsOf (missing.foldl (autoStep ban) acc).1.inactiveMods).Perm
      (uidsOf acc.1.activeMods ++ uidsOf acc.1.inactiveMods) := by
  induction missing with
  | nil => intro acc; exact List.Perm.refl _
  | cons nm rest ih =>
      intro acc
      rw [List.foldl_cons]
      exact (ih (autoStep ban acc nm)).trans
        (autoStep_combined_perm ban acc nm)

/-- The ids of the post-activation active list are duplicate-free
whenever the whole pre-sort population's are. -/
theorem sortSetup_mods1_nodup (pc : String → List String → Bool)
    (st : MState)
    (hnd : ((st.activeMods ++ st.inactiveMods).map MUnit.uid).Nodup) :
    ((sortSetup pc st).mods1.map MUnit.uid).Nodup := by
  have hperm : ((uidsOf (sortSetup pc st).st1.activeMods)
      ++ uidsOf (sortSetup pc st).st1.inactiveMods).Perm
      (uidsOf st.activeMods ++ uidsOf st.inactiveMods) := by
    show ((uidsOf (autoActivate _ st _ _).1.activeMods
      ++ uidsOf (autoActivate _ st _ _).1.inactiveMods)).Perm _
    rw [autoActivate_eq_foldl]
    exact autoFold_combined_perm _ _ (st, st.activeMods.map MUnit.uid)
  have hnd0 : (uidsOf st.activeMods ++ uidsOf st.inactiveMods).Nodup := by
    rw [← uidsOf_append]
    exact hnd
  have hnd' : ((uidsOf (sortSetup pc st).st1.activeMods)
      ++ uidsOf (sortSetup pc st).st1.inactiveMods).Nodup :=
    (List.Perm.nodup_iff hperm).mpr hnd0
  exact List.Nodup.of_append_left hnd'

theorem amap_consistent (mods1 : List MUnit) :
    ∀ p ∈ mods1.map (fun m => (m.uid, m)), MUnit.uid p.2 = p.1 := by
  intro p hp
  obtain ⟨m, _, rfl⟩ := List.mem_map.mp hp
  rfl

theorem amap_keys (mods1 : List MUnit) :
    (mods1.map (fun m => (m.uid, m))).map Prod.fst
      = mods1.map MUnit.uid := by
  rw [List.map_map]
  rfl

/-- `sortRun` emits a permutation of the post-activation active
list, and emits exactly as many entries as it. -/
theorem sortRun_perm (g : Graph) (mods1 : List MUnit)
    (hkeys : (mods1.map MUnit.uid).Nodup) :
    ((sortRun g (mods1.map fun m => (m.uid, m)) mods1).sorted.map
      MUnit.uid).Perm (mods1.map MUnit.uid) ∧
    (sortRun g (mods1.map fun m => (m.uid, m)) mods1).sorted.length
      = mods1.length := by
  have hc := amap_consistent mods1
  have hkeys' : ((mods1.map fun m => (m.uid, m)).map Prod.fst).Nodup := by
    rw [amap_keys]; exact hkeys
  have hrun : sortRun g (mods1.map fun m => (m.uid, m)) mods1
      = forceLoop g.deps (mods1.map fun m => (m.uid, m)) mods1.length
          (mods1.length + 1)
          (softLoop g.hard g.deps (mods1.map fun m => (m.uid, m))
            mods1.length (mods1.length + 1)
            (processQueue g.deps (mods1.map fun m => (m.uid, m))
              (pqMeasure g.deps (mods1.map fun m => (m.uid, m))
                ⟨[], [], g.deps, initInDeg g.deps,
                  (mods1.map MUnit.uid).filter
                    fun i => idegGet (initInDeg g.deps) i = 0⟩)
              ⟨[], [], g.deps, initInDeg g.deps,
                (mods1.map MUnit.uid).filter
                  fun i => idegGet (initInDeg g.deps) i = 0⟩)) := rfl
  have hinv0 : PQInv (mods1.map fun m => (m.uid, m))
      ⟨[], [], g.deps, initInDeg g.deps,
        (mods1.map MUnit.uid).filter
          fun i => idegGet (initInDeg g.deps) i = 0⟩ := by
    refine ⟨rfl, List.nodup_nil, ?_⟩
    intro u hu
    cases hu
  have hlen : (sortRun g (mods1.map fun m => (m.uid, m))
      mods1).sorted.length = mods1.length := by
    rw [hrun]
    refine forceLoop_complete g.deps _ mods1.length hc hkeys'
      (by rw [List.length_map]) (mods1.length + 1) _
      (softLoop_pqInv g.hard g.deps _ mods1.length hc
        (mods1.length + 1) _
        (processQueue_inv g.deps _ hc _ _ hinv0)) ?_
    exact le_trans (Nat.sub_le _ _) (Nat.le_succ _)
  have hinvF : PQInv (mods1.map fun m => (m.uid, m))
      (sortRun g (mods1.map fun m => (m.uid, m)) mods1) := by
    rw [hrun]
    exact forceLoop_pqInv g.deps _ mods1.length hc
      (mods1.length + 1) _
      (softLoop_pqInv g.hard g.deps _ mods1.length hc
        (mods1.length + 1) _
        (processQueue_inv g.deps _ hc _ _ hinv0))
  refine ⟨?_, hlen⟩
  obtain ⟨h1, h2, h3⟩ := hinvF
  have hsub : (sortRun g (mods1.map fun m => (m.uid, m))
      mods1).processed ⊆ mods1.map MUnit.uid := by
    intro x hx
    have := h3 x hx
    rwa [amap_keys] at this
  have hsp : (sortRun g (mods1.map fun m => (m.uid, m))
      mods1).processed.length = mods1.length := by
    have := PQInv_len ⟨h1, h2, h3⟩
    omega
  have hsubperm := List.Nodup.subperm h2 hsub
  have hperm : ((sortRun g (mods1.map fun m => (m.uid, m))
      mods1).processed).Perm (mods1.map MUnit.uid) := by
    refine hsubperm.perm_of_length_le ?_
    rw [hsp, List.length_map]
  rw [h1]
  exact (List.reverse_perm _).trans hperm

theorem processErrors_uids (pc : String → List String → Bool)
    (mods : List MUnit) :
    (processErrors pc mods).map MUnit.uid = mods.map MUnit.uid := by
  unfold processErrors
  rw [List.map_map]
  exact List.map_congr_left fun m _ => rfl

theorem processErrors_orders (pc : String → List String → Bool)
    (mods : List MUnit) :
    (processErrors pc mods).map MUnit.loadOrder
      = mods.map MUnit.loadOrder := by
  unfold processErrors
  rw [List.map_map]
  exact List.map_congr_left fun m _ => rfl

theorem withOrder_uids (l : List MUnit) :
    ((l.enum.map fun p => { p.2 with
      loadOrder := some (p.1 + 1) }).map MUnit.uid)
      = l.map MUnit.uid := by
  rw [List.map_map]
  have h1 : (MUnit.uid ∘ fun p : Nat × MUnit => { p.2 with
      loadOrder := some (p.1 + 1) }) = MUnit.uid ∘ Prod.snd := rfl
  rw [h1, ← List.map_map, List.enum_map_snd]

theorem withOrder_orders (l : List MUnit) :
    ((l.enum.map fun p => { p.2 with
      loadOrder := some (p.1 + 1) }).map MUnit.loadOrder)
      = (List.range l.length).map fun i => some (i + 1) := by
  rw [List.map_map]
  have h1 : (MUnit.loadOrder ∘ fun p : Nat × MUnit => { p.2 with
      loadOrder := some (p.1 + 1) })
      = (fun i => some (i + 1)) ∘ Prod.fst := rfl
  rw [h1, ← List.map_map, List.enum_map_fst]

/-- C3: `sort` (modelled by the total function `sortActive`) lists
every post-activation active package exactly once in its output, each
assigned a unique 1-based load order — with no acyclicity hypothesis,
so in particular when the hard edges among the active packages form a
cycle; and a cycle-recovery soft-drop round never removes an edge
recorded as hard from the dependency table (only soft edges are
dropped before any node is force-emitted). -/
theorem sort_total_unique_orders (pc : String → List String → Bool)
    (st : MState)
    (hnd : ((st.activeMods ++ st.inactiveMods).map MUnit.uid).Nodup) :
    ((((sortActive pc st).activeMods.map MUnit.uid).Perm
        ((sortSetup pc st).mods1.map MUnit.uid))
      ∧ (sortActive pc st).activeMods.map MUnit.loadOrder
        = (List.range (sortSetup pc st).mods1.length).map
            fun i => some (i + 1))
    ∧ ∀ (hard : List (String × String)) (unres : List String)
        (s : RState) (u p : String),
        (u, p) ∈ hard → p ∈ depsOf s.deps u →
        p ∈ depsOf (softRound hard unres s).1.deps u := by
  refine ⟨?_, fun hard unres s u p hh hm =>
    softRound_hard_kept hard unres s u p hh hm⟩
  by_cases he : st.activeMods = []
  · have h1 : sortActive pc st = st := by
      unfold sortActive
      rw [if_pos he]
    have h2 : (sortSetup pc st).mods1 = [] := by
      show (autoActivate (scanDeps pc (st.activeMods.map MUnit.uid)
        st.modMap st.activeMods).missing st
        (st.activeMods.map MUnit.uid)
        (scanDeps pc (st.activeMods.map MUnit.uid) st.modMap
          st.activeMods).banIds).1.activeMods = []
      rw [he]
      exact he
    constructor
    · rw [h1, h2, he]
    · rw [h1, h2, he]
      rfl
  · have hamap : (sortSetup pc st).amap
        = (sortSetup pc st).mods1.map fun m => (m.uid, m) := rfl
    have hact : (sortActive pc st).activeMods = processErrors pc
        (((sortRun (sortSetup pc st).graph
          ((sortSetup pc st).mods1.map fun m => (m.uid, m))
          (sortSetup pc st).mods1).sorted.enum).map
          fun p => { p.2 with loadOrder := some (p.1 + 1) }) := by
      rw [← hamap]
      unfold sortActive
      rw [if_neg he]
    have hkeys := sortSetup_mods1_nodup pc st hnd
    obtain ⟨hperm, hlen⟩ := sortRun_perm (sortSetup pc st).graph
      (sortSetup pc st).mods1 hkeys
    constructor
    · rw [hact, processErrors_uids, withOrder_uids]
      exact hperm
    · rw [hact, processErrors_orders, withOrder_orders, hlen]

/-- Two active packages whose hard dependencies form a two-cycle. -/
def c3A : MUnit :=
  ⟨"A", none, [], [], [], [⟨"B", none, "patch", [], none⟩],
    [], [], [], [], none⟩

def c3B : MUnit :=
  ⟨"B", none, [], [], [], [⟨"A", none, "requirement", [], none⟩],
    [], [], [], [], none⟩

def c3st : MState := ⟨[c3A, c3B], [], [("A", c3A), ("B", c3B)]⟩

theorem sort_total_unique_orders_witness :
    ((c3st.activeMods ++ c3st.inactiveMods).map MUnit.uid).Nodup
    ∧ (((((sortActive (fun _ _ => true) c3st).activeMods.map
          MUnit.uid).Perm ((sortSetup (fun _ _ => true) c3st).mods1.map
            MUnit.uid))
        ∧ (sortActive (fun _ _ => true) c3st).activeMods.map
            MUnit.loadOrder
          = (List.range (sortSetup (fun _ _ => true)
              c3st).mods1.length).map fun i => some (i + 1))) :=
  ⟨by decide, (sort_total_unique_orders (fun _ _ => true) c3st
    (by decide)).1⟩

/-- Position of the first occurrence of `a` (length if absent). -/
def idxOf (a : String) : List String → Nat
  | [] => 0
  | b :: t => if b = a then 0 else idxOf a t + 1

theorem idxOf_lt_length (a : String) :
    ∀ l : List String, a ∈ l → idxOf a l < l.length := by
  intro l
  induction l with
  | nil => intro h; cases h
  | cons b t ih =>
      intro h
      show (if b = a then 0 else idxOf a t + 1) < t.length + 1
      by_cases hb : b = a
      · rw [if_pos hb]; omega
      · rw [if_neg hb]
        have : a ∈ t := by
          cases List.mem_cons.mp h with
          | inl h1 => exact absurd h1.symm hb
          | inr h2 => exact h2
        have := ih this
        omega

theorem idxOf_append_left (a : String) :
    ∀ l1 l2 : List String, a ∈ l1 →
      idxOf a (l1 ++ l2) = idxOf a l1 := by
  intro l1
  induction l1 with
  | nil => intro l2 h; cases h
  | cons b t ih =>
      intro l2 h
      show (if b = a then 0 else idxOf a (t ++ l2) + 1)
        = (if b = a then 0 else idxOf a t + 1)
      by_cases hb : b = a
      · rw [if_pos hb, if_pos hb]
      · rw [if_neg hb, if_neg hb]
        have : a ∈ t := by
          cases List.mem_cons.mp h with
          | inl h1 => exact absurd h1.symm hb
          | inr h2 => exact h2
        rw [ih l2 this]

theorem idxOf_append_right (a : String) :
    ∀ l1 l2 : List String, a ∉ l1 →
      idxOf a (l1 ++ l2) = l1.length + idxOf a l2 := by
  intro l1
  induction l1 with
  | nil => intro l2 _; simp
  | cons b t ih =>
      intro l2 h
      show (if b = a then 0 else idxOf a (t ++ l2) + 1)
        = t.length + 1 + idxOf a l2
      have hb : b ≠ a := fun hba => h (hba ▸ List.mem_cons_self b t)
      rw [if_neg hb, ih l2 (fun ha => h (List.mem_cons_of_mem b ha))]
      omega

/-- A processed list (most recent first) is topologically sound: the
parents of each entry were processed earlier. -/
def TopoOK (G : List (String × List String)) : List String → Prop
  | [] => True
  | u :: l => (∀ p ∈ depsOf G u, p ∈ l) ∧ TopoOK G l

theorem topoOK_index (G : List (String × List String)) :
    ∀ l : List String, TopoOK G l → l.Nodup →
      ∀ u p, u ∈ l → p ∈ depsOf G u →
        p ∈ l ∧ idxOf p l.reverse < idxOf u l.reverse := by
  intro l
  induction l with
  | nil => intro _ _ u p hu; cases hu
  | cons u0 t ih =>
      intro htopo hnd u p hu hp
      have hu0t : u0 ∉ t := (List.nodup_cons.mp hnd).1
      have hndt : t.Nodup := (List.nodup_cons.mp hnd).2
      rw [List.reverse_cons]
      cases List.mem_cons.mp hu with
      | inl heq =>
          subst heq
          have hpt : p ∈ t := htopo.1 p hp
          have hpr : p ∈ t.reverse := List.mem_reverse.mpr hpt
          refine ⟨List.mem_cons_of_mem u hpt, ?_⟩
          rw [idxOf_append_left p t.reverse [u] hpr,
            idxOf_append_right u t.reverse [u]
              (fun hm => hu0t (List.mem_reverse.mp hm))]
          have := idxOf_lt_length p t.reverse hpr
          omega
      | inr hut =>
          obtain ⟨hpt, hidx⟩ := ih htopo.2 hndt u p hut hp
          refine ⟨List.mem_cons_of_mem u0 hpt, ?_⟩
          rw [idxOf_append_left p t.reverse [u0]
              (List.mem_reverse.mpr hpt),
            idxOf_append_left u t.reverse [u0]
              (List.mem_reverse.mpr hut)]
          exact hidx

/-- First-match lookup agrees with membership when keys are unique. -/
theorem aget_of_mem_nodup {β : Type} :
    ∀ (l : List (String × β)) (k : String) (v : β),
      (l.map Prod.fst).Nodup → (k, v) ∈ l → aget l k = some v := by
  intro l
  induction l with
  | nil => intro k v _ h; cases h
  | cons hd tl ih =>
      intro k v hnd h
      obtain ⟨k0, v0⟩ := hd
      rw [show aget ((k0, v0) :: tl) k
        = (if k0 = k then some v0 else aget tl k) from rfl]
      cases List.mem_cons.mp h with
      | inl heq =>
          rw [Prod.mk.injEq] at heq
          rw [if_pos heq.1.symm, heq.2]
      | inr htl =>
          have hk0 : k0 ≠ k := by
            intro hkk
            subst hkk
            exact (List.nodup_cons.mp hnd).1
              (List.mem_map.mpr ⟨(k0, v), htl, rfl⟩)
          rw [if_neg hk0]
          exact ih k v (List.nodup_cons.mp hnd).2 htl

theorem filter_nil_ban (l : List String) :
    l.filter (fun x => x ∉ ([] : List String)) = l :=
  List.filter_eq_self.mpr (fun a _ => by simp)

/-- Removing a fresh element from the ban list of a membership filter
keeps the filtered list unchanged. -/
theorem filter_ban_cons_of_not_mem (u : String) (pr : List String) :
    ∀ l : List String, u ∉ l →
      l.filter (fun x => x ∉ u :: pr) = l.filter (fun x => x ∉ pr) := by
  intro l hu
  refine List.filter_congr ?_
  intro x hx
  have hxu : x ≠ u := fun hxu => hu (hxu ▸ hx)
  have : (x ∉ u :: pr) ↔ (x ∉ pr) := by
    constructor
    · intro h hp
      exact h (List.mem_cons_of_mem u hp)
    · intro h hp
      cases List.mem_cons.mp hp with
      | inl h1 => exact hxu h1
      | inr h2 => exact h h2
  exact decide_eq_decide.mpr this

theorem filter_ban_cons_of_mem (u : String) (pr : List String)
    (hupr : u ∉ pr) :
    ∀ l : List String, l.Nodup → u ∈ l →
      (l.filter (fun x => x ∉ pr)).length
        = (l.filter (fun x => x ∉ u :: pr)).length + 1 := by
  intro l
  induction l with
  | nil => intro _ h; cases h
  | cons a t ih =>
      intro hnd hm
      have hat : a ∉ t := (List.nodup_cons.mp hnd).1
      have hndt : t.Nodup := (List.nodup_cons.mp hnd).2
      by_cases hau : a = u
      · subst hau
        have ht : t.filter (fun x => x ∉ a :: pr)
            = t.filter (fun x => x ∉ pr) :=
          filter_ban_cons_of_not_mem a pr t hat
        rw [List.filter_cons, List.filter_cons]
        rw [show (decide (a ∉ pr)) = true from decide_eq_true hupr]
        rw [show (decide (a ∉ a :: pr)) = false from by
          simp [List.mem_cons]]
        simp only [if_pos, if_neg, Bool.false_eq_true, ite_true,
          ite_false, List.length_cons]
        rw [ht]
      · have hut : u ∈ t := by
          cases List.mem_cons.mp hm with
          | inl h1 => exact absurd h1.symm hau
          | inr h2 => exact h2
        rw [List.filter_cons, List.filter_cons]
        have hcond : (decide (a ∉ u :: pr)) = (decide (a ∉ pr)) := by
          refine decide_eq_decide.mpr ?_
          constructor
          · intro h hp
            exact h (List.mem_cons_of_mem u hp)
          · intro h hp
            cases List.mem_cons.mp hp with
            | inl h1 => exact hau h1
            | inr h2 => exact h h2
        rw [hcond]
        cases hd : decide (a ∉ pr) with
        | true =>
            simp only [ite_true, List.length_cons]
            rw [ih hndt hut]
        | false =>
            simp only [Bool.false_eq_true, ite_false]
            exact ih hndt hut

theorem initInDeg_get (G : List (String × List String)) :
    ∀ u, idegGet (initInDeg G) u = ((depsOf G u).length : Int) := by
  induction G with
  | nil => intro u; rfl
  | cons kv rest ih =>
      intro u
      obtain ⟨k, ps⟩ := kv
      show ((aget ((k, (ps.length : Int)) :: initInDeg rest) u).getD 0)
        = (((aget ((k, ps) :: rest) u).getD []).length : Int)
      rw [show aget ((k, (ps.length : Int)) :: initInDeg rest) u
        = (if k = u then some (ps.length : Int)
            else aget (initInDeg rest) u) from rfl]
      rw [show aget ((k, ps) :: rest) u
        = (if k = u then some ps else aget rest u) from rfl]
      by_cases hk : k = u
      · rw [if_pos hk, if_pos hk]
        rfl
      · rw [if_neg hk, if_neg hk]
        exact ih u

theorem childrenOf_nodup (G : List (String × List String))
    (hGk : (G.map Prod.fst).Nodup) (p : String) :
    (childrenOf G p).Nodup := by
  have hsub : List.Sublist (G.filter fun kv => p ∈ kv.2) G :=
    List.filter_sublist G
  exact (hsub.map Prod.fst).nodup hGk

theorem mem_childrenOf (G : List (String × List String))
    (hGk : (G.map Prod.fst).Nodup) (u v : String) :
    v ∈ childrenOf G u ↔ u ∈ depsOf G v := by
  constructor
  · intro h
    obtain ⟨kv, hkv, rfl⟩ := List.mem_map.mp h
    have hf := List.mem_filter.mp hkv
    have hget : aget G kv.1 = some kv.2 := by
      obtain ⟨k, ps⟩ := kv
      exact aget_of_mem_nodup G k ps hGk hf.1
    unfold depsOf
    rw [hget]
    exact of_decide_eq_true hf.2
  · intro h
    unfold depsOf at h
    cases hget : aget G v with
    | none => rw [hget] at h; cases h
    | some ps =>
        rw [hget] at h
        refine List.mem_map.mpr ⟨(v, ps), ?_, rfl⟩
        refine List.mem_filter.mpr ⟨aget_mem hget, ?_⟩
        exact decide_eq_true h

theorem addParent_keys (u p : String) :
    ∀ deps : List (String × List String),
      (addParent deps u p).map Prod.fst
        = if u ∈ deps.map Prod.fst then deps.map Prod.fst
          else deps.map Prod.fst ++ [u] := by
  intro deps
  induction deps with
  | nil => rfl
  | cons kv rest ih =>
      obtain ⟨k, ps⟩ := kv
      show (if k = u then ((k, if p ∈ ps then ps else ps ++ [p]) :: rest)
          else (k, ps) :: addParent rest u p).map Prod.fst = _
      by_cases hk : k = u
      · rw [if_pos hk]
        have : u ∈ ((k, ps) :: rest).map Prod.fst := by
          rw [List.map_cons]
          exact hk ▸ List.mem_cons_self k _
        rw [if_pos this]
        rfl
      · rw [if_neg hk, List.map_cons, List.map_cons, ih]
        by_cases hu : u ∈ rest.map Prod.fst
        · rw [if_pos hu,
            if_pos (show u ∈ k :: rest.map Prod.fst from
              List.mem_cons_of_mem k hu)]
        · rw [if_neg hu]
          have : u ∉ k :: rest.map Prod.fst := by
            intro hm
            cases List.mem_cons.mp hm with
            | inl h1 => exact hk h1.symm
            | inr h2 => exact hu h2
          rw [if_neg this]
          rfl

theorem depsOf_addParent_mono (u' p' : String) :
    ∀ (deps : List (String × List String)) (u p : String),
      p ∈ depsOf deps u → p ∈ depsOf (addParent deps u' p') u := by
  intro deps
  induction deps with
  | nil => intro u p h; simp [depsOf, aget] at h
  | cons kv rest ih =>
      intro u p h
      obtain ⟨k, ps⟩ := kv
      show p ∈ depsOf (if k = u' then
          ((k, if p' ∈ ps then ps else ps ++ [p']) :: rest)
        else (k, ps) :: addParent rest u' p') u
      unfold depsOf at h
      rw [show aget ((k, ps) :: rest) u
        = (if k = u then some ps else aget rest u) from rfl] at h
      by_cases hk' : k = u'
      · rw [if_pos hk']
        unfold depsOf
        rw [show aget ((k, if p' ∈ ps then ps else ps ++ [p']) :: rest) u
          = (if k = u then some (if p' ∈ ps then ps else ps ++ [p'])
              else aget rest u) from rfl]
        by_cases hk : k = u
        · rw [if_pos hk]
          rw [if_pos hk] at h
          simp only [Option.getD_some] at h ⊢
          by_cases hp' : p' ∈ ps
          · rw [if_pos hp']; exact h
          · rw [if_neg hp']; exact List.mem_append_left _ h
        · rw [if_neg hk]
          rw [if_neg hk] at h
          exact h
      · rw [if_neg hk']
        unfold depsOf
        rw [show aget ((k, ps) :: addParent rest u' p') u
          = (if k = u then some ps else aget (addParent rest u' p') u)
            from rfl]
        by_cases hk : k = u
        · rw [if_pos hk]
          rw [if_pos hk] at h
          exact h
        · rw [if_neg hk]
          rw [if_neg hk] at h
          exact ih u p h

theorem mem_depsOf_addParent_self (u p : String) :
    ∀ deps : List (String × List String),
      p ∈ depsOf (addParent deps u p) u := by
  intro deps
  induction deps with
  | nil =>
      show p ∈ depsOf [(u, [p])] u
      unfold depsOf
      rw [show aget [(u, [p])] u = (if u = u then some [p]
        else aget [] u) from rfl, if_pos rfl]
      exact List.mem_singleton.mpr rfl
  | cons kv rest ih =>
      obtain ⟨k, ps⟩ := kv
      show p ∈ depsOf (if k = u then
          ((k, if p ∈ ps then ps else ps ++ [p]) :: rest)
        else (k, ps) :: addParent rest u p) u
      by_cases hk : k = u
      · rw [if_pos hk]
        unfold depsOf
        rw [show aget ((k, if p ∈ ps then ps else ps ++ [p]) :: rest) u
          = (if k = u then some (if p ∈ ps then ps else ps ++ [p])
              else aget rest u) from rfl, if_pos hk]
        simp only [Option.getD_some]
        by_cases hp : p ∈ ps
        · rw [if_pos hp]; exact hp
        · rw [if_neg hp]
          exact List.mem_append_right _ (List.mem_singleton.mpr rfl)
      · rw [if_neg hk]
        unfold depsOf
        rw [show aget ((k, ps) :: addParent rest u p) u
          = (if k = u then some ps else aget (addParent rest u p) u)
            from rfl, if_neg hk]
        exact ih

/-- Structural invariants of the graph under construction: unique
parent-table keys, duplicate-free parent sets, and every hard edge
recorded in the parent table. -/
def GraphWF (g : Graph) : Prop :=
  (g.deps.map Prod.fst).Nodup ∧
  (∀ kv ∈ g.deps, kv.2.Nodup) ∧
  (∀ e ∈ g.hard, e.2 ∈ depsOf g.deps e.1)

theorem addParent_keys_nodup (deps : List (String × List String))
    (u p : String) (h : (deps.map Prod.fst).Nodup) :
    ((addParent deps u p).map Prod.fst).Nodup := by
  rw [addParent_keys]
  by_cases hu : u ∈ deps.map Prod.fst
  · rw [if_pos hu]; exact h
  · rw [if_neg hu]
    simp [List.nodup_append, h, hu]

theorem addParent_ps_nodup (u p : String) :
    ∀ deps : List (String × List String),
      (∀ kv ∈ deps, kv.2.Nodup) →
      ∀ kv ∈ addParent deps u p, kv.2.Nodup := by
  intro deps
  induction deps with
  | nil =>
      intro _ kv hkv
      show kv.2.Nodup
      have : kv = (u, [p]) := List.mem_singleton.mp hkv
      rw [this]
      exact List.nodup_singleton p
  | cons hd rest ih =>
      intro h kv hkv
      obtain ⟨k, ps⟩ := hd
      rw [show addParent ((k, ps) :: rest) u p
        = (if k = u then ((k, if p ∈ ps then ps else ps ++ [p]) :: rest)
            else (k, ps) :: addParent rest u p) from rfl] at hkv
      by_cases hk : k = u
      · rw [if_pos hk] at hkv
        cases List.mem_cons.mp hkv with
        | inl h1 =>
            rw [h1]
            show (if p ∈ ps then ps else ps ++ [p]).Nodup
            have hps : ps.Nodup := h (k, ps) (List.mem_cons_self _ _)
            by_cases hp : p ∈ ps
            · rw [if_pos hp]; exact hps
            · rw [if_neg hp]
              simp [List.nodup_append, hps, hp]
        | inr h2 => exact h kv (List.mem_cons_of_mem _ h2)
      · rw [if_neg hk] at hkv
        cases List.mem_cons.mp hkv with
        | inl h1 =>
            rw [h1]
            exact h (k, ps) (List.mem_cons_self _ _)
        | inr h2 =>
            exact ih (fun kv2 hkv2 => h kv2 (List.mem_cons_of_mem _ hkv2))
              kv h2

theorem graphWF_addSoft (g : Graph) (u p : String) (h : GraphWF g) :
    GraphWF ⟨addParent g.deps u p, g.hard⟩ := by
  obtain ⟨h1, h2, h3⟩ := h
  refine ⟨addParent_keys_nodup g.deps u p h1,
    addParent_ps_nodup u p g.deps h2, ?_⟩
  intro e he
  exact depsOf_addParent_mono u p g.deps e.1 e.2 (h3 e he)

theorem graphWF_addEdge (g : Graph) (u p : String) (h : GraphWF g) :
    GraphWF ⟨addParent g.deps u p,
      if (u, p) ∈ g.hard then g.hard else g.hard ++ [(u, p)]⟩ := by
  obtain ⟨h1, h2, h3⟩ := h
  refine ⟨addParent_keys_nodup g.deps u p h1,
    addParent_ps_nodup u p g.deps h2, ?_⟩
  intro e he
  by_cases hmem : (u, p) ∈ g.hard
  · rw [if_pos hmem] at he
    exact depsOf_addParent_mono u p g.deps e.1 e.2 (h3 e he)
  · rw [if_neg hmem] at he
    cases List.mem_append.mp he with
    | inl h4 => exact depsOf_addParent_mono u p g.deps e.1 e.2 (h3 e h4)
    | inr h5 =>
        have : e = (u, p) := List.mem_singleton.mp h5
        rw [this]
        exact mem_depsOf_addParent_self u p g.deps

theorem foldl_graphWF {α : Type} (f : Graph → α → Graph)
    (hf : ∀ g a, GraphWF g → GraphWF (f g a)) :
    ∀ (l : List α) (g : Graph), GraphWF g → GraphWF (l.foldl f g) := by
  intro l
  induction l with
  | nil => intro g hg; exact hg
  | cons a rest ih =>
      intro g hg
      rw [List.foldl_cons]
      exact ih (f g a) (hf g a hg)

theorem graphWF_nil : GraphWF ⟨[], []⟩ := by
  refine ⟨List.nodup_nil, ?_, ?_⟩
  · intro kv hkv; cases hkv
  · intro e he; cases he

theorem buildGraph_wf (pc : String → List String → Bool)
    (ids1 : List String) (added : List (String × String))
    (mods : List MUnit) : GraphWF (buildGraph pc ids1 added mods) := by
  unfold buildGraph
  refine foldl_graphWF _ ?_ mods ⟨[], []⟩ graphWF_nil
  intro g m hg
  have h1 : GraphWF (m.deps.foldl (fun g2 d =>
      if d.depId ∉ ids1 then g2
      else if d.dtype = "conflict" then g2
      else if (match d.cond with
          | some cnd => !pc cnd ids1
          | none => false) then g2
      else if d.dtype = "patch" ∨ d.dtype = "requirement" then
        { deps := addParent g2.deps m.uid d.depId,
          hard := if (m.uid, d.depId) ∈ g2.hard then g2.hard
            else g2.hard ++ [(m.uid, d.depId)] }
      else g2) g) := by
    refine foldl_graphWF _ ?_ m.deps g hg
    intro g2 d hg2
    split
    · exact hg2
    · split
      · exact hg2
      · split
        · exact hg2
        · split
          · exact graphWF_addEdge g2 m.uid d.depId hg2
          · exact hg2
  have h2 : GraphWF (if strContains (strLower m.name) "patch"
      || strContains (strLower m.name) "compatibility"
      || strContains (strLower m.name) "compat" then
        mods.foldl (fun g3 other =>
          if other.uid = m.uid then g3
          else if (strLower other.name).length > 3 ∧
              strContains (strLower m.name) (strLower other.name) then
            { g3 with deps := addParent g3.deps m.uid other.uid }
          else g3) (m.deps.foldl (fun g2 d =>
            if d.depId ∉ ids1 then g2
            else if d.dtype = "conflict" then g2
            else if (match d.cond with
                | some cnd => !pc cnd ids1
                | none => false) then g2
            else if d.dtype = "patch" ∨ d.dtype = "requirement" then
              { deps := addParent g2.deps m.uid d.depId,
                hard := if (m.uid, d.depId) ∈ g2.hard then g2.hard
                  else g2.hard ++ [(m.uid, d.depId)] }
            else g2) g)
      else (m.deps.foldl (fun g2 d =>
            if d.depId ∉ ids1 then g2
            else if d.dtype = "conflict" then g2
            else if (match d.cond with
                | some cnd => !pc cnd ids1
                | none => false) then g2
            else if d.dtype = "patch" ∨ d.dtype = "requirement" then
              { deps := addParent g2.deps m.uid d.depId,
                hard := if (m.uid, d.depId) ∈ g2.hard then g2.hard
                  else g2.hard ++ [(m.uid, d.depId)] }
            else g2) g)) := by
    split
    · refine foldl_graphWF _ ?_ mods _ h1
      intro g3 other hg3
      split
      · exact hg3
      · split
        · exact graphWF_addSoft g3 m.uid other.uid hg3
        · exact hg3
    · exact h1
  show GraphWF (if m.getBoolSetting "IgnoreOverrideCheck" then _
    else _)
  split
  · exact h2
  · refine foldl_graphWF _ ?_ m.overrideId _ h2
    intro g3 oid hg3
    split
    · split
      · exact graphWF_addSoft g3 m.uid _ hg3
      · exact hg3
    · exact hg3

theorem idegGet_set_self (d : List (String × Int)) (u : String)
    (x : Int) : idegGet (idegSet d u x) u = x := by
  unfold idegGet idegSet
  rw [aget_aset_self]
  rfl

theorem idegGet_set_ne (d : List (String × Int)) (u v : String)
    (x : Int) (h : v ≠ u) : idegGet (idegSet d u x) v = idegGet d v := by
  unfold idegGet idegSet
  rw [aget_aset_ne d v u x h]

/-- Behaviour of one emission's decrement-and-enqueue fold: each child
is decremented exactly once, other entries are untouched, the incoming
queue is preserved, every new queue entry is a child that reached
zero, and every child that reached zero is enqueued. -/
theorem decFold_facts :
    ∀ C : List String, C.Nodup →
      ∀ (d : List (String × Int)) (q : List String),
      (∀ v ∈ C, idegGet (C.foldl decStep (d, q)).1 v
        = idegGet d v - 1) ∧
      (∀ v, v ∉ C → idegGet (C.foldl decStep (d, q)).1 v
        = idegGet d v) ∧
      (∀ x ∈ q, x ∈ (C.foldl decStep (d, q)).2) ∧
      (∀ v ∈ (C.foldl decStep (d, q)).2,
        v ∈ q ∨ (v ∈ C ∧ idegGet (C.foldl decStep (d, q)).1 v = 0)) ∧
      (∀ v ∈ C, idegGet (C.foldl decStep (d, q)).1 v = 0 →
        v ∈ (C.foldl decStep (d, q)).2) := by
  intro C
  induction C with
  | nil =>
      intro _ d q
      refine ⟨?_, ?_, ?_, ?_, ?_⟩
      · intro v hv; cases hv
      · intro v _; rfl
      · intro x hx; exact hx
      · intro v hv; exact Or.inl hv
      · intro v hv; cases hv
  | cons c C' ih =>
      intro hnd d q
      have hcC : c ∉ C' := (List.nodup_cons.mp hnd).1
      have hndC : C'.Nodup := (List.nodup_cons.mp hnd).2
      rw [show (c :: C').foldl decStep (d, q)
        = C'.foldl decStep (decStep (d, q) c) from rfl, decStep_eq]
      by_cases hz : idegGet d c - 1 = 0
      · rw [if_pos hz]
        obtain ⟨i1, i2, i3, i4, i5⟩ :=
          ih hndC (idegSet d c (idegGet d c - 1)) (q ++ [c])
        refine ⟨?_, ?_, ?_, ?_, ?_⟩
        · intro v hv
          cases List.mem_cons.mp hv with
          | inl h1 =>
              subst h1
              rw [i2 v hcC, idegGet_set_self]
          | inr h2 =>
              rw [i1 v h2]
              have hvc : v ≠ c := fun hvc => hcC (hvc ▸ h2)
              rw [idegGet_set_ne d c v _ hvc]
        · intro v hv
          have hvc : v ≠ c := fun h => hv (h ▸ List.mem_cons_self c C')
          have hvC : v ∉ C' := fun h => hv (List.mem_cons_of_mem c h)
          rw [i2 v hvC, idegGet_set_ne d c v _ hvc]
        · intro x hx
          exact i3 x (List.mem_append_left _ hx)
        · intro v hv
          cases i4 v hv with
          | inl h1 =>
              cases List.mem_append.mp h1 with
              | inl h2 => exact Or.inl h2
              | inr h3 =>
                  have hvc : v = c := List.mem_singleton.mp h3
                  subst hvc
                  refine Or.inr ⟨List.mem_cons_self v C', ?_⟩
                  rw [i2 v hcC, idegGet_set_self]
                  exact hz
          | inr h4 =>
              exact Or.inr ⟨List.mem_cons_of_mem c h4.1, h4.2⟩
        · intro v hv _
          cases List.mem_cons.mp hv with
          | inl h1 =>
              subst h1
              exact i3 v (List.mem_append_right _
                (List.mem_singleton.mpr rfl))
          | inr h2 =>
              rename_i hz2
              exact i5 v h2 hz2
      · rw [if_neg hz]
        obtain ⟨i1, i2, i3, i4, i5⟩ :=
          ih hndC (idegSet d c (idegGet d c - 1)) q
        refine ⟨?_, ?_, ?_, ?_, ?_⟩
        · intro v hv
          cases List.mem_cons.mp hv with
          | inl h1 =>
              subst h1
              rw [i2 v hcC, idegGet_set_self]
          | inr h2 =>
              rw [i1 v h2]
              have hvc : v ≠ c := fun hvc => hcC (hvc ▸ h2)
              rw [idegGet_set_ne d c v _ hvc]
        · intro v hv
          have hvc : v ≠ c := fun h => hv (h ▸ List.mem_cons_self c C')
          have hvC : v ∉ C' := fun h => hv (List.mem_cons_of_mem c h)
          rw [i2 v hvC, idegGet_set_ne d c v _ hvc]
        · exact i3
        · intro v hv
          cases i4 v hv with
          | inl h1 => exact Or.inl h1
          | inr h2 =>
              exact Or.inr ⟨List.mem_cons_of_mem c h2.1, h2.2⟩
        · intro v hv hvz
          cases List.mem_cons.mp hv with
          | inl h1 =>
              subst h1
              exfalso
              rw [i2 v hcC, idegGet_set_self] at hvz
              exact hz hvz
          | inr h2 =>
              exact i5 v h2 hvz

/-- The full Kahn invariant: the processed list is topologically
sound, in-degrees count unprocessed parents, every unprocessed known
id of in-degree zero sits in the queue, and every queued id is
processed or has nonpositive in-degree. -/
def KahnInv (G : List (String × List String)) (keys : List String)
    (s : RState) : Prop :=
  TopoOK G s.processed ∧
  (∀ u, u ∉ s.processed → idegGet s.inDeg u
    = (((depsOf G u).filter (fun x => x ∉ s.processed)).length : Int)) ∧
  (∀ u ∈ keys, u ∉ s.processed → idegGet s.inDeg u = 0 →
    u ∈ s.queue) ∧
  (∀ v ∈ s.queue, v ∈ s.processed ∨ idegGet s.inDeg v ≤ 0)

theorem kahnInv_emit (childG : List (String × List String))
    (keys : List String)
    (hGk : (childG.map Prod.fst).Nodup)
    (hGps : ∀ w, (depsOf childG w).Nodup)
    (so : List MUnit) (pr : List String)
    (dp : List (String × List String)) (idg : List (String × Int))
    (u : String) (qs : List String) (m : MUnit) (hp : u ∉ pr)
    (hinv : KahnInv childG keys ⟨so, pr, dp, idg, u :: qs⟩) :
    KahnInv childG keys (emitNode childG m u qs ⟨so, pr, dp, idg, u :: qs⟩) := by
  obtain ⟨htopo0, hdeg0, henq0, hqz0⟩ := hinv
  have htopo : TopoOK childG pr := htopo0
  have hdeg : ∀ w, w ∉ pr → idegGet idg w
      = (((depsOf childG w).filter (fun x => x ∉ pr)).length : Int) :=
    hdeg0
  have henq : ∀ w ∈ keys, w ∉ pr → idegGet idg w = 0 →
      w ∈ u :: qs := henq0
  have hqz : ∀ v ∈ u :: qs, v ∈ pr ∨ idegGet idg v ≤ 0 := hqz0
  have hCnd : (childrenOf childG u).Nodup := childrenOf_nodup childG hGk u
  obtain ⟨e1, e2, e3, e4, e5⟩ := decFold_facts (childrenOf childG u) hCnd idg qs
  have hu0 : idegGet idg u = 0 := by
    have h1 := hqz u (List.mem_cons_self u qs)
    have h2 : idegGet idg u ≤ 0 := by
      cases h1 with
      | inl h => exact absurd h hp
      | inr h => exact h
    have h3 := hdeg u hp
    have h4 : (0 : Int) ≤ (((depsOf childG u).filter
        (fun x => x ∉ pr)).length : Int) := Int.natCast_nonneg _
    omega
  have hparents : ∀ p ∈ depsOf childG u, p ∈ pr := by
    have h3 := hdeg u hp
    rw [hu0] at h3
    have h5 : ((depsOf childG u).filter (fun x => x ∉ pr)).length = 0 := by
      omega
    have h6 : (depsOf childG u).filter (fun x => x ∉ pr) = [] :=
      List.length_eq_zero.mp h5
    intro p hpd
    by_contra hnp
    have : p ∈ (depsOf childG u).filter (fun x => x ∉ pr) :=
      List.mem_filter.mpr ⟨hpd, decide_eq_true hnp⟩
    rw [h6] at this
    cases this
  rw [emitNode_eq]
  refine ⟨⟨hparents, htopo⟩, ?_, ?_, ?_⟩
  · intro w hw
    have hwu : w ≠ u := fun h => hw (h ▸ List.mem_cons_self u pr)
    have hwpr : w ∉ pr := fun h => hw (List.mem_cons_of_mem u h)
    show idegGet ((childrenOf childG u).foldl decStep (idg, qs)).1 w = _
    by_cases hwC : w ∈ childrenOf childG u
    · have hu_in : u ∈ depsOf childG w :=
        (mem_childrenOf childG hGk u w).mp hwC
      rw [e1 w hwC, hdeg w hwpr,
        filter_ban_cons_of_mem u pr hp (depsOf childG w) (hGps w) hu_in]
      push_cast
      omega
    · have hu_nin : u ∉ depsOf childG w :=
        fun hmem => hwC ((mem_childrenOf childG hGk u w).mpr hmem)
      rw [e2 w hwC, hdeg w hwpr,
        filter_ban_cons_of_not_mem u pr (depsOf childG w) hu_nin]
  · intro w hwk hw hz
    have hwu : w ≠ u := fun h => hw (h ▸ List.mem_cons_self u pr)
    have hwpr : w ∉ pr := fun h => hw (List.mem_cons_of_mem u h)
    show w ∈ ((childrenOf childG u).foldl decStep (idg, qs)).2
    by_cases hwC : w ∈ childrenOf childG u
    · exact e5 w hwC hz
    · have hz2 : idegGet idg w = 0 := by
        have := e2 w hwC
        rw [← this]
        exact hz
      have hwq := henq w hwk hwpr hz2
      cases List.mem_cons.mp hwq with
      | inl h1 => exact absurd h1 hwu
      | inr h2 => exact e3 w h2
  · intro v hv
    have hv' : v ∈ ((childrenOf childG u).foldl decStep (idg, qs)).2 := hv
    cases e4 v hv' with
    | inl hvqs =>
        cases hqz v (List.mem_cons_of_mem u hvqs) with
        | inl hvpr =>
            exact Or.inl (List.mem_cons_of_mem u hvpr)
        | inr hvle =>
            refine Or.inr ?_
            show idegGet ((childrenOf childG u).foldl decStep
              (idg, qs)).1 v ≤ 0
            by_cases hvC : v ∈ childrenOf childG u
            · rw [e1 v hvC]; omega
            · rw [e2 v hvC]; exact hvle
    | inr h2 =>
        refine Or.inr ?_
        show idegGet ((childrenOf childG u).foldl decStep
          (idg, qs)).1 v ≤ 0
        rw [h2.2]

theorem processQueue_kahn (childG : List (String × List String))
    (amap : List (String × MUnit))
    (hGk : (childG.map Prod.fst).Nodup)
    (hGps : ∀ w, (depsOf childG w).Nodup) :
    ∀ (fuel : Nat) (s : RState),
      KahnInv childG (amap.map Prod.fst) s →
      KahnInv childG (amap.map Prod.fst)
        (processQueue childG amap fuel s) := by
  intro fuel
  induction fuel with
  | zero => intro s h; exact h
  | succ n ih =>
      rintro ⟨so, pr, dp, idg, qu⟩ h
      cases qu with
      | nil => rw [processQueue_nilq]; exact h
      | cons u qs =>
          cases hm : aget amap u with
          | none =>
              rw [processQueue_skip_none childG amap n so pr dp idg u qs hm]
              refine ih _ ?_
              obtain ⟨htopo, hdeg, henq, hqz⟩ := h
              have hunk : u ∉ amap.map Prod.fst := by
                intro hmem
                have := (aget_isSome_iff amap u).mpr hmem
                rw [hm] at this
                cases this
              refine ⟨htopo, hdeg, ?_, ?_⟩
              · intro w hwk hw hz
                have hwq := henq w hwk hw hz
                cases List.mem_cons.mp hwq with
                | inl h1 => exact absurd (h1 ▸ hwk) hunk
                | inr h2 => exact h2
              · intro v hv
                exact hqz v (List.mem_cons_of_mem u hv)
          | some m =>
              by_cases hp : u ∈ pr
              · rw [processQueue_skip_proc childG amap n so pr dp idg
                  u qs m hm hp]
                refine ih _ ?_
                obtain ⟨htopo, hdeg, henq, hqz⟩ := h
                refine ⟨htopo, hdeg, ?_, ?_⟩
                · intro w hwk hw hz
                  have hwq := henq w hwk hw hz
                  cases List.mem_cons.mp hwq with
                  | inl h1 => exact absurd (h1 ▸ hp) hw
                  | inr h2 => exact h2
                · intro v hv
                  exact hqz v (List.mem_cons_of_mem u hv)
              · rw [processQueue_emit childG amap n so pr dp idg u qs
                  m hm hp]
                exact ih _ (kahnInv_emit childG (amap.map Prod.fst)
                  hGk hGps so pr dp idg u qs m hp h)

/-- With an acyclicity rank and all edge targets known, a drained
Kahn state has processed every known id. -/
theorem kahn_complete (childG : List (String × List String))
    (amap : List (String × MUnit)) (r : String → Nat)
    (hRank : ∀ u p, p ∈ depsOf childG u → r p < r u)
    (hTargets : ∀ u p, p ∈ depsOf childG u → p ∈ amap.map Prod.fst)
    (s : RState) (hinv : KahnInv childG (amap.map Prod.fst) s)
    (hq : s.queue = []) :
    ∀ u ∈ amap.map Prod.fst, u ∈ s.processed := by
  have main : ∀ n u, r u < n → u ∈ amap.map Prod.fst →
      u ∈ s.processed := by
    intro n
    induction n with
    | zero => intro u h; exact absurd h (Nat.not_lt_zero _)
    | succ k ih =>
        intro u hru hu
        by_contra hnp
        obtain ⟨_, hdeg, henq, _⟩ := hinv
        have hdu := hdeg u hnp
        by_cases hz : idegGet s.inDeg u = 0
        · have := henq u hu hnp hz
          rw [hq] at this
          cases this
        · have hlen : ((depsOf childG u).filter
              (fun x => x ∉ s.processed)).length ≠ 0 := by
            intro h0
            apply hz
            rw [hdu, h0]
            rfl
          have hne : (depsOf childG u).filter
              (fun x => x ∉ s.processed) ≠ [] := by
            intro h0
            exact hlen (by rw [h0]; rfl)
          obtain ⟨q, hq2⟩ := List.exists_mem_of_ne_nil _ hne
          have hqf := List.mem_filter.mp hq2
          have hqd : q ∈ depsOf childG u := hqf.1
          have hqnp : q ∉ s.processed := of_decide_eq_true hqf.2
          have hqk : q ∈ amap.map Prod.fst := hTargets u q hqd
          have hqr : r q < r u := hRank u q hqd
          exact hqnp (ih q (by omega) hqk)
  intro u hu
  exact main (r u + 1) u (Nat.lt_succ_self _) hu

theorem softLoop_done (hard : List (String × String))
    (childG : List (String × List String))
    (amap : List (String × MUnit)) (n fuel : Nat) (s : RState)
    (h : s.sorted.length = n) :
    softLoop hard childG amap n (fuel + 1) s = s := by
  simp only [softLoop, if_pos h]

theorem forceLoop_done (childG : List (String × List String))
    (amap : List (String × MUnit)) (n fuel : Nat) (s : RState)
    (h : s.sorted.length = n) :
    forceLoop childG amap n (fuel + 1) s = s := by
  simp only [forceLoop, if_pos h]

theorem sortSetup_mods1_empty (pc : String → List String → Bool)
    (st : MState) (he : st.activeMods = []) :
    (sortSetup pc st).mods1 = [] := by
  show (autoActivate (scanDeps pc (st.activeMods.map MUnit.uid)
    st.modMap st.activeMods).missing st
    (st.activeMods.map MUnit.uid)
    (scanDeps pc (st.activeMods.map MUnit.uid) st.modMap
      st.activeMods).banIds).1.activeMods = []
  rw [he]
  exact he

theorem sortSetup_hard_empty (pc : String → List String → Bool)
    (st : MState) (he : st.activeMods = []) :
    (sortSetup pc st).graph.hard = [] := by
  have hge : (sortSetup pc st).graph
      = buildGraph pc (autoActivate (scanDeps pc
          (st.activeMods.map MUnit.uid) st.modMap
          st.activeMods).missing st (st.activeMods.map MUnit.uid)
          (scanDeps pc (st.activeMods.map MUnit.uid) st.modMap
            st.activeMods).banIds).2
        (addedIdsOf (sortSetup pc st).mods1)
        (sortSetup pc st).mods1 := rfl
  rw [hge, sortSetup_mods1_empty pc st he]
  rfl

/-- Kahn phase on an acyclic parent table with known targets: the
emission order places every id strictly after all its parents. -/
theorem sortRun_topo (g : Graph) (mods1 : List MUnit)
    (r : String → Nat)
    (hkeys : (mods1.map MUnit.uid).Nodup)
    (hGk : (g.deps.map Prod.fst).Nodup)
    (hGps : ∀ w, (depsOf g.deps w).Nodup)
    (hRank : ∀ u p, p ∈ depsOf g.deps u → r p < r u)
    (hTarg : ∀ u p, p ∈ depsOf g.deps u → p ∈ mods1.map MUnit.uid) :
    ∀ u p, p ∈ depsOf g.deps u →
      u ∈ (sortRun g (mods1.map fun m => (m.uid, m)) mods1).sorted.map
        MUnit.uid →
      p ∈ (sortRun g (mods1.map fun m => (m.uid, m)) mods1).sorted.map
        MUnit.uid ∧
      idxOf p ((sortRun g (mods1.map fun m => (m.uid, m))
          mods1).sorted.map MUnit.uid)
        < idxOf u ((sortRun g (mods1.map fun m => (m.uid, m))
            mods1).sorted.map MUnit.uid) := by
  intro u p hup hu
  have hc := amap_consistent mods1
  have hkeysEq := amap_keys mods1
  have hkeys' : ((mods1.map fun m => (m.uid, m)).map Prod.fst).Nodup := by
    rw [hkeysEq]; exact hkeys
  have hTarg' : ∀ u' p', p' ∈ depsOf g.deps u' →
      p' ∈ (mods1.map fun m => (m.uid, m)).map Prod.fst := by
    intro u' p' h
    rw [hkeysEq]
    exact hTarg u' p' h
  have hrun0 : sortRun g (mods1.map fun m => (m.uid, m)) mods1
      = forceLoop g.deps (mods1.map fun m => (m.uid, m)) mods1.length
          (mods1.length + 1)
          (softLoop g.hard g.deps (mods1.map fun m => (m.uid, m))
            mods1.length (mods1.length + 1)
            (processQueue g.deps (mods1.map fun m => (m.uid, m))
              (pqMeasure g.deps (mods1.map fun m => (m.uid, m))
                ⟨[], [], g.deps, initInDeg g.deps,
                  (mods1.map MUnit.uid).filter
                    fun i => idegGet (initInDeg g.deps) i = 0⟩)
              ⟨[], [], g.deps, initInDeg g.deps,
                (mods1.map MUnit.uid).filter
                  fun i => idegGet (initInDeg g.deps) i = 0⟩)) := rfl
  have hinv0 : KahnInv g.deps ((mods1.map fun m => (m.uid, m)).map
      Prod.fst) ⟨[], [], g.deps, initInDeg g.deps,
        (mods1.map MUnit.uid).filter
          fun i => idegGet (initInDeg g.deps) i = 0⟩ := by
    refine ⟨trivial, ?_, ?_, ?_⟩
    · intro w _
      show idegGet (initInDeg g.deps) w
        = (((depsOf g.deps w).filter
            (fun x => x ∉ ([] : List String))).length : Int)
      rw [filter_nil_ban (depsOf g.deps w)]
      exact initInDeg_get g.deps w
    · intro w hwk _ hz
      show w ∈ (mods1.map MUnit.uid).filter
        fun i => idegGet (initInDeg g.deps) i = 0
      refine List.mem_filter.mpr ⟨?_, decide_eq_true hz⟩
      rw [← hkeysEq]
      exact hwk
    · intro v hv
      have := List.mem_filter.mp hv
      refine Or.inr ?_
      show idegGet (initInDeg g.deps) v ≤ 0
      exact le_of_eq (of_decide_eq_true this.2)
  have hpqinv0 : PQInv (mods1.map fun m => (m.uid, m))
      ⟨[], [], g.deps, initInDeg g.deps,
        (mods1.map MUnit.uid).filter
          fun i => idegGet (initInDeg g.deps) i = 0⟩ := by
    refine ⟨rfl, List.nodup_nil, ?_⟩
    intro w hw
    cases hw
  have hinv1 := processQueue_kahn g.deps (mods1.map fun m => (m.uid, m))
    hGk hGps
    (pqMeasure g.deps (mods1.map fun m => (m.uid, m))
      ⟨[], [], g.deps, initInDeg g.deps,
        (mods1.map MUnit.uid).filter
          fun i => idegGet (initInDeg g.deps) i = 0⟩)
    ⟨[], [], g.deps, initInDeg g.deps,
      (mods1.map MUnit.uid).filter
        fun i => idegGet (initInDeg g.deps) i = 0⟩ hinv0
  have hpq1 := processQueue_inv g.deps (mods1.map fun m => (m.uid, m))
    hc
    (pqMeasure g.deps (mods1.map fun m => (m.uid, m))
      ⟨[], [], g.deps, initInDeg g.deps,
        (mods1.map MUnit.uid).filter
          fun i => idegGet (initInDeg g.deps) i = 0⟩)
    ⟨[], [], g.deps, initInDeg g.deps,
      (mods1.map MUnit.uid).filter
        fun i => idegGet (initInDeg g.deps) i = 0⟩ hpqinv0
  have hdrain := processQueue_drain g.deps
    (mods1.map fun m => (m.uid, m))
    (pqMeasure g.deps (mods1.map fun m => (m.uid, m))
      ⟨[], [], g.deps, initInDeg g.deps,
        (mods1.map MUnit.uid).filter
          fun i => idegGet (initInDeg g.deps) i = 0⟩)
    ⟨[], [], g.deps, initInDeg g.deps,
      (mods1.map MUnit.uid).filter
        fun i => idegGet (initInDeg g.deps) i = 0⟩ (Nat.le_refl _)
  have hcomp := kahn_complete g.deps (mods1.map fun m => (m.uid, m))
    r hRank hTarg' _ hinv1 hdrain
  have hprNodup := hpq1.2.1
  have hprSub : (processQueue g.deps (mods1.map fun m => (m.uid, m))
      (pqMeasure g.deps (mods1.map fun m => (m.uid, m))
        ⟨[], [], g.deps, initInDeg g.deps,
          (mods1.map MUnit.uid).filter
            fun i => idegGet (initInDeg g.deps) i = 0⟩)
      ⟨[], [], g.deps, initInDeg g.deps,
        (mods1.map MUnit.uid).filter
          fun i => idegGet (initInDeg g.deps) i = 0⟩).processed
      ⊆ (mods1.map fun m => (m.uid, m)).map Prod.fst :=
    fun x hx => hpq1.2.2 x hx
  have hkn : ((mods1.map fun m => (m.uid, m)).map Prod.fst).Nodup :=
    hkeys'
  have hsp1 := List.Nodup.subperm hprNodup hprSub
  have hsp2 := List.Nodup.subperm hkn
    (fun x hx => hcomp x hx)
  have hperm := hsp1.perm_of_length_le hsp2.length_le
  have hslen : (processQueue g.deps (mods1.map fun m => (m.uid, m))
      (pqMeasure g.deps (mods1.map fun m => (m.uid, m))
        ⟨[], [], g.deps, initInDeg g.deps,
          (mods1.map MUnit.uid).filter
            fun i => idegGet (initInDeg g.deps) i = 0⟩)
      ⟨[], [], g.deps, initInDeg g.deps,
        (mods1.map MUnit.uid).filter
          fun i => idegGet (initInDeg g.deps) i = 0⟩).sorted.length
      = mods1.length := by
    have h1 := PQInv_len hpq1
    have h2 := hperm.length_eq
    rw [hkeysEq, List.length_map] at h2
    omega
  have hrun : sortRun g (mods1.map fun m => (m.uid, m)) mods1
      = processQueue g.deps (mods1.map fun m => (m.uid, m))
        (pqMeasure g.deps (mods1.map fun m => (m.uid, m))
          ⟨[], [], g.deps, initInDeg g.deps,
            (mods1.map MUnit.uid).filter
              fun i => idegGet (initInDeg g.deps) i = 0⟩)
        ⟨[], [], g.deps, initInDeg g.deps,
          (mods1.map MUnit.uid).filter
            fun i => idegGet (initInDeg g.deps) i = 0⟩ := by
    rw [hrun0, softLoop_done g.hard g.deps _ mods1.length mods1.length
      _ hslen, forceLoop_done g.deps _ mods1.length mods1.length
      _ hslen]
  rw [hrun] at hu ⊢
  rw [hpq1.1] at hu ⊢
  have hu_proc := List.mem_reverse.mp hu
  obtain ⟨hp_proc, hidx⟩ := topoOK_index g.deps _ hinv1.1 hprNodup
    u p hu_proc hup
  exact ⟨List.mem_reverse.mpr hp_proc, hidx⟩

/-- C4: for an active set whose derived dependency graph records hard
edges only (every entry of the parent table is a hard edge), whose
hard edges are acyclic (witnessed by a rank function strictly
decreasing along edges) and point at active targets, the order
produced by `sort` places every package strictly after all of its
hard-edge targets. -/
theorem sort_topological (pc : String → List String → Bool)
    (st : MState) (r : String → Nat)
    (hnd : ((st.activeMods ++ st.inactiveMods).map MUnit.uid).Nodup)
    (hHardOnly : ∀ kv ∈ (sortSetup pc st).graph.deps, ∀ p ∈ kv.2,
      (kv.1, p) ∈ (sortSetup pc st).graph.hard)
    (hAcyc : ∀ u p, (u, p) ∈ (sortSetup pc st).graph.hard → r p < r u)
    (hTargets : ∀ kv ∈ (sortSetup pc st).graph.deps, ∀ p ∈ kv.2,
      p ∈ (sortSetup pc st).mods1.map MUnit.uid) :
    ∀ u p, (u, p) ∈ (sortSetup pc st).graph.hard →
      u ∈ (sortActive pc st).activeMods.map MUnit.uid →
      p ∈ (sortActive pc st).activeMods.map MUnit.uid ∧
      idxOf p ((sortActive pc st).activeMods.map MUnit.uid)
        < idxOf u ((sortActive pc st).activeMods.map MUnit.uid) := by
  intro u p hup hu
  by_cases he : st.activeMods = []
  · rw [sortSetup_hard_empty pc st he] at hup
    cases hup
  · have hGWF : GraphWF (sortSetup pc st).graph := by
      have hge : (sortSetup pc st).graph
          = buildGraph pc (autoActivate (scanDeps pc
              (st.activeMods.map MUnit.uid) st.modMap
              st.activeMods).missing st (st.activeMods.map MUnit.uid)
              (scanDeps pc (st.activeMods.map MUnit.uid) st.modMap
                st.activeMods).banIds).2
            (addedIdsOf (sortSetup pc st).mods1)
            (sortSetup pc st).mods1 := rfl
      rw [hge]
      exact buildGraph_wf pc _ _ _
    obtain ⟨hGk, hGps0, hHardDeps⟩ := hGWF
    have hGps : ∀ w, (depsOf (sortSetup pc st).graph.deps w).Nodup := by
      intro w
      unfold depsOf
      cases hg : aget (sortSetup pc st).graph.deps w with
      | none => exact List.nodup_nil
      | some ps => exact hGps0 (w, ps) (aget_mem hg)
    have hRank : ∀ u' p', p' ∈ depsOf (sortSetup pc st).graph.deps u' →
        r p' < r u' := by
      intro u' p' hp'
      unfold depsOf at hp'
      cases hg : aget (sortSetup pc st).graph.deps u' with
      | none => rw [hg] at hp'; cases hp'
      | some ps =>
          rw [hg] at hp'
          rw [show (some ps).getD ([] : List String) = ps from rfl] at hp'
          exact hAcyc u' p' (hHardOnly (u', ps) (aget_mem hg) p' hp')
    have hTarg : ∀ u' p', p' ∈ depsOf (sortSetup pc st).graph.deps u' →
        p' ∈ (sortSetup pc st).mods1.map MUnit.uid := by
      intro u' p' hp'
      unfold depsOf at hp'
      cases hg : aget (sortSetup pc st).graph.deps u' with
      | none => rw [hg] at hp'; cases hp'
      | some ps =>
          rw [hg] at hp'
          rw [show (some ps).getD ([] : List String) = ps from rfl] at hp'
          exact hTargets (u', ps) (aget_mem hg) p' hp'
    have hkeys : ((sortSetup pc st).mods1.map MUnit.uid).Nodup :=
      sortSetup_mods1_nodup pc st hnd
    have hamap : (sortSetup pc st).amap
        = (sortSetup pc st).mods1.map fun m => (m.uid, m) := rfl
    have hact : (sortActive pc st).activeMods = processErrors pc
        (((sortRun (sortSetup pc st).graph
          ((sortSetup pc st).mods1.map fun m => (m.uid, m))
          (sortSetup pc st).mods1).sorted.enum).map
          fun q => { q.2 with loadOrder := some (q.1 + 1) }) := by
      rw [← hamap]
      unfold sortActive
      rw [if_neg he]
    have hids : (sortActive pc st).activeMods.map MUnit.uid
        = (sortRun (sortSetup pc st).graph
            ((sortSetup pc st).mods1.map fun m => (m.uid, m))
            (sortSetup pc st).mods1).sorted.map MUnit.uid := by
      rw [hact, processErrors_uids, withOrder_uids]
    rw [hids] at hu ⊢
    have hp_in : p ∈ depsOf (sortSetup pc st).graph.deps u :=
      hHardDeps (u, p) hup
    exact sortRun_topo (sortSetup pc st).graph (sortSetup pc st).mods1
      r hkeys hGk hGps hRank hTarg u p hp_in hu

/-- Acyclic hard-only concrete input: active `A` requires active `B`. -/
def c4A : MUnit :=
  ⟨"A", none, [], [], [], [⟨"B", none, "requirement", [], none⟩],
    [], [], [], [], none⟩

def c4B : MUnit :=
  ⟨"B", none, [], [], [], [], [], [], [], [], none⟩

def c4st : MState := ⟨[c4A, c4B], [], [("A", c4A), ("B", c4B)]⟩

theorem sort_topological_witness :
    ((c4st.activeMods ++ c4st.inactiveMods).map MUnit.uid).Nodup
    ∧ ("A", "B") ∈ (sortSetup (fun _ _ => true) c4st).graph.hard
    ∧ "A" ∈ (sortActive (fun _ _ => true) c4st).activeMods.map
        MUnit.uid
    ∧ "B" ∈ (sortActive (fun _ _ => true) c4st).activeMods.map
        MUnit.uid
    ∧ idxOf "B" ((sortActive (fun _ _ => true) c4st).activeMods.map
          MUnit.uid)
        < idxOf "A" ((sortActive (fun _ _ => true) c4st).activeMods.map
            MUnit.uid) := by
  have hd : (sortSetup (fun _ _ => true) c4st).graph.deps
      = [("A", ["B"])] := by decide
  have hh : (sortSetup (fun _ _ => true) c4st).graph.hard
      = [("A", "B")] := by decide
  have hm : (sortSetup (fun _ _ => true) c4st).mods1.map MUnit.uid
      = ["A", "B"] := by decide
  have hmain := sort_topological (fun _ _ => true) c4st
    (fun s => if s = "A" then 1 else 0) (by decide)
    (by
      intro kv hkv q hq
      rw [hd] at hkv
      rw [hh]
      have hkve : kv = ("A", ["B"]) := List.mem_singleton.mp hkv
      subst hkve
      have hqe : q = "B" := List.mem_singleton.mp hq
      subst hqe
      exact List.mem_singleton.mpr rfl)
    (by
      intro u' p' h
      rw [hh] at h
      have he : (u', p') = ("A", "B") := List.mem_singleton.mp h
      rw [Prod.mk.injEq] at he
      rw [he.1, he.2]
      decide)
    (by
      intro kv hkv q hq
      rw [hd] at hkv
      rw [hm]
      have hkve : kv = ("A", ["B"]) := List.mem_singleton.mp hkv
      subst hkve
      have hqe : q = "B" := List.mem_singleton.mp hq
      subst hqe
      decide)
    "A" "B" (by decide) (by decide)
  exact ⟨by decide, by decide, by decide, hmain.1, hmain.2⟩

/-- One dependency step of the first `sort` pass. -/
def scanStep (pc : String → List String → Bool) (ids0 : List String)
    (modMap : List (String × MUnit)) (acc2 : BanMissing) (d : SDep) :
    BanMissing :=
  if d.dtype = "conflict" then
    if d.depId ∈ ids0 then { acc2 with banIds := sadd acc2.banIds d.depId }
    else acc2
  else if d.dtype = "requirement" ∨ d.dtype = "patch" then
    if (match d.cond with
        | some cnd => !pc cnd ids0
        | none => false) then acc2
    else if d.depId ∉ ids0 ∧ d.depId ∉ acc2.banIds then
      match aget modMap d.depId with
      | some cand => { acc2 with missing := acc2.missing ++ [cand] }
      | none => acc2
    else acc2
  else acc2

theorem scanDeps_eq_foldl (pc : String → List String → Bool)
    (ids0 : List String) (modMap : List (String × MUnit))
    (mods : List MUnit) :
    scanDeps pc ids0 modMap mods
      = mods.foldl (fun acc m =>
          m.deps.foldl (scanStep pc ids0 modMap) acc) ⟨[], []⟩ := rfl

theorem scanStep_ban_mono (pc : String → List String → Bool)
    (ids0 : List String) (modMap : List (String × MUnit))
    (acc2 : BanMissing) (d : SDep) (x : String)
    (h : x ∈ acc2.banIds) :
    x ∈ (scanStep pc ids0 modMap acc2 d).banIds := by
  unfold scanStep
  split
  · split
    · exact mem_sadd.mpr (Or.inl h)
    · exact h
  · split
    · split
      · exact h
      · split
        · split
          · exact h
          · exact h
        · exact h
    · exact h

theorem scanStep_miss_mono (pc : String → List String → Bool)
    (ids0 : List String) (modMap : List (String × MUnit))
    (acc2 : BanMissing) (d : SDep) (x : MUnit)
    (h : x ∈ acc2.missing) :
    x ∈ (scanStep pc ids0 modMap acc2 d).missing := by
  unfold scanStep
  split
  · split
    · exact h
    · exact h
  · split
    · split
      · exact h
      · split
        · split
          · exact List.mem_append_left _ h
          · exact h
        · exact h
    · exact h

theorem scanFoldDeps_ban_mono (pc : String → List String → Bool)
    (ids0 : List String) (modMap : List (String × MUnit)) (x : String) :
    ∀ (ds : List SDep) (acc2 : BanMissing), x ∈ acc2.banIds →
      x ∈ (ds.foldl (scanStep pc ids0 modMap) acc2).banIds := by
  intro ds
  induction ds with
  | nil => intro acc2 h; exact h
  | cons d rest ih =>
      intro acc2 h
      exact ih _ (scanStep_ban_mono pc ids0 modMap acc2 d x h)

theorem scanFoldDeps_miss_mono (pc : String → List String → Bool)
    (ids0 : List String) (modMap : List (String × MUnit)) (x : MUnit) :
    ∀ (ds : List SDep) (acc2 : BanMissing), x ∈ acc2.missing →
      x ∈ (ds.foldl (scanStep pc ids0 modMap) acc2).missing := by
  intro ds
  induction ds with
  | nil => intro acc2 h; exact h
  | cons d rest ih =>
      intro acc2 h
      exact ih _ (scanStep_miss_mono pc ids0 modMap acc2 d x h)

theorem scanFoldMods_ban_mono (pc : String → List String → Bool)
    (ids0 : List String) (modMap : List (String × MUnit)) (x : String) :
    ∀ (ms : List MUnit) (acc : BanMissing), x ∈ acc.banIds →
      x ∈ (ms.foldl (fun acc m =>
        m.deps.foldl (scanStep pc ids0 modMap) acc) acc).banIds := by
  intro ms
  induction ms with
  | nil => intro acc h; exact h
  | cons m rest ih =>
      intro acc h
      exact ih _ (scanFoldDeps_ban_mono pc ids0 modMap x m.deps acc h)

theorem scanFoldMods_miss_mono (pc : String → List String → Bool)
    (ids0 : List String) (modMap : List (String × MUnit)) (x : MUnit) :
    ∀ (ms : List MUnit) (acc : BanMissing), x ∈ acc.missing →
      x ∈ (ms.foldl (fun acc m =>
        m.deps.foldl (scanStep pc ids0 modMap) acc) acc).missing := by
  intro ms
  induction ms with
  | nil => intro acc h; exact h
  | cons m rest ih =>
      intro acc h
      exact ih _ (scanFoldDeps_miss_mono pc ids0 modMap x m.deps acc h)

/-- A hard, condition-free dependency of an active mod whose target is
known, not active and never conflict-banned contributes its candidate
to the missing list of the first pass. -/
theorem scanDeps_missing_mem (pc : String → List String → Bool)
    (ids0 : List String) (modMap : List (String × MUnit))
    (mods : List MUnit) (mA : MUnit) (d : SDep) (mB : MUnit)
    (hA : mA ∈ mods)
    (hd : d ∈ mA.deps)
    (hk : d.dtype = "requirement" ∨ d.dtype = "patch")
    (hcond : d.cond = none)
    (hB : aget modMap d.depId = some mB)
    (hnact : d.depId ∉ ids0)
    (hnban : d.depId ∉ (scanDeps pc ids0 modMap mods).banIds) :
    mB ∈ (scanDeps pc ids0 modMap mods).missing := by
  obtain ⟨l1, l2, rfl⟩ := List.append_of_mem hA
  obtain ⟨d1s, d2s, hds⟩ := List.append_of_mem hd
  rw [scanDeps_eq_foldl] at hnban ⊢
  rw [List.foldl_append] at hnban ⊢
  rw [show ((mA :: l2).foldl (fun acc m =>
      m.deps.foldl (scanStep pc ids0 modMap) acc)
      (l1.foldl (fun acc m =>
        m.deps.foldl (scanStep pc ids0 modMap) acc) ⟨[], []⟩))
    = l2.foldl (fun acc m =>
        m.deps.foldl (scanStep pc ids0 modMap) acc)
      (mA.deps.foldl (scanStep pc ids0 modMap)
        (l1.foldl (fun acc m =>
          m.deps.foldl (scanStep pc ids0 modMap) acc) ⟨[], []⟩))
    from rfl] at hnban ⊢
  rw [hds, List.foldl_append] at hnban ⊢
  rw [show ((d :: d2s).foldl (scanStep pc ids0 modMap)
      (d1s.foldl (scanStep pc ids0 modMap)
        (l1.foldl (fun acc m =>
          m.deps.foldl (scanStep pc ids0 modMap) acc) ⟨[], []⟩)))
    = d2s.foldl (scanStep pc ids0 modMap)
        (scanStep pc ids0 modMap
          (d1s.foldl (scanStep pc ids0 modMap)
            (l1.foldl (fun acc m =>
              m.deps.foldl (scanStep pc ids0 modMap) acc) ⟨[], []⟩)) d)
    from rfl] at hnban ⊢
  refine scanFoldMods_miss_mono pc ids0 modMap mB l2 _ ?_
  refine scanFoldDeps_miss_mono pc ids0 modMap mB d2s _ ?_
  have hnban2 : d.depId ∉ (d1s.foldl (scanStep pc ids0 modMap)
      (l1.foldl (fun acc m =>
        m.deps.foldl (scanStep pc ids0 modMap) acc)
        ⟨[], []⟩)).banIds := by
    intro hmem
    apply hnban
    refine scanFoldMods_ban_mono pc ids0 modMap d.depId l2 _ ?_
    refine scanFoldDeps_ban_mono pc ids0 modMap d.depId d2s _ ?_
    exact scanStep_ban_mono pc ids0 modMap _ d d.depId hmem
  unfold scanStep
  have hnc : ¬ d.dtype = "conflict" := by
    cases hk with
    | inl h => rw [h]; decide
    | inr h => rw [h]; decide
  rw [if_neg hnc, if_pos hk, hcond]
  rw [if_neg (show ¬ (false = true) from by intro hcc; cases hcc)]
  rw [if_pos ⟨hnact, hnban2⟩, hB]
  exact List.mem_append_right _ (List.mem_singleton.mpr rfl)

theorem activateMod_modMap (st : MState) (modId : String) :
    (activateMod st modId).1.modMap = st.modMap := by
  cases hm : aget st.modMap modId with
  | none => rw [activateMod_none st modId hm]
  | some m =>
      by_cases hmem : m.uid ∈ uidsOf st.inactiveMods
      · rw [activateMod_some_mem st modId m hm hmem]
      · rw [activateMod_some_nomem st modId m hm hmem]

theorem activateMod_active_mono (st : MState) (modId : String)
    (x : String) (h : x ∈ uidsOf st.activeMods) :
    x ∈ uidsOf (activateMod st modId).1.activeMods := by
  cases hm : aget st.modMap modId with
  | none =>
      rw [activateMod_none st modId hm]
      exact h
  | some m =>
      by_cases hmem : m.uid ∈ uidsOf st.inactiveMods
      · rw [activateMod_some_mem st modId m hm hmem]
        show x ∈ uidsOf (st.activeMods ++ [m])
        rw [uidsOf_append]
        exact List.mem_append_left _ h
      · rw [activateMod_some_nomem st modId m hm hmem]
        exact h

/-- The state invariant of the auto-activation fold: the mod map is
untouched, the live id set only names active packages, and the tracked
candidate remains somewhere in the partition. -/
def AASInv (modMap0 : List (String × MUnit)) (mB : MUnit)
    (acc : MState × List String) : Prop :=
  acc.1.modMap = modMap0 ∧
  (∀ x ∈ acc.2, x ∈ uidsOf acc.1.activeMods) ∧
  (mB.uid ∈ uidsOf acc.1.activeMods ∨
    mB.uid ∈ uidsOf acc.1.inactiveMods)

theorem autoStep_AASInv (modMap0 : List (String × MUnit)) (mB : MUnit)
    (ban : List String)
    (hmc : ∀ q ∈ modMap0, MUnit.uid q.2 = q.1)
    (acc : MState × List String) (nm : MUnit)
    (h : AASInv modMap0 mB acc) :
    AASInv modMap0 mB (autoStep ban acc nm) := by
  obtain ⟨hmap, hids, hB3⟩ := h
  unfold autoStep
  by_cases hg : nm.uid ∉ acc.2 ∧ nm.uid ∉ ban
  · rw [if_pos hg]
    cases hm : aget acc.1.modMap nm.uid with
    | none =>
        rw [show (let r := activateMod acc.1 nm.uid;
            if r.2 then (r.1, sadd acc.2 nm.uid) else (r.1, acc.2))
          = (if (activateMod acc.1 nm.uid).2 then
              ((activateMod acc.1 nm.uid).1, sadd acc.2 nm.uid)
            else ((activateMod acc.1 nm.uid).1, acc.2)) from rfl]
        rw [activateMod_none acc.1 nm.uid hm]
        exact ⟨hmap, hids, hB3⟩
    | some m =>
        rw [show (let r := activateMod acc.1 nm.uid;
            if r.2 then (r.1, sadd acc.2 nm.uid) else (r.1, acc.2))
          = (if (activateMod acc.1 nm.uid).2 then
              ((activateMod acc.1 nm.uid).1, sadd acc.2 nm.uid)
            else ((activateMod acc.1 nm.uid).1, acc.2)) from rfl]
        by_cases hmem : m.uid ∈ uidsOf acc.1.inactiveMods
        · rw [activateMod_some_mem acc.1 nm.uid m hm hmem]
          have hmuid : m.uid = nm.uid := by
            have hmm : (nm.uid, m) ∈ modMap0 := by
              rw [← hmap]
              exact aget_mem hm
            exact hmc (nm.uid, m) hmm
          refine ⟨hmap, ?_, ?_⟩
          · intro x hx
            show x ∈ uidsOf (acc.1.activeMods ++ [m])
            rw [uidsOf_append]
            cases mem_sadd.mp hx with
            | inl h1 => exact List.mem_append_left _ (hids x h1)
            | inr h2 =>
                refine List.mem_append_right _ ?_
                rw [uidsOf_singleton, h2, ← hmuid]
                exact List.mem_singleton.mpr rfl
          · cases hB3 with
            | inl h1 =>
                refine Or.inl ?_
                show mB.uid ∈ uidsOf (acc.1.activeMods ++ [m])
                rw [uidsOf_append]
                exact List.mem_append_left _ h1
            | inr h2 =>
                by_cases hBm : mB.uid = m.uid
                · refine Or.inl ?_
                  show mB.uid ∈ uidsOf (acc.1.activeMods ++ [m])
                  rw [uidsOf_append]
                  refine List.mem_append_right _ ?_
                  rw [uidsOf_singleton, hBm]
                  exact List.mem_singleton.mpr rfl
                · refine Or.inr ?_
                  show mB.uid ∈ uidsOf (eraseUid acc.1.inactiveMods m.uid)
                  rw [uidsOf_eraseUid]
                  exact (List.mem_erase_of_ne hBm).mpr h2
        · rw [activateMod_some_nomem acc.1 nm.uid m hm hmem]
          exact ⟨hmap, hids, hB3⟩
  · rw [if_neg hg]
    exact ⟨hmap, hids, hB3⟩

theorem autoStep_activates (modMap0 : List (String × MUnit))
    (mB : MUnit) (ban : List String)
    (acc : MState × List String)
    (h : AASInv modMap0 mB acc)
    (hB : aget modMap0 mB.uid = some mB) (hnban : mB.uid ∉ ban) :
    mB.uid ∈ uidsOf (autoStep ban acc mB).1.activeMods := by
  obtain ⟨hmap, hids, hB3⟩ := h
  unfold autoStep
  by_cases hg : mB.uid ∉ acc.2 ∧ mB.uid ∉ ban
  · rw [if_pos hg]
    have hm : aget acc.1.modMap mB.uid = some mB := by
      rw [hmap]
      exact hB
    rw [show (let r := activateMod acc.1 mB.uid;
        if r.2 then (r.1, sadd acc.2 mB.uid) else (r.1, acc.2))
      = (if (activateMod acc.1 mB.uid).2 then
          ((activateMod acc.1 mB.uid).1, sadd acc.2 mB.uid)
        else ((activateMod acc.1 mB.uid).1, acc.2)) from rfl]
    by_cases hmem : mB.uid ∈ uidsOf acc.1.inactiveMods
    · rw [activateMod_some_mem acc.1 mB.uid mB hm hmem]
      show mB.uid ∈ uidsOf (acc.1.activeMods ++ [mB])
      rw [uidsOf_append]
      exact List.mem_append_right _
        (List.mem_singleton.mpr rfl)
    · rw [activateMod_some_nomem acc.1 mB.uid mB hm hmem]
      cases hB3 with
      | inl h1 => exact h1
      | inr h2 => exact absurd h2 hmem
  · rw [if_neg hg]
    have hin : mB.uid ∈ acc.2 := by
      by_contra hnin
      exact hg ⟨hnin, hnban⟩
    exact hids mB.uid hin

theorem autoFold_active_mono (ban : List String) (x : String) :
    ∀ (missing : List MUnit) (acc : MState × List String),
      x ∈ uidsOf acc.1.activeMods →
      x ∈ uidsOf (missing.foldl (autoStep ban) acc).1.activeMods := by
  intro missing
  induction missing with
  | nil => intro acc h; exact h
  | cons nm rest ih =>
      intro acc h
      rw [List.foldl_cons]
      refine ih (autoStep ban acc nm) ?_
      unfold autoStep
      by_cases hg : nm.uid ∉ acc.2 ∧ nm.uid ∉ ban
      · rw [if_pos hg]
        rw [show (let r := activateMod acc.1 nm.uid;
            if r.2 then (r.1, sadd acc.2 nm.uid) else (r.1, acc.2))
          = (if (activateMod acc.1 nm.uid).2 then
              ((activateMod acc.1 nm.uid).1, sadd acc.2 nm.uid)
            else ((activateMod acc.1 nm.uid).1, acc.2)) from rfl]
        by_cases hr : (activateMod acc.1 nm.uid).2 = true
        · rw [if_pos hr]
          exact activateMod_active_mono acc.1 nm.uid x h
        · rw [if_neg hr]
          exact activateMod_active_mono acc.1 nm.uid x h
      · rw [if_neg hg]
        exact h

/-- If the candidate sits in the missing list, was not banned, and the
map is id-consistent, the single auto-activation pass leaves it
active. -/
theorem autoActivate_activates (modMap0 : List (String × MUnit))
    (mB : MUnit) (ban : List String)
    (hmc : ∀ q ∈ modMap0, MUnit.uid q.2 = q.1)
    (hB : aget modMap0 mB.uid = some mB) (hnban : mB.uid ∉ ban) :
    ∀ (missing : List MUnit) (acc : MState × List String),
      AASInv modMap0 mB acc → mB ∈ missing →
      mB.uid ∈ uidsOf (missing.foldl (autoStep ban) acc).1.activeMods := by
  intro missing
  induction missing with
  | nil => intro acc _ hm; cases hm
  | cons nm rest ih =>
      intro acc hinv hm
      rw [List.foldl_cons]
      cases List.mem_cons.mp hm with
      | inl h1 =>
          subst h1
          exact autoFold_active_mono ban mB.uid rest _
            (autoStep_activates modMap0 mB ban acc hinv hB hnban)
      | inr h2 =>
          exact ih (autoStep ban acc nm)
            (autoStep_AASInv modMap0 mB ban hmc acc nm hinv) h2

/-- C5 (amended): if an active package declares a hard
(`requirement`/`patch`) condition-free dependency on a known, inactive
and never-conflict-banned package B, then `sort` leaves B in the
resulting active set.  (Auto-activation is a single pass — hard
dependencies of newly activated packages are not themselves activated
— and B need not precede its dependent when the hard edges are cyclic;
see the counterexample.) -/
theorem sort_auto_activation_member (pc : String → List String → Bool)
    (st : MState) (mA : MUnit) (d : SDep) (mB : MUnit)
    (hnd : ((st.activeMods ++ st.inactiveMods).map MUnit.uid).Nodup)
    (hmc : ∀ q ∈ st.modMap, MUnit.uid q.2 = q.1)
    (hA : mA ∈ st.activeMods)
    (hd : d ∈ mA.deps)
    (hk : d.dtype = "requirement" ∨ d.dtype = "patch")
    (hcond : d.cond = none)
    (hB : aget st.modMap d.depId = some mB)
    (hBin : mB.uid ∈ uidsOf st.inactiveMods)
    (hnact : d.depId ∉ st.activeMods.map MUnit.uid)
    (hnban : d.depId ∉ (scanDeps pc (st.activeMods.map MUnit.uid)
      st.modMap st.activeMods).banIds) :
    mB.uid ∈ (sortActive pc st).activeMods.map MUnit.uid := by
  have hBuid : mB.uid = d.depId := hmc (d.depId, mB) (aget_mem hB)
  have hB' : aget st.modMap mB.uid = some mB := by
    rw [hBuid]; exact hB
  have hnban' : mB.uid ∉ (scanDeps pc (st.activeMods.map MUnit.uid)
      st.modMap st.activeMods).banIds := by
    rw [hBuid]; exact hnban
  have hmiss : mB ∈ (scanDeps pc (st.activeMods.map MUnit.uid)
      st.modMap st.activeMods).missing :=
    scanDeps_missing_mem pc (st.activeMods.map MUnit.uid) st.modMap
      st.activeMods mA d mB hA hd hk hcond hB hnact hnban
  have hmods1 : mB.uid ∈ (sortSetup pc st).mods1.map MUnit.uid := by
    show mB.uid ∈ ((autoActivate (scanDeps pc
      (st.activeMods.map MUnit.uid) st.modMap st.activeMods).missing
      st (st.activeMods.map MUnit.uid)
      (scanDeps pc (st.activeMods.map MUnit.uid) st.modMap
        st.activeMods).banIds).1.activeMods).map MUnit.uid
    rw [autoActivate_eq_foldl]
    exact autoActivate_activates st.modMap mB
      (scanDeps pc (st.activeMods.map MUnit.uid) st.modMap
        st.activeMods).banIds hmc hB' hnban'
      (scanDeps pc (st.activeMods.map MUnit.uid) st.modMap
        st.activeMods).missing
      (st, st.activeMods.map MUnit.uid)
      ⟨rfl, fun x hx => hx, Or.inr hBin⟩ hmiss
  have he : ¬ st.activeMods = [] := by
    intro h0
    rw [h0] at hA
    cases hA
  have hkeys : ((sortSetup pc st).mods1.map MUnit.uid).Nodup :=
    sortSetup_mods1_nodup pc st hnd
  obtain ⟨hperm, _⟩ := sortRun_perm (sortSetup pc st).graph
    (sortSetup pc st).mods1 hkeys
  have hamap : (sortSetup pc st).amap
      = (sortSetup pc st).mods1.map fun m => (m.uid, m) := rfl
  have hact : (sortActive pc st).activeMods = processErrors pc
      (((sortRun (sortSetup pc st).graph
        ((sortSetup pc st).mods1.map fun m => (m.uid, m))
        (sortSetup pc st).mods1).sorted.enum).map
        fun q => { q.2 with loadOrder := some (q.1 + 1) }) := by
    rw [← hamap]
    unfold sortActive
    rw [if_neg he]
  have hids : (sortActive pc st).activeMods.map MUnit.uid
      = (sortRun (sortSetup pc st).graph
          ((sortSetup pc st).mods1.map fun m => (m.uid, m))
          (sortSetup pc st).mods1).sorted.map MUnit.uid := by
    rw [hact, processErrors_uids, withOrder_uids]
  rw [hids]
  exact hperm.mem_iff.mpr hmods1

/-- Cyclic input for the auto-activation counterexample: active `A`
requires inactive `B`; `B` requires `A` (a cycle) and inactive `C`. -/
def c5A : MUnit :=
  ⟨"A", none, [], [], [], [⟨"B", none, "requirement", [], none⟩],
    [], [], [], [], none⟩

def c5B : MUnit :=
  ⟨"B", none, [], [], [], [⟨"A", none, "requirement", [], none⟩,
    ⟨"C", none, "requirement", [], none⟩], [], [], [], [], none⟩

def c5C : MUnit :=
  ⟨"C", none, [], [], [], [], [], [], [], [], none⟩

def c5st : MState :=
  ⟨[c5A], [c5B, c5C], [("A", c5A), ("B", c5B), ("C", c5C)]⟩

/-- Counterexample to C5 as stated.  `B` is auto-activated, and `B`
itself declares a hard, condition-free `requirement` on `C`, which is
known, inactive and never conflict-banned — yet `C` is not activated
(the pass is single, not recursive), and `B` lands strictly after its
dependent `A` in the final order (the hard edges form a cycle). -/
theorem sort_auto_activation_counterexample :
    (sortActive (fun _ _ => true) c5st).activeMods.map MUnit.uid
      = ["A", "B"]
    ∧ (⟨"C", none, "requirement", [], none⟩ : SDep) ∈ c5B.deps
    ∧ aget c5st.modMap "C" = some c5C
    ∧ c5C.uid ∈ uidsOf c5st.inactiveMods
    ∧ "C" ∉ (scanDeps (fun _ _ => true)
        (c5st.activeMods.map MUnit.uid) c5st.modMap
        c5st.activeMods).banIds
    ∧ "C" ∉ (sortActive (fun _ _ => true) c5st).activeMods.map
        MUnit.uid
    ∧ idxOf "A" ((sortActive (fun _ _ => true) c5st).activeMods.map
          MUnit.uid)
        < idxOf "B" ((sortActive (fun _ _ => true) c5st).activeMods.map
            MUnit.uid) := by
  decide

theorem sort_auto_activation_member_witness :
    ((c5st.activeMods ++ c5st.inactiveMods).map MUnit.uid).Nodup
    ∧ c5A ∈ c5st.activeMods
    ∧ c5B.uid ∈ uidsOf c5st.inactiveMods
    ∧ c5B.uid ∈ (sortActive (fun _ _ => true) c5st).activeMods.map
        MUnit.uid :=
  ⟨by decide, by decide, by decide,
    sort_auto_activation_member (fun _ _ => true) c5st c5A
      ⟨"B", none, "requirement", [], none⟩ c5B (by decide) (by decide)
      (by decide) (by decide) (by decide) (by decide) (by decide)
      (by decide) (by decide) (by decide)⟩

end SortModel


/-- Concrete packages for the override-warning claims: `c1M1` adds the
identifier `"x"`, `c1M2` and `c1M3` both override it. -/
def c1M1 : MUnit :=
  ⟨"M1", none, [], ["x"], [], [], [], [], [], [], none⟩

def c1M2 : MUnit :=
  ⟨"M2", none, [], [], ["x"], [], [], [], [], [], none⟩

def c1M3 : MUnit :=
  ⟨"M3", none, [], [], ["x"], [], [], [], [], [], none⟩

/-- Counterexample to C1 as stated.  In the active list
`[c1M1, c1M2, c1M3]`, the identifier `"x"` is first introduced (added)
by `c1M1` and overridden by `c1M2` and `c1M3`; the claim says both
overriders receive a warning naming `c1M1`.  Instead `process_errors`
binds `"x"` to the first *overrider* `c1M2` (the `bind_id` pass reads
`override_id`, not `add_id`), so `c1M2` receives no warning at all and
`c1M3`'s warning names `c1M2`, not the adder `c1M1`. -/
theorem process_errors_override_counterexample :
    (processErrors (fun _ _ => true) [c1M1, c1M2, c1M3]).map MUnit.warnings
      = [[], [], [locOverrideId "M2" "M2" "x"]] := by
  decide

/-- **C1** (corrected).  After `process_errors`, for every identifier
in some active package's overrides set, let B be the *first overrider*:
the first package in the active list's current (pre-sort) order whose
overrides set contains the identifier (first-write-wins; B is not
necessarily the package that *added* the identifier).  Then every
active package other than B that overrides the identifier has a warning
naming B appended.  The first conjunct places the warning; the second
exhibits the recomputed package inside the `process_errors` output; the
third identifies the `bind_id` binding with the first overrider. -/
theorem process_errors_override_warning (pc : String → List String → Bool)
    (mods : List MUnit) (m B : MUnit) (oid : String)
    (hm : m ∈ mods) (ho : oid ∈ m.overrideId)
    (hb : firstOverrider mods oid = some B) (hne : B.uid ≠ m.uid) :
    locOverrideId B.name B.uid oid ∈
      (processErrorsMod pc (mods.map MUnit.uid) (bindIdOf mods) m).warnings ∧
    processErrorsMod pc (mods.map MUnit.uid) (bindIdOf mods) m
      ∈ processErrors pc mods ∧
    (∀ k, aget (bindIdOf mods) k
      = (firstOverrider mods k).map fun w => (w.name, w.uid)) := by
  refine ⟨?_, List.mem_map_of_mem _ hm, bindIdOf_eq_firstOverrider mods⟩
  show _ ∈ _ ++ _ ++ overrideWarnContrib (bindIdOf mods) m
  refine List.mem_append_right _ ?_
  unfold overrideWarnContrib
  refine List.mem_filterMap.mpr ⟨oid, ho, ?_⟩
  rw [bindIdOf_eq_firstOverrider, hb]
  show (if B.uid ≠ m.uid then some (locOverrideId B.name B.uid oid)
    else none) = some (locOverrideId B.name B.uid oid)
  rw [if_pos hne]

/-- Witness for C1 (amended): in `[c1M1, c1M2, c1M3]` the first
overrider of `"x"` is `c1M2`, and `c1M3` receives the warning naming
it. -/
theorem process_errors_override_warning_witness :
    locOverrideId "M2" "M2" "x" ∈
      (processErrorsMod (fun _ _ => true)
        ([c1M1, c1M2, c1M3].map MUnit.uid)
        (bindIdOf [c1M1, c1M2, c1M3]) c1M3).warnings ∧
    processErrorsMod (fun _ _ => true) ([c1M1, c1M2, c1M3].map MUnit.uid)
        (bindIdOf [c1M1, c1M2, c1M3]) c1M3
      ∈ processErrors (fun _ _ => true) [c1M1, c1M2, c1M3] := by
  have h := process_errors_override_warning (fun _ _ => true)
    [c1M1, c1M2, c1M3] c1M3 c1M2 "x" (by decide) (by decide) (by decide)
    (by decide)
  exact ⟨h.1, h.2.1⟩

/-- `extract_ids` on a present root that is not a localisation/wrapper
document. -/
theorem extractIds_some (t : XTree) (c : List String) :
    extractIds (some t) c
      = if strLower t.tagOf = "infotext" ∨ strLower t.tagOf = "infotexts" ∨
            strLower t.tagOf = "contentpackage" ∨
            strLower t.tagOf = "english"
        then (⟨[], []⟩, c)
        else parseLoop [(t, false, none)] ⟨[], []⟩ c := rfl

/-- **C9.** Identifier extraction is deterministic — the resulting
add/override sets do not depend on the extractor's accumulated
unknown-tags cache, so repeated calls on a fixed tree return the same
sets — and an `override` node forces the override flag true for its
whole subtree: processing a frame whose node's lowered tag is
`override` never adds to the `add_id` set, every identifier emitted
below it (by id rules, special rules, or the animation-type fallback,
through any chain of context rules) lands in `override_id`. -/
theorem extract_ids_deterministic_and_override :
    (∀ (root : Option XTree) (c c' : List String),
      (extractIds root c).1 = (extractIds root c').1) ∧
    (∀ (t : XTree) (isOv : Bool) (ctx : Option String)
      (u : IDParserUnit) (c : List String),
      strLower t.tagOf = "override" →
      (parseLoop [(t, isOv, ctx)] u c).1.addIds = u.addIds) := by
  constructor
  · intro root c c'
    cases root with
    | none => rfl
    | some t =>
        rw [extractIds_some, extractIds_some]
        by_cases hc : strLower t.tagOf = "infotext" ∨
            strLower t.tagOf = "infotexts" ∨
            strLower t.tagOf = "contentpackage" ∨
            strLower t.tagOf = "english"
        · rw [if_pos hc, if_pos hc]
        · rw [if_neg hc, if_neg hc]
          exact parseLoopF_cache_indep (stackSize [(t, false, none)])
            [(t, false, none)] ⟨[], []⟩ c c'
  · intro t isOv ctx u c h
    have hr : RULES (strLower t.tagOf) = some IdRule.overrideRule := by
      rw [h]
      rfl
    obtain ⟨k, hk⟩ : ∃ k, stackSize [(t, isOv, ctx)] = k + 1 := by
      refine ⟨stackSize [(t, isOv, ctx)] - 1, ?_⟩
      have h1 : stackSize [(t, isOv, ctx)] = XTree.size t + 0 := rfl
      have := size_pos t
      omega
    show (parseLoopF (stackSize [(t, isOv, ctx)]) [(t, isOv, ctx)]
      u c).1.addIds = u.addIds
    rw [hk]
    show (parseLoopF k (stepFrame (t, isOv, ctx) [] u c).1
      (stepFrame (t, isOv, ctx) [] u c).2.1
      (stepFrame (t, isOv, ctx) [] u c).2.2).1.addIds = u.addIds
    rw [stepFrame_rule isOv ctx [] u c hr]
    refine parseLoopF_override_addIds k
      (applyRule IdRule.overrideRule t isOv ctx [] u).1 u c ?_
    intro fr hfr
    have hfr2 : fr ∈ pushFrames t.ncChildren true ctx ++ [] := hfr
    rcases List.mem_append.mp hfr2 with hm | hm
    · exact pushFrames_flag hm
    · cases hm

/-- Witness for C9: an `Override` wrapper around an `Items`/`Item`
subtree.  The extraction is unchanged by a pre-populated unknown-tags
cache, the subtree contributes nothing to `add_id`, and concretely the
item identifier lands in the override set. -/
theorem extract_ids_witness :
    ((extractIds (some (.elem "Override" []
        [.elem "Items" [] [.elem "Item" [("identifier", "widget")] []]]))
      []).1
      = (extractIds (some (.elem "Override" []
        [.elem "Items" [] [.elem "Item" [("identifier", "widget")] []]]))
      ["seen"]).1) ∧
    ((parseLoop [(.elem "Override" []
        [.elem "Items" [] [.elem "Item" [("identifier", "widget")] []]],
        false, none)] ⟨[], []⟩ []).1.addIds = []) ∧
    (extractIds (some (.elem "Override" []
        [.elem "Items" [] [.elem "Item" [("identifier", "widget")] []]]))
      []).1 = ⟨[], ["item.widget"]⟩ := by
  have h := extract_ids_deterministic_and_override
  exact ⟨h.1 _ [] ["seen"],
    h.2 (.elem "Override" []
      [.elem "Items" [] [.elem "Item" [("identifier", "widget")] []]])
      false none ⟨[], []⟩ [] (by decide),
    by decide⟩

/-- **C10.** The active and inactive lists partition the known
packages: under `PartitionInv` — every known id belongs to exactly one
of the two lists and neither list holds two packages with the same id —
each of the seven activation primitives preserves the invariant. -/
theorem activation_primitives_preserve_partition
    (st : MState) (id1 id2 : String) (h : PartitionInv st) :
    PartitionInv (activateMod st id1).1 ∧
    PartitionInv (deactivateMod st id1).1 ∧
    PartitionInv (activateAllMods st) ∧
    PartitionInv (swapActiveMods st id1 id2) ∧
    PartitionInv (swapInactiveMods st id1 id2) ∧
    PartitionInv (moveActiveModToEnd st id1) ∧
    PartitionInv (moveInactiveModToEnd st id1) :=
  ⟨activateMod_preserves st id1 h,
   deactivateMod_preserves st id1 h,
   activateAllMods_preserves st h,
   swapActiveMods_preserves st id1 id2 h,
   swapInactiveMods_preserves st id1 id2 h,
   moveActiveModToEnd_preserves st id1 h,
   moveInactiveModToEnd_preserves st id1 h⟩

/-- Witness for C10 at a concrete two-package state. -/
theorem activation_primitives_partition_witness :
    PartitionInv
      (activateMod
        ⟨[⟨"A", none, [], [], [], [], [], [], [], [], none⟩],
         [⟨"B", none, [], [], [], [], [], [], [], [], none⟩],
         [("A", ⟨"A", none, [], [], [], [], [], [], [], [], none⟩),
          ("B", ⟨"B", none, [], [], [], [], [], [], [], [], none⟩)]⟩
        "B").1 ∧
    PartitionInv
      (swapActiveMods
        ⟨[⟨"A", none, [], [], [], [], [], [], [], [], none⟩],
         [⟨"B", none, [], [], [], [], [], [], [], [], none⟩],
         [("A", ⟨"A", none, [], [], [], [], [], [], [], [], none⟩),
          ("B", ⟨"B", none, [], [], [], [], [], [], [], [], none⟩)]⟩
        "B" "A") := by
  have h := activation_primitives_preserve_partition
    ⟨[⟨"A", none, [], [], [], [], [], [], [], [], none⟩],
     [⟨"B", none, [], [], [], [], [], [], [], [], none⟩],
     [("A", ⟨"A", none, [], [], [], [], [], [], [], [], none⟩),
      ("B", ⟨"B", none, [], [], [], [], [], [], [], [], none⟩)]⟩
    "B" "A" (by decide)
  exact ⟨h.1, h.2.2.2.1⟩

/-- **C8.** After `process_errors`, every active package A with a
`conflict` dependency whose target is in the active set gets the
attribute-supplied message appended: to A's warnings when the
dependency's `level` attribute says `warning`, otherwise to A's errors
(which are then non-empty). -/
theorem process_errors_conflict (pc : String → List String → Bool)
    (mods : List MUnit) (m : MUnit) (d : SDep)
    (hm : m ∈ mods) (hd : d ∈ m.deps) (ht : d.dtype = "conflict")
    (ha : d.depId ∈ mods.map MUnit.uid) :
    processErrorsMod pc (mods.map MUnit.uid) (bindIdOf mods) m
      ∈ processErrors pc mods ∧
    (agetD d.attrs "level" "error" = "warning" →
      agetD d.attrs "message" "base-conflict" ∈
        (processErrorsMod pc (mods.map MUnit.uid) (bindIdOf mods)
          m).warnings) ∧
    (agetD d.attrs "level" "error" ≠ "warning" →
      agetD d.attrs "message" "base-conflict" ∈
        (processErrorsMod pc (mods.map MUnit.uid) (bindIdOf mods)
          m).errors ∧
      (processErrorsMod pc (mods.map MUnit.uid) (bindIdOf mods)
          m).errors ≠ []) := by
  refine ⟨List.mem_map_of_mem _ hm, ?_, ?_⟩
  · intro hlvl
    show _ ∈ _ ++ _ ++ _
    refine List.mem_append_left _ (List.mem_append_right _ ?_)
    refine List.mem_flatMap.mpr ⟨d, hd, ?_⟩
    unfold depWarnContrib
    rw [if_pos ht, if_pos ⟨ha, hlvl⟩]
    exact List.mem_singleton_self _
  · intro hlvl
    have hmem : agetD d.attrs "message" "base-conflict" ∈
        (processErrorsMod pc (mods.map MUnit.uid) (bindIdOf mods)
          m).errors := by
      show _ ∈ _ ++ _
      refine List.mem_append_right _ ?_
      refine List.mem_flatMap.mpr ⟨d, hd, ?_⟩
      unfold depErrContrib
      rw [if_pos ht, if_pos ⟨ha, hlvl⟩]
      exact List.mem_singleton_self _
    exact ⟨hmem, List.ne_nil_of_mem hmem⟩

/-- Witness for C8: a package with a `conflict` dependency (no `level`
attribute, message `"clash"`) on an active target ends with `"clash"`
among its errors. -/
theorem process_errors_conflict_witness :
    "clash" ∈ (processErrorsMod (fun _ _ => true)
      ([⟨"A", none, [], [], [],
          [⟨"B", none, "conflict", [("message", "clash")], none⟩],
          [], [], [], [], none⟩,
        ⟨"B", none, [], [], [], [], [], [], [], [], none⟩].map MUnit.uid)
      (bindIdOf [⟨"A", none, [], [], [],
          [⟨"B", none, "conflict", [("message", "clash")], none⟩],
          [], [], [], [], none⟩,
        ⟨"B", none, [], [], [], [], [], [], [], [], none⟩])
      ⟨"A", none, [], [], [],
          [⟨"B", none, "conflict", [("message", "clash")], none⟩],
          [], [], [], [], none⟩).errors := by
  have h := process_errors_conflict (fun _ _ => true)
    [⟨"A", none, [], [], [],
        [⟨"B", none, "conflict", [("message", "clash")], none⟩],
        [], [], [], [], none⟩,
      ⟨"B", none, [], [], [], [], [], [], [], [], none⟩]
    ⟨"A", none, [], [], [],
        [⟨"B", none, "conflict", [("message", "clash")], none⟩],
        [], [], [], [], none⟩
    ⟨"B", none, "conflict", [("message", "clash")], none⟩
    (by decide) (by decide) (by decide) (by decide)
  exact (h.2.2 (by decide)).1

end BMT
